import Mathlib

/-!
# `src/main/util.c`: UTF-8 / UTF-16 / UCS-4 conversion routines

A shallow embedding of the code-point codec of `util.c` and the properties
claimed of it.

Conventions of the embedding.

* A C string (`const char *`) is a `List Nat`: the bytes of memory starting at
  the pointer.  A byte is read through `byteAt`, which reduces modulo 256 and
  reads `0` (the terminator) past the end of the list; `strlen` counts the
  bytes before the first zero byte.  Pointer arithmetic `s + k` is `s.drop k`.
* `wchar_t` is 16 or 32 bits wide depending on the platform; the width is the
  parameter `wbits`.  A `wchar_t` or `R_wchar_t` value is kept as its bit
  pattern, a natural number, and a cast to the type is `% 2 ^ width`.
* `size_t` results that the callers read back as `ssize_t` (`(size_t)-1`,
  `(size_t)-2`) are kept as `Int`.
-/

namespace RUtil

/-! ## Memory model -/

/-- The byte `((unsigned char *) s)[i]`. -/
def byteAt (s : List Nat) (i : Nat) : Nat := s.getD i 0 % 256

/-- The C library `strlen`: the number of bytes before the first zero byte. -/
def strlen (s : List Nat) : Nat := (s.takeWhile (fun b => b % 256 != 0)).length

/-- The cast `(wchar_t) x` for a `wchar_t` of `wbits` bits. -/
def wcast (wbits : Nat) (x : Nat) : Nat := x % 2 ^ wbits

/-- The cast `(unsigned int) x`, also the wrap-around of `unsigned int` arithmetic. -/
def u32 (x : Nat) : Nat := x % 2 ^ 32

/-! ## Surrogate macros -/

/-- Modelled from the spec: the macro `HIGH_SURROGATE_START` is defined in a header that is
not part of `util.c`; the surrogate range is `[0xD800, 0xDFFF]`, its first half the high
surrogates. -/
def HIGH_SURROGATE_START : Nat := 0xD800

/-- Modelled from the spec: the macro `HIGH_SURROGATE_END`, see `HIGH_SURROGATE_START`. -/
def HIGH_SURROGATE_END : Nat := 0xDBFF

/-- Modelled from the spec: the macro `LOW_SURROGATE_START`, see `HIGH_SURROGATE_START`. -/
def LOW_SURROGATE_START : Nat := 0xDC00

/-- Modelled from the spec: the macro `LOW_SURROGATE_END`, see `HIGH_SURROGATE_START`. -/
def LOW_SURROGATE_END : Nat := 0xDFFF

/-- Modelled from the spec: the macro `IS_HIGH_SURROGATE(wc)`, a range test. -/
def IS_HIGH_SURROGATE (wc : Nat) : Bool :=
  decide (HIGH_SURROGATE_START ≤ wc) && decide (wc ≤ HIGH_SURROGATE_END)

/-- Modelled from the spec: the macro `IS_LOW_SURROGATE(wc)`, a range test. -/
def IS_LOW_SURROGATE (wc : Nat) : Bool :=
  decide (LOW_SURROGATE_START ≤ wc) && decide (wc ≤ LOW_SURROGATE_END)

/-- Modelled from the spec: the macro `IS_SURROGATE_PAIR(hs, ls)`: a high surrogate followed
by a low one. -/
def IS_SURROGATE_PAIR (hs ls : Nat) : Bool := IS_HIGH_SURROGATE hs && IS_LOW_SURROGATE ls

/-! ## `utf8clen` -/

/-- The table `utf8_table4`: number of additional bytes, indexed by `c & 0x3f`. -/
def utf8_table4 : List Nat :=
  [1,1,1,1,1,1,1,1,1,1,1,1,1,1,1,1,
   1,1,1,1,1,1,1,1,1,1,1,1,1,1,1,1,
   2,2,2,2,2,2,2,2,2,2,2,2,2,2,2,2,
   3,3,3,3,3,3,3,3,4,4,4,4,5,5,5,5]

/-- The function `utf8clen(char c)`; `c` is given as the byte value. -/
def utf8clen (c : Nat) : Nat :=
  if (c % 256) &&& 0xc0 ≠ 0xc0 then 1
  else 1 + utf8_table4.getD ((c % 256) &&& 0x3f) 0

/-! ## Single-character conversions -/

/-- The function `utf16toucs(high, low)`; the sum is returned as an `R_wchar_t`. -/
def utf16toucs (high low : Nat) : Nat :=
  u32 (0x10000 + ((high &&& 0x3FF) <<< 10) + (low &&& 0x3FF))

/-- The function `utf8toutf16low(s)`, for a `wchar_t` of `wbits` bits. -/
def utf8toutf16low (wbits : Nat) (s : List Nat) : Nat :=
  wcast wbits (LOW_SURROGATE_START ||| ((byteAt s 2 &&& 0x0F) <<< 6) ||| (byteAt s 3 &&& 0x3F))

/-- The function `utf8toucs32(high, s)`. -/
def utf8toucs32 (wbits : Nat) (high : Nat) (s : List Nat) : Nat :=
  utf16toucs high (utf8toutf16low wbits s)

/-- Outcome of `utf8toucs`: the returned `size_t` read as `ssize_t` (`-1` invalid, `-2`
incomplete) and the value stored through `w`, if the call stored one. -/
structure Ucs where
  ret : Int
  w : Option Nat
deriving DecidableEq, Repr

/-- The function `utf8toucs(wc, s)` for a `wchar_t` of `wbits` bits. -/
def utf8toucs (wbits : Nat) (s : List Nat) : Ucs :=
  let byte := byteAt s 0
  if byte = 0 then ⟨0, some (wcast wbits 0)⟩
  else if byte < 0x80 then ⟨1, some (wcast wbits byte)⟩
  else if byte < 0xC0 then ⟨-1, none⟩
  else if byte < 0xE0 then
    if strlen s < 2 then ⟨-2, none⟩
    else if byteAt s 1 &&& 0xC0 = 0x80 then
      ⟨2, some (wcast wbits (((byte &&& 0x1F) <<< 6) ||| (byteAt s 1 &&& 0x3F)))⟩
    else ⟨-1, none⟩
  else if byte < 0xF0 then
    if strlen s < 3 then ⟨-2, none⟩
    else if byteAt s 1 &&& 0xC0 = 0x80 ∧ byteAt s 2 &&& 0xC0 = 0x80 then
      let w := wcast wbits (((byte &&& 0x0F) <<< 12)
                 ||| ((byteAt s 1 &&& 0x3F) <<< 6)
                 ||| (byteAt s 2 &&& 0x3F))
      let byte := u32 w
      if 0xD800 ≤ byte ∧ byte ≤ 0xDFFF then ⟨-1, some w⟩
      else if byte = 0xFFFE ∨ byte = 0xFFFF then ⟨-1, some w⟩
      else ⟨3, some w⟩
    else ⟨-1, none⟩
  else if byte < 0xf8 then
    if strlen s < 4 then ⟨-2, none⟩
    else if byteAt s 1 &&& 0xC0 = 0x80 ∧ byteAt s 2 &&& 0xC0 = 0x80
        ∧ byteAt s 3 &&& 0xC0 = 0x80 then
      let cvalue := ((byte &&& 0x0F) <<< 18)
                 ||| ((byteAt s 1 &&& 0x3F) <<< 12)
                 ||| ((byteAt s 2 &&& 0x3F) <<< 6)
                 ||| (byteAt s 3 &&& 0x3F)
      if wbits < 32 then
        ⟨4, some (wcast wbits (wcast wbits (u32 (cvalue + 2 ^ 32 - 0x10000) >>> 10) ||| 0xD800))⟩
      else ⟨4, some (wcast wbits cvalue)⟩
    else ⟨-1, none⟩
  else if wbits < 32 then ⟨-2, none⟩
  else if byte < 0xFC then
    if strlen s < 5 then ⟨-2, none⟩
    else ⟨5, some (wcast wbits (u32 ((byte &&& 0x0F) <<< 24)
                 ||| ((byteAt s 1 &&& 0x3F) <<< 12)
                 ||| ((byteAt s 2 &&& 0x3F) <<< 12)
                 ||| ((byteAt s 3 &&& 0x3F) <<< 6)
                 ||| (byteAt s 4 &&& 0x3F)))⟩
  else
    if strlen s < 6 then ⟨-2, none⟩
    else ⟨6, some (wcast wbits (u32 ((byte &&& 0x0F) <<< 30)
                 ||| ((byteAt s 1 &&& 0x3F) <<< 24)
                 ||| ((byteAt s 2 &&& 0x3F) <<< 18)
                 ||| ((byteAt s 3 &&& 0x3F) <<< 12)
                 ||| ((byteAt s 4 &&& 0x3F) <<< 6)
                 ||| (byteAt s 5 &&& 0x3F)))⟩

/-! ## `Rwcrtomb32` -/

/-- The table `utf8_table1`: the largest value of each encoded length. -/
def utf8_table1 : List Nat := [0x7f, 0x7ff, 0xffff, 0x1fffff, 0x3ffffff, 0x7fffffff]

/-- The table `utf8_table2`: the lead-byte marker of each encoded length. -/
def utf8_table2 : List Nat := [0, 0xc0, 0xe0, 0xf0, 0xf8, 0xfc]

/-- The scan `for (i = 0; i < 6; i++) if (cvalue <= utf8_table1[i]) break;`: the value of
`i` after the loop, which is `6` when no entry is large enough. -/
def tableIndex (cvalue : Nat) : Nat := utf8_table1.findIdx (fun t => decide (cvalue ≤ t))

/-- The loop `for (j = i; j > 0; j--) { *s-- = (char) (0x80 | (cvalue & 0x3f)); cvalue >>= 6; }`
with `s` at index `pos` of the buffer: the buffer and `cvalue` after `j` rounds. -/
def writeTail (buf : List Nat) (pos cvalue : Nat) : Nat → List Nat × Nat
  | 0 => (buf, cvalue)
  | j + 1 => writeTail (buf.set pos ((0x80 ||| (cvalue &&& 0x3f)) % 256)) (pos - 1) (cvalue >>> 6) j

/-- The function `Rwcrtomb32(s, cvalue, n)`.  The pointer `s` is `none` when `NULL` and
otherwise the position `off` of the buffer `buf`.  Returns the buffer after the call and the
returned count.  For `cvalue > 0x7fffffff` and `n > 7` the C code reads `utf8_table2[6]`, past
the end of the table; the embedding reads `0` there. -/
def Rwcrtomb32 (s : Option (List Nat)) (off cvalue n : Nat) : Option (List Nat) × Nat :=
  if n = 0 then (s, 0)
  else
    let s0 := s.map (fun buf => buf.set off 0)
    if cvalue = 0 then (s0, 0)
    else
      let i := tableIndex cvalue
      if i ≥ n - 1 then (s0, 0)
      else
        (s0.map (fun buf =>
            let r := writeTail buf (off + i) cvalue i
            r.1.set off ((utf8_table2.getD i 0 ||| r.2) % 256)),
         i + 1)


/-! ## Whole-string conversions -/

/-- Outcome of a routine that can raise an R error (`error(...)` does not return) or, in the
embedding only, use up the iteration bound of a loop. -/
inductive Res (α : Type) where
  | ok : α → Res α
  | error : String → Res α
  | outOfFuel : Res α
deriving DecidableEq, Repr

/-- The loop of `utf8towcs` for `wc != NULL`.  `wc` is the output buffer, `t` the rest of the
input, `res` the count so far, which is also the index of `p` in the buffer. -/
def utf8towcsBuf (wbits n : Nat) : Nat → List Nat → List Nat → Nat → Res (Option (List Nat) × Nat)
  | 0, _, _, _ => .outOfFuel
  | fuel + 1, wc, t, res =>
    let r := utf8toucs wbits t
    let cur := r.w.getD (wc.getD res 0)
    let wc := wc.set res cur
    if r.ret < 0 then .error "invalid input in 'utf8towcs'"
    else if r.ret = 0 then .ok (some wc, res)
    else if res + 1 ≥ n then .ok (some wc, res + 1)
    else if IS_HIGH_SURROGATE cur then
      let wc := wc.set (res + 1) (utf8toutf16low wbits t)
      if res + 2 ≥ n then .ok (some wc, res + 2)
      else utf8towcsBuf wbits n fuel wc (t.drop r.ret.toNat) (res + 2)
    else utf8towcsBuf wbits n fuel wc (t.drop r.ret.toNat) (res + 1)

/-- The loop of `utf8towcs` for `wc == NULL` (length only).  `local` is stored by every call of
`utf8toucs` that returns a non-negative count. -/
def utf8towcsLen (wbits : Nat) : Nat → List Nat → Nat → Res (Option (List Nat) × Nat)
  | 0, _, _ => .outOfFuel
  | fuel + 1, t, res =>
    let r := utf8toucs wbits t
    let wlocal := r.w.getD 0
    if r.ret < 0 then .error "invalid input in 'utf8towcs'"
    else if r.ret = 0 then .ok (none, res)
    else if IS_HIGH_SURROGATE wlocal then
      utf8towcsLen wbits fuel (t.drop r.ret.toNat) (res + 1 + 1)
    else utf8towcsLen wbits fuel (t.drop r.ret.toNat) (res + 1)

/-- The function `utf8towcs(wc, s, n)`.  Every round of either loop but the last consumes at
least one byte of `s`, so `strlen s + 1` rounds are enough. -/
def utf8towcs (wbits : Nat) (wc : Option (List Nat)) (s : List Nat) (n : Nat) :
    Res (Option (List Nat) × Nat) :=
  match wc with
  | some buf => utf8towcsBuf wbits n (strlen s + 1) buf s 0
  | none => utf8towcsLen wbits (strlen s + 1) s 0

/-- The loop of `utf8towcs4` for `wc != NULL`.  `s` is the start of the input, `t` the rest of
it, `res` the count so far and the index of `p`; the buffer holds `R_wchar_t` values. -/
def utf8towcs4Buf (wbits n : Nat) (s : List Nat) :
    Nat → List Nat → List Nat → Nat → Res (Option (List Nat) × Nat)
  | 0, _, _, _ => .outOfFuel
  | fuel + 1, wc, t, res =>
    let r := utf8toucs wbits t
    let wlocal := r.w.getD 0
    let wc := wc.set res (u32 wlocal)
    if r.ret < 0 then .error "invalid input in 'utf8towcs32'"
    else if r.ret = 0 then .ok (some wc, res)
    else
      let wc := if IS_HIGH_SURROGATE (u32 wlocal) then
          wc.set res (utf8toucs32 wbits (wcast wbits (u32 wlocal)) s)
        else wc
      if res + 1 ≥ n then .ok (some wc, res + 1)
      else utf8towcs4Buf wbits n s fuel wc (t.drop r.ret.toNat) (res + 1)

/-- The loop of `utf8towcs4` for `wc == NULL` (length only). -/
def utf8towcs4Len (wbits : Nat) : Nat → List Nat → Nat → Res (Option (List Nat) × Nat)
  | 0, _, _ => .outOfFuel
  | fuel + 1, t, res =>
    let r := utf8toucs wbits t
    if r.ret < 0 then .error "invalid input in 'utf8towcs32'"
    else if r.ret = 0 then .ok (none, res)
    else utf8towcs4Len wbits fuel (t.drop r.ret.toNat) (res + 1)

/-- The function `utf8towcs4(wc, s, n)`, with the same iteration bound as `utf8towcs`. -/
def utf8towcs4 (wbits : Nat) (wc : Option (List Nat)) (s : List Nat) (n : Nat) :
    Res (Option (List Nat) × Nat) :=
  match wc with
  | some buf => utf8towcs4Buf wbits n s (strlen s + 1) buf s 0
  | none => utf8towcs4Len wbits (strlen s + 1) s 0

/-- The wide character `p[i]` of a wide string: a `wchar_t` of `wbits` bits, `0` (the
terminator) past the end of the list. -/
def wcharAt (wbits : Nat) (wc : List Nat) (i : Nat) : Nat := wc.getD i 0 % 2 ^ wbits

/-- Outcome of `wcstoutf8`: the buffer, the returned count and the code units reported by
`warning("unpaired surrogate Unicode point %x", *p)`, in order. -/
structure Utf8Out where
  buf : Option (List Nat)
  ret : Nat
  warnings : List Nat
deriving DecidableEq, Repr

/-- The loop of `wcstoutf8`.  `p` is the rest of the wide string; `t` is `s + res` (or `NULL`);
`warns` collects the warnings. -/
def wcstoutf8Loop (wbits n : Nat) :
    Nat → Option (List Nat) → List Nat → Nat → List Nat → Res Utf8Out
  | 0, _, _, _, _ => .outOfFuel
  | fuel + 1, s, p, res, warns =>
    if IS_SURROGATE_PAIR (wcharAt wbits p 0) (wcharAt wbits p 1) then
      let cvalue := u32 (((wcharAt wbits p 0 &&& 0x3FF) <<< 10) + (wcharAt wbits p 1 &&& 0x3FF)
        + 0x010000)
      let r := Rwcrtomb32 s res cvalue (n - res)
      if r.2 = 0 then .ok ⟨r.1, res + 1, warns⟩
      else wcstoutf8Loop wbits n fuel r.1 (p.drop 2) (res + r.2) warns
    else
      let warns := if IS_HIGH_SURROGATE (wcharAt wbits p 0) || IS_LOW_SURROGATE (wcharAt wbits p 0)
        then warns ++ [wcharAt wbits p 0] else warns
      let r := Rwcrtomb32 s res (u32 (wcharAt wbits p 0)) (n - res)
      if r.2 = 0 then .ok ⟨r.1, res + 1, warns⟩
      else wcstoutf8Loop wbits n fuel r.1 (p.drop 1) (res + r.2) warns

/-- The function `wcstoutf8(s, wc, n)`.  Every round but the last adds at least one to `res`,
which stays below `n`, so `n` rounds are enough. -/
def wcstoutf8 (wbits : Nat) (s : Option (List Nat)) (wc : List Nat) (n : Nat) : Res Utf8Out :=
  if n = 0 then .ok ⟨s, 0, []⟩
  else wcstoutf8Loop wbits n n s wc 0 []

/-! ## Left-to-right decoding (specification side) -/

/-- The wide units counted for one decoded character: two when the stored value is a high
surrogate, one otherwise. -/
def unitsOf (u : Ucs) : Nat := if IS_HIGH_SURROGATE (u.w.getD 0) then 2 else 1

/-- Decoding `s` from the start with `utf8toucs`, one character after the other, reaches the
terminating NUL without a negative result, and the characters make `k` wide units. -/
inductive DecodesTo (wbits : Nat) : List Nat → Nat → Prop where
  | nul (s : List Nat) : (utf8toucs wbits s).ret = 0 → DecodesTo wbits s 0
  | step (s : List Nat) (k : Nat) : 0 < (utf8toucs wbits s).ret →
      DecodesTo wbits (s.drop (utf8toucs wbits s).ret.toNat) k →
      DecodesTo wbits s (k + unitsOf (utf8toucs wbits s))

/-- Decoding `s` from the start with `utf8toucs`, one character after the other, meets a
negative result (Invalid or Incomplete) before the terminating NUL. -/
inductive DecodeFails (wbits : Nat) : List Nat → Prop where
  | here (s : List Nat) : (utf8toucs wbits s).ret < 0 → DecodeFails wbits s
  | later (s : List Nat) : 0 < (utf8toucs wbits s).ret →
      DecodeFails wbits (s.drop (utf8toucs wbits s).ret.toNat) → DecodeFails wbits s

/-! ## Canonical UTF-8 forms (specification side) -/

/-- The canonical `k`-byte UTF-8 form of `cp`: the lead byte `utf8_table2[k-1] | (cp >> 6*(k-1))`
followed by the continuation bytes `0x80 | ((cp >> 6*j) & 0x3F)` for `j = k-2` down to `0`. -/
def canonicalUtf8 (cp k : Nat) : List Nat :=
  (utf8_table2.getD (k - 1) 0 ||| (cp >>> (6 * (k - 1)))) ::
    (List.range (k - 1)).map (fun m => 0x80 ||| ((cp >>> (6 * (k - 2 - m))) &&& 0x3F))

/-! ## Unit-by-unit reading of `wcstoutf8` (specification side) -/

/-- A code unit in the surrogate range. -/
def isSurrogate (u : Nat) : Bool := IS_HIGH_SURROGATE u || IS_LOW_SURROGATE u

/-- The 3-byte pattern of a lone surrogate `u`: `0xED, 0x80|((u>>6)&0x3F), 0x80|(u&0x3F)`. -/
def surrogateBytes (u : Nat) : List Nat :=
  [0xED, 0x80 ||| ((u >>> 6) &&& 0x3F), 0x80 ||| (u &&& 0x3F)]

/-- The bytes that the unit `u` contributes, standing between the units `prev` and `next`
(`0` where there is none): the first unit of a high+low pair gives the 4-byte sequence of the
combined scalar, the second unit of a pair gives nothing more, any other surrogate gives its
3-byte pattern and any other unit its UTF-8 encoding. -/
def unitBytes (prev u next : Nat) : List Nat :=
  if IS_SURROGATE_PAIR u next then
    canonicalUtf8 (0x10000 + ((u &&& 0x3FF) <<< 10) + (next &&& 0x3FF)) 4
  else if IS_SURROGATE_PAIR prev u then []
  else if isSurrogate u then surrogateBytes u
  else canonicalUtf8 u (tableIndex u + 1)

/-- The warning that the unit `u` causes, standing between `prev` and `next`: one warning
naming `u` when `u` is a surrogate that is neither the first nor the second unit of a high+low
pair, none otherwise. -/
def unitWarning (prev u next : Nat) : List Nat :=
  if isSurrogate u && !IS_SURROGATE_PAIR u next && !IS_SURROGATE_PAIR prev u then [u] else []

/-- The bytes expected for the units `ws` that follow the unit `prev`. -/
def expectedBytes : Nat → List Nat → List Nat
  | _, [] => []
  | prev, u :: rest => unitBytes prev u (rest.headD 0) ++ expectedBytes u rest

/-- The warnings expected for the units `ws` that follow the unit `prev`. -/
def expectedWarnings : Nat → List Nat → List Nat
  | _, [] => []
  | prev, u :: rest => unitWarning prev u (rest.headD 0) ++ expectedWarnings u rest

/-! ## `wcs4toutf8` -/

/-- The loop of `wcs4toutf8`.  `p` is the rest of the UCS-4 string, `t` is `s + res` (or
`NULL`). -/
def wcs4toutf8Loop (n : Nat) :
    Nat → Option (List Nat) → List Nat → Nat → Res (Option (List Nat) × Nat)
  | 0, _, _, _ => .outOfFuel
  | fuel + 1, s, p, res =>
    let r := Rwcrtomb32 s res (u32 (p.getD 0 0)) (n - res)
    if r.2 = 0 then .ok (r.1, res + 1)
    else wcs4toutf8Loop n fuel r.1 (p.drop 1) (res + r.2)

/-- The function `wcs4toutf8(s, wc, n)`.  Every round but the last adds at least one to `res`,
which stays below `n`, so `n` rounds are enough. -/
def wcs4toutf8 (s : Option (List Nat)) (wc : List Nat) (n : Nat) :
    Res (Option (List Nat) × Nat) :=
  if n = 0 then .ok (s, 0)
  else wcs4toutf8Loop n n s wc 0

/-- The concatenation of the UTF-8 encodings of the code values `ws` (specification side). -/
def utf8Encode : List Nat → List Nat
  | [] => []
  | u :: rest => canonicalUtf8 u (tableIndex u + 1) ++ utf8Encode rest

/-- The number of leading code values of `ws` whose encodings fit, one after the other, in
`cap` bytes (specification side). -/
def fitCount (cap : Nat) : List Nat → Nat
  | [] => 0
  | u :: rest =>
    if tableIndex u + 1 ≤ cap then fitCount (cap - (tableIndex u + 1)) rest + 1 else 0

/-! ## `mbcsTruncateToValid` -/

/-- Modelled from the spec: for a lead byte `b` of the standard UTF-8 encoding, the length of
the sequence and the range allowed for its second byte (which excludes overlong forms,
surrogates and values above U+10FFFF); `none` for a byte that cannot start a sequence. -/
def utf8Lead (b : Nat) : Option (Nat × Nat × Nat) :=
  if b < 0x80 then some (1, 0, 0)
  else if b < 0xC2 then none
  else if b < 0xE0 then some (2, 0x80, 0xBF)
  else if b = 0xE0 then some (3, 0xA0, 0xBF)
  else if b = 0xED then some (3, 0x80, 0x9F)
  else if b < 0xF0 then some (3, 0x80, 0xBF)
  else if b = 0xF0 then some (4, 0x90, 0xBF)
  else if b < 0xF4 then some (4, 0x80, 0xBF)
  else if b = 0xF4 then some (4, 0x80, 0x8F)
  else none

/-- Modelled from the spec: the check of the bytes after the lead byte, `k` of them left from
index `i`: `-2` when the `n` available bytes end first, `-1` at the first byte out of range,
the length `len` when all are there. -/
def utf8Tail (s : List Nat) (n len : Nat) : Nat → Nat → Nat → Nat → Int
  | _, _, 0, _ => len
  | lo, hi, k + 1, i =>
    if i ≥ n then -2
    else if lo ≤ byteAt s i ∧ byteAt s i ≤ hi then utf8Tail s n len 0x80 0xBF k (i + 1)
    else -1

/-- Modelled from the spec: the C library call `mbrtowc(NULL, s, n, &mb_st)` in a UTF-8
locale, as the standard UTF-8 decoder: `0` at a NUL, the length of a valid sequence,
`(size_t)-1` (here `-1`) for an invalid one and `(size_t)-2` (here `-2`) when the first `n`
bytes are an incomplete but so far valid sequence.  The conversion state is not kept: after a
result of `-2` the caller below does not call again. -/
def mbrtowcUtf8 (s : List Nat) (n : Nat) : Int :=
  if n = 0 then -2
  else if byteAt s 0 = 0 then 0
  else
    match utf8Lead (byteAt s 0) with
    | none => -1
    | some (len, lo, hi) => utf8Tail s n len lo hi (len - 1) 1

/-- The loop `while (goodlen && ((s[goodlen] & '\xC0') == '\x80')) --goodlen;`: the value of
`goodlen` after it. -/
def backScan (s : List Nat) : Nat → Nat
  | 0 => 0
  | g + 1 => if byteAt s (g + 1) &&& 0xC0 = 0x80 then backScan s g else g + 1

/-- The loop `for(;goodlen < slen; goodlen++) s[goodlen] = '\0';`. -/
def zeroFill (s : List Nat) (goodlen slen : Nat) : List Nat :=
  (List.range (slen - goodlen)).foldl (fun b i => b.set (goodlen + i) 0) s

/-- The loop `while(goodlen < slen)` of `mbcsTruncateToValid`; `mbrtowc s n` stands for
`mbrtowc(NULL, s, n, &mb_st)`. -/
def truncLoop (mbrtowc : List Nat → Nat → Int) (slen : Nat) :
    Nat → List Nat → Nat → Res (List Nat)
  | 0, _, _ => .outOfFuel
  | fuel + 1, s, goodlen =>
    if goodlen < slen then
      let res := mbrtowc (s.drop goodlen) (slen - goodlen)
      if res = -1 ∨ res = -2 then .ok (zeroFill s goodlen slen)
      else truncLoop mbrtowc slen fuel s (goodlen + res.toNat)
    else .ok s

/-- The function `mbcsTruncateToValid(s)`: the string after the call.  The globals
`mbcslocale` and `utf8locale` and the locale's `mbrtowc` are parameters.  `slen + 1` rounds of
the loop are enough when `mbrtowc` returns a positive count for every non-NUL character. -/
def mbcsTruncateToValid (mbcslocale utf8locale : Bool) (mbrtowc : List Nat → Nat → Int)
    (s : List Nat) : Res (List Nat) :=
  if !mbcslocale || byteAt s 0 = 0 then .ok s
  else
    let slen := strlen s
    let goodlen := if utf8locale then backScan s (slen - 1) else 0
    truncLoop mbrtowc slen (slen + 1) s goodlen

/-! ## Adobe Symbol conversions -/

/-- The table `s2u`: the conversion table that uses the Private Use Area, indexed by the
symbol byte minus 32. -/
def s2u : List Nat :=
  [
   0x0020, 0x0021, 0x2200, 0x0023, 0x2203, 0x0025, 0x0026, 0x220D,
   0x0028, 0x0029, 0x2217, 0x002B, 0x002C, 0x2212, 0x002E, 0x002F,
   0x0030, 0x0031, 0x0032, 0x0033, 0x0034, 0x0035, 0x0036, 0x0037,
   0x0038, 0x0039, 0x003A, 0x003B, 0x003C, 0x003D, 0x003E, 0x003F,
   0x2245, 0x0391, 0x0392, 0x03A7, 0x0394, 0x0395, 0x03A6, 0x0393,
   0x0397, 0x0399, 0x03D1, 0x039A, 0x039B, 0x039C, 0x039D, 0x039F,
   0x03A0, 0x0398, 0x03A1, 0x03A3, 0x03A4, 0x03A5, 0x03C2, 0x03A9,
   0x039E, 0x03A8, 0x0396, 0x005B, 0x2234, 0x005D, 0x22A5, 0x005F,
   0xF8E5, 0x03B1, 0x03B2, 0x03C7, 0x03B4, 0x03B5, 0x03C6, 0x03B3,
   0x03B7, 0x03B9, 0x03D5, 0x03BA, 0x03BB, 0x03BC, 0x03BD, 0x03BF,
   0x03C0, 0x03B8, 0x03C1, 0x03C3, 0x03C4, 0x03C5, 0x03D6, 0x03C9,
   0x03BE, 0x03C8, 0x03B6, 0x007B, 0x007C, 0x007D, 0x223C, 0x0020,
   0x0020, 0x0020, 0x0020, 0x0020, 0x0020, 0x0020, 0x0020, 0x0020,
   0x0020, 0x0020, 0x0020, 0x0020, 0x0020, 0x0020, 0x0020, 0x0020,
   0x0020, 0x0020, 0x0020, 0x0020, 0x0020, 0x0020, 0x0020, 0x0020,
   0x0020, 0x0020, 0x0020, 0x0020, 0x0020, 0x0020, 0x0020, 0x0020,
   0x20AC, 0x03D2, 0x2032, 0x2264, 0x2044, 0x221E, 0x0192, 0x2663,
   0x2666, 0x2665, 0x2660, 0x2194, 0x2190, 0x2191, 0x2192, 0x2193,
   0x00B0, 0x00B1, 0x2033, 0x2265, 0x00D7, 0x221D, 0x2202, 0x2022,
   0x00F7, 0x2260, 0x2261, 0x2248, 0x2026, 0xF8E6, 0xF8E7, 0x21B5,
   0x2135, 0x2111, 0x211C, 0x2118, 0x2297, 0x2295, 0x2205, 0x2229,
   0x222A, 0x2283, 0x2287, 0x2284, 0x2282, 0x2286, 0x2208, 0x2209,
   0x2220, 0x2207, 0xF6DA, 0xF6D9, 0xF6DB, 0x220F, 0x221A, 0x22C5,
   0x00AC, 0x2227, 0x2228, 0x21D4, 0x21D0, 0x21D1, 0x21D2, 0x21D3,
   0x25CA, 0x2329, 0xF8E8, 0xF8E9, 0xF8EA, 0x2211, 0xF8EB, 0xF8EC,
   0xF8ED, 0xF8EE, 0xF8EF, 0xF8F0, 0xF8F1, 0xF8F2, 0xF8F3, 0xF8F4,
   0x0020, 0x232A, 0x222B, 0x2320, 0xF8F5, 0x2321, 0xF8F6, 0xF8F7,
   0xF8F8, 0xF8F9, 0xF8FA, 0xF8FB, 0xF8FC, 0xF8FD, 0xF8FE, 0x0020]

/-- The table `s2unicode`: the conversion table that does not use the Private Use Area. -/
def s2unicode : List Nat :=
  [
   0x0020, 0x0021, 0x2200, 0x0023, 0x2203, 0x0025, 0x0026, 0x220D,
   0x0028, 0x0029, 0x2217, 0x002B, 0x002C, 0x2212, 0x002E, 0x002F,
   0x0030, 0x0031, 0x0032, 0x0033, 0x0034, 0x0035, 0x0036, 0x0037,
   0x0038, 0x0039, 0x003A, 0x003B, 0x003C, 0x003D, 0x003E, 0x003F,
   0x2245, 0x0391, 0x0392, 0x03A7, 0x0394, 0x0395, 0x03A6, 0x0393,
   0x0397, 0x0399, 0x03D1, 0x039A, 0x039B, 0x039C, 0x039D, 0x039F,
   0x03A0, 0x0398, 0x03A1, 0x03A3, 0x03A4, 0x03A5, 0x03C2, 0x03A9,
   0x039E, 0x03A8, 0x0396, 0x005B, 0x2234, 0x005D, 0x22A5, 0x005F,
   0x23AF, 0x03B1, 0x03B2, 0x03C7, 0x03B4, 0x03B5, 0x03C6, 0x03B3,
   0x03B7, 0x03B9, 0x03D5, 0x03BA, 0x03BB, 0x03BC, 0x03BD, 0x03BF,
   0x03C0, 0x03B8, 0x03C1, 0x03C3, 0x03C4, 0x03C5, 0x03D6, 0x03C9,
   0x03BE, 0x03C8, 0x03B6, 0x007B, 0x007C, 0x007D, 0x223C, 0x0020,
   0x0020, 0x0020, 0x0020, 0x0020, 0x0020, 0x0020, 0x0020, 0x0020,
   0x0020, 0x0020, 0x0020, 0x0020, 0x0020, 0x0020, 0x0020, 0x0020,
   0x0020, 0x0020, 0x0020, 0x0020, 0x0020, 0x0020, 0x0020, 0x0020,
   0x0020, 0x0020, 0x0020, 0x0020, 0x0020, 0x0020, 0x0020, 0x0020,
   0x20AC, 0x03D2, 0x2032, 0x2264, 0x2044, 0x221E, 0x0192, 0x2663,
   0x2666, 0x2665, 0x2660, 0x2194, 0x2190, 0x2191, 0x2192, 0x2193,
   0x00B0, 0x00B1, 0x2033, 0x2265, 0x00D7, 0x221D, 0x2202, 0x2022,
   0x00F7, 0x2260, 0x2261, 0x2248, 0x2026, 0x23D0, 0x23AF, 0x21B5,
   0x2135, 0x2111, 0x211C, 0x2118, 0x2297, 0x2295, 0x2205, 0x2229,
   0x222A, 0x2283, 0x2287, 0x2284, 0x2282, 0x2286, 0x2208, 0x2209,
   0x2220, 0x2207, 0x00AE, 0x00A9, 0x2122, 0x220F, 0x221A, 0x22C5,
   0x00AC, 0x2227, 0x2228, 0x21D4, 0x21D0, 0x21D1, 0x21D2, 0x21D3,
   0x25CA, 0x2329, 0x00AE, 0x00A9, 0x2122, 0x2211, 0x239B, 0x239C,
   0x239D, 0x23A1, 0x23A2, 0x23A3, 0x23A7, 0x23A8, 0x23A9, 0x23AA,
   0x0020, 0x232A, 0x222B, 0x2320, 0x23AE, 0x2321, 0x239E, 0x239F,
   0x23A0, 0x23A4, 0x23A5, 0x23A6, 0x23AB, 0x23AC, 0x23AD, 0x0020]

/-- The body of the loop of `Rf_AdobeSymbol2utf8` for the byte `b = *c`: the work buffer and
the index of `t` after the character is written. -/
def adobeWrite (usePUA : Bool) (b : Nat) (work : List Nat) (t : Nat) : List Nat × Nat :=
  if b < 32 then (work.set t 0x20, t + 1)
  else
    let u := u32 ((if usePUA then s2u else s2unicode).getD (b - 32) 0)
    if u < 128 then (work.set t (u % 256), t + 1)
    else if u < 0x800 then
      ((work.set t ((0xc0 ||| (u >>> 6)) % 256)).set (t + 1) ((0x80 ||| (u &&& 0x3f)) % 256),
        t + 2)
    else
      (((work.set t ((0xe0 ||| (u >>> 12)) % 256)).set (t + 1)
          ((0x80 ||| ((u >>> 6) &&& 0x3f)) % 256)).set (t + 2) ((0x80 ||| (u &&& 0x3f)) % 256),
        t + 3)

/-- The loop `while (*c) { ...; if (t+6 > work + nwork) break; c++; }` of
`Rf_AdobeSymbol2utf8`: the work buffer and the index of `t` after it. -/
def adobeLoop (usePUA : Bool) (nwork : Nat) : List Nat → List Nat → Nat → List Nat × Nat
  | [], work, t => (work, t)
  | b :: rest, work, t =>
    if b % 256 = 0 then (work, t)
    else
      let r := adobeWrite usePUA (b % 256) work t
      if r.2 + 6 > nwork then r
      else adobeLoop usePUA nwork rest r.1 r.2

/-- The function `Rf_AdobeSymbol2utf8(work, c0, nwork, usePUA)`: the work buffer after the
call. -/
def Rf_AdobeSymbol2utf8 (work c0 : List Nat) (nwork : Nat) (usePUA : Bool) : List Nat :=
  let r := adobeLoop usePUA nwork c0 work 0
  r.1.set r.2 0

/-- The loop `for ( ; *p; p += utf8clen(*p)) nc++;` of `Rf_utf8toAdobeSymbol`. -/
def countChars : Nat → List Nat → Nat → Res Nat
  | 0, _, _ => .outOfFuel
  | fuel + 1, p, nc =>
    if byteAt p 0 = 0 then .ok nc
    else countChars fuel (p.drop (utf8clen (byteAt p 0))) (nc + 1)

/-- The search `for (k = 0; k < 224; k++)` of `Rf_utf8toAdobeSymbol`: the first index `k` with
`s2u[k] == tmp`, if there is one. -/
def symbolIndex (tmp : Nat) : Option Nat :=
  if s2u.indexOf tmp < 224 then some (s2u.indexOf tmp) else none

/-- The main loop of `Rf_utf8toAdobeSymbol`, with `k` rounds left: `out` is the output buffer,
`s` the rest of the input, `j` the index of the round and `tmp` the variable `mbrtoint` stores
into.  `mbrtoint s` stands for the call `mbrtoint(&tmp, s)`, a function that is not defined in
`util.c`: its result is the returned count and the value stored, if any. -/
def symbolLoop (mbrtoint : List Nat → Ucs) : Nat → List Nat → List Nat → Nat → Nat →
    Res (List Nat)
  | 0, out, _, _, _ => .ok out
  | k + 1, out, s, j, tmp =>
    let r := mbrtoint s
    if r.ret < 0 then .error "invalid UTF-8 string"
    else
      let tmp := r.w.getD tmp
      match symbolIndex tmp with
      | some i => symbolLoop mbrtoint k (out.set j ((i + 32) % 256)) (s.drop r.ret.toNat) (j + 1) tmp
      | none => .error "Conversion failed"

/-- The function `Rf_utf8toAdobeSymbol(out, in)`: the output buffer and the returned count.
`tmp` is not initialised in C; it starts at `0` here, and is read before `mbrtoint` has stored
into it only if `mbrtoint` returns a count `≥ 0` without storing.  The counting loop moves on by
at least one byte per round, so `length + 1` rounds are enough. -/
def Rf_utf8toAdobeSymbol (mbrtoint : List Nat → Ucs) (out input : List Nat) :
    Res (List Nat × Nat) :=
  match countChars (input.length + 1) input 0 with
  | .ok nc =>
    match symbolLoop mbrtoint nc out input 0 0 with
    | .ok out1 => .ok (out1.set nc 0, nc)
    | .error e => .error e
    | .outOfFuel => .outOfFuel
  | .error e => .error e
  | .outOfFuel => .outOfFuel

/-- The copy loops `for (j = 0; j < used; j++) *p++ = *s++;` and `while (*q) *p++ = *q++;`:
`k` bytes of `src` are stored from index `p` of `dst`. -/
def copyBytes (dst : List Nat) (p : Nat) (src : List Nat) (k : Nat) : List Nat :=
  (List.range k).foldl (fun d j => d.set (p + j) (byteAt src j)) dst

/-- The loop of `Rf_utf8Toutf8NoPUA`, with `k` rounds left: `result` is the allocated block, `p`
the index written next, `s` the rest of the input and `tmp` the variable `mbrtoint` stores
into.  The scratch arrays `inChar[4]`, `symbolChar[2]` and `utf8Char[4]` are not initialised in
C and start zeroed here; each byte read from them is written first when `0 ≤ used ≤ 3`.  For
`used` outside `0..3` the C code stores outside `inChar`; the embedding then leaves the array
as it is. -/
def noPUALoop (mbrtoint : List Nat → Ucs) : Nat → List Nat → Nat → List Nat → Nat →
    Res (List Nat × Nat)
  | 0, result, p, _, _ => .ok (result, p)
  | k + 1, result, p, s, tmp =>
    let r := mbrtoint s
    let tmp := r.w.getD tmp
    let used := r.ret.toNat
    if tmp > 0xF600 then
      let inChar := (copyBytes [0, 0, 0, 0] 0 s used).set used 0
      match Rf_utf8toAdobeSymbol mbrtoint [0, 0] inChar with
      | .ok (symbolChar, _) =>
        let utf8Char := Rf_AdobeSymbol2utf8 [0, 0, 0, 0] symbolChar 4 false
        noPUALoop mbrtoint k (copyBytes result p utf8Char (strlen utf8Char))
          (p + strlen utf8Char) (s.drop used) tmp
      | .error e => .error e
      | .outOfFuel => .outOfFuel
    else
      noPUALoop mbrtoint k (copyBytes result p s used) (p + used) (s.drop used) tmp

/-- The function `Rf_utf8Toutf8NoPUA(in)`: the block `result` after the call.  `alloc` is the
block of `nChar` bytes that `R_alloc` returns, with whatever it holds; `tmp` starts at `0` as in
`Rf_utf8toAdobeSymbol`. -/
def Rf_utf8Toutf8NoPUA (mbrtoint : List Nat → Ucs) (alloc input : List Nat) : Res (List Nat) :=
  let nChar := 3 * strlen input + 1
  match noPUALoop mbrtoint nChar alloc 0 input 0 with
  | .ok (result, p) => .ok (result.set p 0)
  | .error e => .error e
  | .outOfFuel => .outOfFuel

/-! ## Symbol expansion (specification side) -/

/-- The code point that the symbol byte `b` stands for: a space for a control byte, otherwise
the entry of the chosen table at index `b - 32`. -/
def symbolCode (usePUA : Bool) (b : Nat) : Nat :=
  if b < 32 then 0x20 else (if usePUA then s2u else s2unicode).getD (b - 32) 0

/-- The UTF-8 bytes of the symbol byte `b`: the encoding of `symbolCode` (a single space for a
control byte), as `Rwcrtomb32` would emit it. -/
def symbolUtf8 (usePUA : Bool) (b : Nat) : List Nat :=
  canonicalUtf8 (symbolCode usePUA b) (tableIndex (symbolCode usePUA b) + 1)

/-- The expansion of a symbol-encoded string, byte by byte. -/
def symbolExpand (usePUA : Bool) : List Nat → List Nat
  | [] => []
  | b :: rest => symbolUtf8 usePUA b ++ symbolExpand usePUA rest

/-! ## `R_strtod5` -/

/-- The C library `isspace` in the "C" locale, on the byte value of the character. -/
def isspace (c : Nat) : Bool := c == 32 || (decide (9 ≤ c) && decide (c ≤ 13))

/-- The test `*p >= '0' && *p <= '9'`, on the byte value. -/
def isDigit (c : Nat) : Bool := decide (48 ≤ c) && decide (c ≤ 57)

/-- The C library `tolower` in the "C" locale. -/
def tolower (c : Nat) : Nat := if 65 ≤ c ∧ c ≤ 90 then c + 32 else c

/-- The loop `while (isspace(*p)) p++;`: the number of characters skipped. -/
def skipSpace : List Nat → Nat
  | [] => 0
  | c :: rest => if isspace (c % 256) then skipSpace rest + 1 else 0

/-- The test `strncasecmp(p, lit, n) == 0` for a literal `lit` of `n` characters. -/
def startsWithCI : List Nat → List Nat → Bool
  | _, [] => true
  | p, l :: lit => tolower (byteAt p 0) == tolower l && startsWithCI (p.drop 1) lit

/-- The loops `for ( ; *p >= '0' && *p <= '9'; p++, ndigits++) ans = 10*ans + (*p - '0');`:
the mantissa after the run of digits and the number of digits read. -/
def decDigits : List Nat → Nat → Nat × Nat
  | [], ans => (ans, 0)
  | c :: rest, ans =>
    if isDigit (c % 256) then
      let r := decDigits rest (10 * ans + (c % 256 - 48))
      (r.1, r.2 + 1)
    else (ans, 0)

/-- The constant `MAX_EXPONENT_PREFIX`. -/
def MAX_EXPONENT_PREFIX : Nat := 9999

/-- The loop `for (n = 0; *p >= '0' && *p <= '9'; p++)
n = (n < MAX_EXPONENT_PREFIX) ? n * 10 + (*p - '0') : n;`: the value of `n` and the number of
digits read. -/
def expDigits : List Nat → Nat → Nat × Nat
  | [], n => (n, 0)
  | c :: rest, n =>
    if isDigit (c % 256) then
      let r := expDigits rest (if n < MAX_EXPONENT_PREFIX then n * 10 + (c % 256 - 48) else n)
      (r.1, r.2 + 1)
    else (n, 0)

/-- The mantissa loop `for(p += 2; p; p++)` of the hexadecimal case, from the character after
`0x`: the mantissa, `exph` and the number of characters read.  A separator sets `exph` to `0`
and the loop goes on; each digit read once `exph >= 0` adds 4 to it.  The loop is followed to
the end of the list, where the terminator is read. -/
def hexMantissa (dec : Nat) : List Nat → Nat → Int → Nat × Int × Nat
  | [], ans, exph => (ans, exph, 0)
  | c :: rest, ans, exph =>
    let bump : Int := if exph ≥ 0 then exph + 4 else exph
    if 48 ≤ c % 256 ∧ c % 256 ≤ 57 then
      let r := hexMantissa dec rest (16 * ans + (c % 256 - 48)) bump
      (r.1, r.2.1, r.2.2 + 1)
    else if 97 ≤ c % 256 ∧ c % 256 ≤ 102 then
      let r := hexMantissa dec rest (16 * ans + (c % 256 - 97 + 10)) bump
      (r.1, r.2.1, r.2.2 + 1)
    else if 65 ≤ c % 256 ∧ c % 256 ≤ 70 then
      let r := hexMantissa dec rest (16 * ans + (c % 256 - 65 + 10)) bump
      (r.1, r.2.1, r.2.2 + 1)
    else if c % 256 = dec % 256 then
      let r := hexMantissa dec rest ans 0
      (r.1, r.2.1, r.2.2 + 1)
    else (ans, exph, 0)

/-- Modelled from the spec: the macro `NA_LOGICAL` of the R headers, the value of the
tri-state exactness flag that asks for a warning; it is the smallest `int`. -/
def NA_LOGICAL : Int := -2147483648

/-- Outcome of `strtod_EXACT_CLAUSE`. -/
inductive ExactOutcome where
  | pass (warned : Bool)
  | reject
deriving DecidableEq, Repr

/-- The macro `strtod_EXACT_CLAUSE` for the mantissa `ans`, an integer at this point: the test
`ans > 0x1.fffffffffffffp52` compares with `2^53 - 1`.  The C variable holds the digits
accumulated in floating point; integers below `2^53` are exact there and rounding is monotone,
so the accumulated value exceeds `2^53 - 1` exactly when the integer of the digits does, and
the test is decided on that integer. -/
def strtod_EXACT_CLAUSE (exact : Int) (ans : Nat) : ExactOutcome :=
  if exact ≠ 0 ∧ ans > 2 ^ 53 - 1 then
    if exact = NA_LOGICAL then .pass true else .reject
  else .pass false

/-- The value of `ans` when `R_strtod5` leaves, as far as the embedding follows it: one of the
special values, or the integers that enter the scaling arithmetic, which is floating-point
arithmetic and is not evaluated here.  `hex mant exph pexp`: the hexadecimal mantissa, `exph`
after the mantissa loop and `expsign * n` when an exponent was read (the scaling by `exph` is
inside the exponent block, so without an exponent the value is the mantissa itself).
`dec mant expn ndigits`: the decimal mantissa, the final `expn` and `ndigits`. -/
inductive StrtodAns where
  | na
  | nan
  | posInf
  | hex (mant : Nat) (exph : Int) (pexp : Option Int)
  | dec (mant : Nat) (expn : Int) (ndigits : Nat)
deriving DecidableEq, Repr

/-- Outcome of `R_strtod5`: the returned value is `sign * (double) ans` (or the infinity of that
sign when the scaled value exceeds `DBL_MAX`), `endptr` is `*endptr - str`, and `warned` tells
whether the accuracy-loss warning was raised. -/
structure StrtodOut where
  sign : Int
  ans : StrtodAns
  endptr : Nat
  warned : Bool
deriving DecidableEq, Repr

/-- The exponent part after `e`/`E` or `p`/`P`, from the character after the letter: the sign
`switch`, then the digits.  Returns `expsign * n` and the number of characters read. -/
def exponentPart (p : List Nat) : Int × Nat :=
  let expsign : Int := if byteAt p 0 = 45 then -1 else 1
  let g := if byteAt p 0 = 45 ∨ byteAt p 0 = 43 then 1 else 0
  let e := expDigits (p.drop g) 0
  (expsign * (e.1 : Int), g + e.2)

/-- The hexadecimal case of `R_strtod5`, for `p` at the `0` of `0x` and at offset `off` of
`str`. -/
def strtodHex (p : List Nat) (off : Nat) (sign : Int) (dec : Nat) (exact : Int) : StrtodOut :=
  let m := hexMantissa dec (p.drop 2) 0 (-1)
  let p1 := p.drop (2 + m.2.2)
  match strtod_EXACT_CLAUSE exact m.1 with
  | .reject => ⟨sign, .na, 0, false⟩
  | .pass warned =>
    if byteAt p1 0 = 112 ∨ byteAt p1 0 = 80 then
      let e := exponentPart (p1.drop 1)
      ⟨sign, .hex m.1 m.2.1 (some e.1), off + 2 + m.2.2 + 1 + e.2, warned⟩
    else ⟨sign, .hex m.1 m.2.1 none, off + 2 + m.2.2, warned⟩

/-- The decimal case of `R_strtod5`, for `p` at offset `off` of `str`. -/
def strtodDec (p : List Nat) (off : Nat) (sign : Int) (dec : Nat) (exact : Int) : StrtodOut :=
  let d1 := decDigits p 0
  let p1 := p.drop d1.2
  let d2 := if byteAt p1 0 = dec % 256 then decDigits (p1.drop 1) d1.1 else (d1.1, 0)
  let fracRead := if byteAt p1 0 = dec % 256 then 1 + d2.2 else 0
  let ndigits := d1.2 + d2.2
  let expn : Int := -(d2.2 : Int)
  if ndigits = 0 then ⟨sign, .na, 0, false⟩
  else
    match strtod_EXACT_CLAUSE exact d2.1 with
    | .reject => ⟨sign, .na, 0, false⟩
    | .pass warned =>
      let p2 := p1.drop fracRead
      if byteAt p2 0 = 101 ∨ byteAt p2 0 = 69 then
        let e := exponentPart (p2.drop 1)
        ⟨sign, .dec d2.1 (expn + e.1) ndigits, off + d1.2 + fracRead + 1 + e.2, warned⟩
      else ⟨sign, .dec d2.1 expn ndigits, off + d1.2 + fracRead, warned⟩

/-- The function `R_strtod5(str, endptr, dec, NA, exact)`.  The literals are `"NA"`, `"NaN"`,
`"infinity"` and `"Inf"`; `45`, `43`, `48`, `120` and `88` are `'-'`, `'+'`, `'0'`, `'x'` and
`'X'`. -/
def R_strtod5 (str : List Nat) (dec : Nat) (NA : Bool) (exact : Int) : StrtodOut :=
  let w := skipSpace str
  let p := str.drop w
  if NA && (byteAt p 0 == 78 && byteAt p 1 == 65) then ⟨1, .na, w + 2, false⟩
  else
    let sign : Int := if byteAt p 0 = 45 then -1 else 1
    let g := if byteAt p 0 = 45 ∨ byteAt p 0 = 43 then 1 else 0
    let q := p.drop g
    if startsWithCI q [78, 97, 78] then ⟨sign, .nan, w + g + 3, false⟩
    else if startsWithCI q [105, 110, 102, 105, 110, 105, 116, 121] then
      ⟨sign, .posInf, w + g + 8, false⟩
    else if startsWithCI q [73, 110, 102] then ⟨sign, .posInf, w + g + 3, false⟩
    else if strlen q > 2 ∧ byteAt q 0 = 48 ∧ (byteAt q 1 = 120 ∨ byteAt q 1 = 88) then
      strtodHex q (w + g) sign dec exact
    else strtodDec q (w + g) sign dec exact

/-! ## `R_strtod4`, `R_strtod`, `R_atof`; values of digit runs -/

/-- The function `R_strtod4(str, endptr, dec, NA)`: `R_strtod5` with `exact = FALSE`. -/
def R_strtod4 (str : List Nat) (dec : Nat) (NA : Bool) : StrtodOut :=
  R_strtod5 str dec NA 0

/-- The function `R_strtod(str, endptr)`: separator `'.'`, no NA token, `exact = FALSE`. -/
def R_strtod (str : List Nat) : StrtodOut :=
  R_strtod5 str 46 false 0

/-- The function `R_atof(str)`: as `R_strtod` with `endptr = NULL`, so only the value (sign and
`ans`) is left. -/
def R_atof (str : List Nat) : Int × StrtodAns :=
  ((R_strtod5 str 46 false 0).sign, (R_strtod5 str 46 false 0).ans)

/-- The integer formed by the decimal digit characters `ds` written after the digits of
`ans` (specification side). -/
def decVal (ans : Nat) (ds : List Nat) : Nat :=
  ds.foldl (fun a c => 10 * a + (c - 48)) ans

/-- A hexadecimal digit character (specification side). -/
def isHexDigit (c : Nat) : Bool :=
  (decide (48 ≤ c) && decide (c ≤ 57)) || (decide (97 ≤ c) && decide (c ≤ 102)) ||
    (decide (65 ≤ c) && decide (c ≤ 70))

/-- The value of a hexadecimal digit character (specification side). -/
def hexDigitVal (c : Nat) : Nat :=
  if c ≤ 57 then c - 48 else if 97 ≤ c then c - 97 + 10 else c - 65 + 10

/-- The integer formed by the hexadecimal digit characters `hs` written after the digits of
`ans` (specification side). -/
def hexVal (ans : Nat) (hs : List Nat) : Nat :=
  hs.foldl (fun a c => 16 * a + hexDigitVal c) ans

/-- The mantissa integer of a numeric result, `none` for NA, NaN and infinity. -/
def StrtodAns.mantissa : StrtodAns → Option Nat
  | .hex m _ _ => some m
  | .dec m _ _ => some m
  | _ => none

/-! ## Collation (`USE_ICU` build, not Win32) -/

/-- The C library `strcmp`, on the bytes read as `unsigned char`: the difference of the first
bytes at which the two strings differ, `0` when they agree up to the terminator.  (C fixes only
the sign of the result.) -/
def strcmp : List Nat → List Nat → Int
  | [], t => -((byteAt t 0 : Nat) : Int)
  | a :: _, [] => ((a % 256 : Nat) : Int)
  | a :: s, b :: t =>
    if a % 256 ≠ b % 256 then ((a % 256 : Nat) : Int) - ((b % 256 : Nat) : Int)
    else if a % 256 = 0 then 0
    else strcmp s t

/-- The bytes of a C string before its terminator (specification side). -/
def cstr (s : List Nat) : List Nat :=
  (s.takeWhile (fun b => b % 256 != 0)).map (fun b => b % 256)

/-- The static variables `collator` and `collationLocaleSet`; `collator = none` is the NULL
pointer, otherwise the collator object with its settings. -/
structure ICUState (C : Type) where
  collator : Option C
  collationLocaleSet : Int

/-- The functions that `do_ICUset` and `Scollate` call and util.c does not define: the ICU
library, the C library and R's string translation.  `uloc_setDefault loc` tells whether the
status is a failure; `ucol_open loc` opens a collator for the default locale `loc` set just
before, `none` on failure; `ucol_setAttribute` and `ucol_strcollIter` give `none` on failure.
`S` is the type of the CHARSXP arguments of `Scollate`. -/
structure ICULib (C S : Type) where
  uloc_setDefault : String → Bool
  ucol_open : String → Option C
  ucol_setStrength : C → Int → C
  ucol_setAttribute : C → Int → Int → Option C
  ucol_strcollIter : C → List Nat → List Nat → Option Int
  strcoll : List Nat → List Nat → Int
  getenv : String → Option String
  setlocale_LC_COLLATE : String
  translateChar : S → List Nat
  translateCharUTF8 : S → List Nat

/-- The state after a call and what the call produced: a value, or the message of the R error
it raised (the static variables keep what was stored before the error). -/
structure Outcome (σ α : Type) where
  st : σ
  res : Except String α

/-- The function `resetICUcollator(disable)`. -/
def resetICUcollator {C : Type} (_st : ICUState C) (disable : Bool) : ICUState C :=
  ⟨none, if disable then 1 else 0⟩

/-- The table `ATtable`, with the values of the ICU enumerations `UColAttribute` and
`UColAttributeValue`. -/
def ATtable : List (String × Int) :=
  [("case_first", 2), ("upper", 25), ("lower", 24), ("default ", -1), ("strength", 999),
   ("primary ", 0), ("secondary ", 1), ("tertiary ", 2), ("quaternary ", 3),
   ("identical ", 15), ("french_collation", 0), ("on", 17), ("off", 16),
   ("normalization", 4), ("alternate_handling", 1), ("non_ignorable", 21), ("shifted", 20),
   ("case_level", 3), ("hiragana_quaternary", 6)]

/-- The search loops of `do_ICUset` over `ATtable`: the value of the first entry named `name`,
`-1` when there is none. -/
def ATlookup (name : String) : Int :=
  match ATtable.find? (fun e => e.1 == name) with
  | some e => e.2
  | none => -1

/-- The function `getLocale()` (not Win32). -/
def getLocale {C S : Type} (lib : ICULib C S) : String :=
  match lib.getenv "R_ICU_LOCALE" with
  | some p => if p ≠ "" then p else lib.setlocale_LC_COLLATE
  | none => lib.setlocale_LC_COLLATE

/-- One argument of `do_ICUset`: `tag` is the name (`none` when `TAG(args)` is NULL) and `value`
the string of the argument (`none` when it is not a character vector of length one). -/
structure ICUArg where
  tag : Option String
  value : Option String

/-- The body of the loop of `do_ICUset` for the argument named `this` with the string `s`. -/
def ICUsetArg {C S : Type} (lib : ICULib C S) (st : ICUState C) (this s : String) :
    Outcome (ICUState C) Unit :=
  if this = "locale" then
    if s = "ASCII" then ⟨⟨none, 2⟩, .ok ()⟩
    else if s ≠ "none" then
      let loc := if s = "default" then getLocale lib else s
      if lib.uloc_setDefault loc then
        ⟨⟨none, st.collationLocaleSet⟩, .error "failed to set ICU locale"⟩
      else
        match lib.ucol_open loc with
        | none => ⟨⟨none, st.collationLocaleSet⟩, .error "failed to open ICU collator"⟩
        | some c => ⟨⟨some c, 1⟩, .ok ()⟩
    else ⟨⟨none, 1⟩, .ok ()⟩
  else
    let at_ := ATlookup this
    let val := ATlookup s
    match st.collator with
    | some c =>
      if at_ = 999 ∧ val ≥ 0 then
        ⟨⟨some (lib.ucol_setStrength c val), st.collationLocaleSet⟩, .ok ()⟩
      else if at_ ≥ 0 ∧ val ≥ 0 then
        match lib.ucol_setAttribute c at_ val with
        | some c1 => ⟨⟨some c1, st.collationLocaleSet⟩, .ok ()⟩
        | none => ⟨st, .error "failed to set ICU collator attribute"⟩
      else ⟨st, .ok ()⟩
    | none => ⟨st, .ok ()⟩

/-- The function `do_ICUset(call, op, args, rho)`: the arguments are handled in order, up to the
first error. -/
def do_ICUset {C S : Type} (lib : ICULib C S) : ICUState C → List ICUArg →
    Outcome (ICUState C) Unit
  | st, [] => ⟨st, .ok ()⟩
  | st, arg :: rest =>
    match arg.tag with
    | none => ⟨st, .error "all arguments must be named"⟩
    | some this =>
      match arg.value with
      | none => ⟨st, .error "invalid argument"⟩
      | some s =>
        match ICUsetArg lib st this s with
        | ⟨st1, .ok _⟩ => do_ICUset lib st1 rest
        | ⟨st1, .error e⟩ => ⟨st1, .error e⟩

/-- The lazy initialisation at the start of `Scollate` (not Win32), run when
`collationLocaleSet` is `0`. -/
def ScollateInit {C S : Type} (lib : ICULib C S) (st : ICUState C) :
    Outcome (ICUState C) Unit :=
  let envl :=
    match lib.getenv "LC_ALL" with
    | some e => if e ≠ "" then some e else lib.getenv "LC_COLLATE"
    | none => lib.getenv "LC_COLLATE"
  let useC := envl = some "C"
  if ¬ useC ∧ getLocale lib ≠ "C" then
    if lib.uloc_setDefault (getLocale lib) then
      ⟨⟨st.collator, 1⟩, .error "failed to set ICU locale"⟩
    else
      match lib.ucol_open (getLocale lib) with
      | none => ⟨⟨none, 1⟩, .error "failed to open ICU collator"⟩
      | some c => ⟨⟨some c, 1⟩, .ok ()⟩
  else ⟨⟨st.collator, 1⟩, .ok ()⟩

/-- The comparison of `Scollate` once the state is set up. -/
def ScollateCompare {C S : Type} (lib : ICULib C S) (st : ICUState C) (a b : S) :
    Outcome (ICUState C) Int :=
  match st.collator with
  | none =>
    if st.collationLocaleSet = 2 then
      ⟨st, .ok (strcmp (lib.translateChar a) (lib.translateChar b))⟩
    else ⟨st, .ok (lib.strcoll (lib.translateChar a) (lib.translateChar b))⟩
  | some c =>
    match lib.ucol_strcollIter c (lib.translateCharUTF8 a) (lib.translateCharUTF8 b) with
    | some r => ⟨st, .ok r⟩
    | none => ⟨st, .error "could not collate using ICU"⟩

/-- The function `Scollate(a, b)` of the `USE_ICU` build. -/
def Scollate {C S : Type} (lib : ICULib C S) (st : ICUState C) (a b : S) :
    Outcome (ICUState C) Int :=
  if st.collationLocaleSet = 0 then
    match ScollateInit lib st with
    | ⟨st1, .ok _⟩ => ScollateCompare lib st1 a b
    | ⟨st1, .error e⟩ => ⟨st1, .error e⟩
  else ScollateCompare lib st a b

/-! ## Collation: calls on the ICU library -/

/-- A call on the ICU library, with its arguments other than the collator. -/
inductive ICUCall where
  | ucol_close
  | uloc_setDefault (loc : String)
  | ucol_open
  | ucol_setStrength (strength : Int)
  | ucol_setAttribute (attr value : Int)
deriving DecidableEq, Repr

/-- The calls on the ICU library that the body of the loop of `do_ICUset` makes for the
argument named `this` with the string `s`, in order (the same tests as in `ICUsetArg`). -/
def ICUsetArgCalls {C S : Type} (lib : ICULib C S) (st : ICUState C) (this s : String) :
    List ICUCall :=
  if this = "locale" then
    (match st.collator with
      | some _ => [ICUCall.ucol_close]
      | none => []) ++
    (if s = "ASCII" then []
     else if s ≠ "none" then
      let loc := if s = "default" then getLocale lib else s
      if lib.uloc_setDefault loc then [ICUCall.uloc_setDefault loc]
      else [ICUCall.uloc_setDefault loc, ICUCall.ucol_open]
     else [])
  else
    let at_ := ATlookup this
    let val := ATlookup s
    match st.collator with
    | some _ =>
      if at_ = 999 ∧ val ≥ 0 then [ICUCall.ucol_setStrength val]
      else if at_ ≥ 0 ∧ val ≥ 0 then [ICUCall.ucol_setAttribute at_ val]
      else []
    | none => []

/-- The calls on the ICU library that `do_ICUset` makes, in order. -/
def do_ICUsetCalls {C S : Type} (lib : ICULib C S) : ICUState C → List ICUArg → List ICUCall
  | _, [] => []
  | st, arg :: rest =>
    match arg.tag with
    | none => []
    | some this =>
      match arg.value with
      | none => []
      | some s =>
        ICUsetArgCalls lib st this s ++
          (match ICUsetArg lib st this s with
            | ⟨st1, .ok _⟩ => do_ICUsetCalls lib st1 rest
            | ⟨_, .error _⟩ => [])

/-- The strength levels of the enumeration `UColAttributeValue`, as util.c declares it. -/
def UCOL_PRIMARY : Int := 0

/-- See `UCOL_PRIMARY`. -/
def UCOL_SECONDARY : Int := 1

/-- See `UCOL_PRIMARY`. -/
def UCOL_TERTIARY : Int := 2

/-- See `UCOL_PRIMARY`. -/
def UCOL_QUATERNARY : Int := 3

/-- See `UCOL_PRIMARY`. -/
def UCOL_IDENTICAL : Int := 15

/-! ## Scratch arrays of `Rf_utf8Toutf8NoPUA` -/

/-- The indices of `inChar` that one round of the loop of `Rf_utf8Toutf8NoPUA` stores into, in
order, for the rest `s` of the input and the value `tmp` left by the round before: `inChar[j]`
for `j < used`, then `inChar[used]`; no store when the value decoded is at most `0xF600`. -/
def inCharWrites (mbrtoint : List Nat → Ucs) (s : List Nat) (tmp : Nat) : List Int :=
  let r := mbrtoint s
  let tmp := r.w.getD tmp
  let used := r.ret
  if tmp > 0xF600 then (List.range used.toNat).map Int.ofNat ++ [used] else []

/-- The size of the array `char inChar[4]`. -/
def inCharSize : Nat := 4

/-! ## `compareNumericVersion` -/

/-- Modelled from the spec: the macro `NA_INTEGER` of the R headers, the missing integer; it is
the smallest `int`. -/
def NA_INTEGER : Int := -2147483648

/-- The first loop of `compareNumericVersion`, over the common length of `ix` and `iy`: the
value returned at the first index where they differ, `none` when the loop ends. -/
def compareCommon : List Int → List Int → Option Int
  | x :: xs, y :: ys =>
    if x > y then some 1
    else if x < y then some (-1)
    else compareCommon xs ys
  | _, _ => none

/-- The rest of `compareNumericVersion` after the first loop: the longer vector is searched
from index `nc` for a component `> 0`. -/
def compareRest (nc : Nat) (ix iy : List Int) : Int :=
  if nc < ix.length then
    if (ix.drop nc).any (fun v => decide (v > 0)) then 1 else 0
  else if nc < iy.length then
    if (iy.drop nc).any (fun v => decide (v > 0)) then -1 else 0
  else 0

/-- The function `compareNumericVersion(x, y)` for integer vectors `x` and `y` (for other
arguments it raises an error). -/
def compareNumericVersion (ix iy : List Int) : Int :=
  let nx := ix.length
  let ny := iy.length
  let nc := if nx > ny then ny else nx
  if nc = 0 then NA_INTEGER
  else
    match compareCommon ix iy with
    | some r => r
    | none => compareRest nc ix iy

/-- The list `l` followed by zeros up to the length `n` (specification side). -/
def padZeros (n : Nat) (l : List Int) : List Int := l ++ List.replicate (n - l.length) 0

/-- The sign of the lexicographic comparison of two lists of integers (specification side):
`-1`, `0` or `1`; a proper prefix is smaller. -/
def lexSign : List Int → List Int → Int
  | [], [] => 0
  | [], _ :: _ => -1
  | _ :: _, [] => 1
  | x :: xs, y :: ys => if x < y then -1 else if x > y then 1 else lexSign xs ys

/-! ## `do_dirname` (not Win32) -/

/-- The function `Mbrtowc(wc, s, n, ps)` with `R_Is_Running` set: the number of bytes used, `0`
at the terminator, and the error 'invalid multibyte string' when the C library `mbrtowc`
(a parameter, returning `-1` or `-2` for a failure) fails. -/
def Mbrtowc (mbrtowc : List Nat → Nat → Int) (s : List Nat) (n : Nat) : Res Nat :=
  if n = 0 ∨ byteAt s 0 = 0 then .ok 0
  else if mbrtowc s n < 0 then .error "invalid multibyte string"
  else .ok (mbrtowc s n).toNat

/-- The C library `strrchr(s, c)` for a character `c`: the index of the last byte equal to `c`
among the bytes of the string and its terminator, `none` for the NULL pointer. -/
def strrchr (s : List Nat) (c : Nat) : Option Nat :=
  (List.range (strlen s + 1)).reverse.find? (fun i => byteAt s i == c % 256)

/-- The loop of `Rf_strrchr` in a multi-byte locale that is not UTF-8: `p` is the index
reached and `plast` the last index found. -/
def strrchrLoop (mbrtowc : List Nat → Nat → Int) (mbcurmax : Nat) (s : List Nat) (c : Nat) :
    Nat → Nat → Option Nat → Res (Option Nat)
  | 0, _, _ => .outOfFuel
  | k + 1, p, plast =>
    match Mbrtowc mbrtowc (s.drop p) mbcurmax with
    | .ok 0 => .ok plast
    | .ok used =>
      strrchrLoop mbrtowc mbcurmax s c k (p + used)
        (if byteAt s p = c % 256 then some p else plast)
    | .error e => .error e
    | .outOfFuel => .outOfFuel

/-- The function `Rf_strrchr(s, c)`, for an ASCII character `c`; `mbcurmax` is the macro
`R_MB_CUR_MAX`. -/
def Rf_strrchr (mbcslocale utf8locale : Bool) (mbrtowc : List Nat → Nat → Int)
    (mbcurmax : Nat) (s : List Nat) (c : Nat) : Res (Option Nat) :=
  if !mbcslocale || utf8locale then .ok (strrchr s c)
  else strrchrLoop mbrtowc mbcurmax s c (strlen s + 1) 0 none

/-- The loop `while ( *(p = buf + ll - 1) == fsp && p > buf) *p = 0;` of `do_dirname`: `ll` is
the length taken before the loop and stays as it is. -/
def dirnameStrip (fsp ll : Nat) : Nat → List Nat → Res (List Nat)
  | 0, _ => .outOfFuel
  | k + 1, buf =>
    if byteAt buf (ll - 1) = fsp % 256 ∧ ll - 1 > 0 then
      dirnameStrip fsp ll k (buf.set (ll - 1) 0)
    else .ok buf

/-- The loop `while(p > buf && *p == fsp) --p;` of `do_dirname`: the index `p` after it. -/
def dirnameBack (fsp : Nat) (buf : List Nat) : Nat → Nat
  | 0 => 0
  | p + 1 => if byteAt buf (p + 1) = fsp % 256 then dirnameBack fsp buf p else p + 1

/-- The body of the loop of the non-Windows `do_dirname` for an element that is not
`NA_STRING`: `pp` is the path after `R_ExpandFileName(translateCharFP(...))`, `fsp` the
character `FILESEP[0]`, and the result the string handed to `mkChar`. -/
def dirnameElt (mbcslocale utf8locale : Bool) (mbrtowc : List Nat → Nat → Int)
    (mbcurmax R_PATH_MAX fsp : Nat) (pp : List Nat) : Res (List Nat) :=
  if strlen pp > R_PATH_MAX - 1 then .error "path too long"
  else
    let ll := strlen pp
    if ll ≠ 0 then
      let buf := cstr pp ++ [0]
      match dirnameStrip fsp ll (ll + 1) buf with
      | .ok buf1 =>
        match Rf_strrchr mbcslocale utf8locale mbrtowc mbcurmax buf1 fsp with
        | .ok none => .ok [46]
        | .ok (some p) => .ok (cstr (buf1.set (dirnameBack fsp buf1 p + 1) 0))
        | .error e => .error e
        | .outOfFuel => .outOfFuel
      | .error e => .error e
      | .outOfFuel => .outOfFuel
    else .ok []

/-- The non-Windows `do_dirname` for a character vector, `none` standing for `NA_STRING`: the
elements are handled in order, up to the first error. -/
def do_dirname (mbcslocale utf8locale : Bool) (mbrtowc : List Nat → Nat → Int)
    (mbcurmax R_PATH_MAX fsp : Nat) : List (Option (List Nat)) → Res (List (Option (List Nat)))
  | [] => .ok []
  | none :: rest =>
    match do_dirname mbcslocale utf8locale mbrtowc mbcurmax R_PATH_MAX fsp rest with
    | .ok r => .ok (none :: r)
    | .error e => .error e
    | .outOfFuel => .outOfFuel
  | some pp :: rest =>
    match dirnameElt mbcslocale utf8locale mbrtowc mbcurmax R_PATH_MAX fsp pp with
    | .ok d =>
      match do_dirname mbcslocale utf8locale mbrtowc mbcurmax R_PATH_MAX fsp rest with
      | .ok r => .ok (some d :: r)
      | .error e => .error e
      | .outOfFuel => .outOfFuel
    | .error e => .error e
    | .outOfFuel => .outOfFuel

/-! ## `bincode` -/

/-- The comparison `a < b` of two `double`s, `none` standing for a NaN (every comparison with
a NaN is false); the other values are taken in a linear order `α`. -/
def dlt {α : Type} [LinearOrder α] (a b : Option α) : Bool :=
  match a, b with
  | some u, some v => decide (u < v)
  | _, _ => false

/-- The comparison `a == b` of two `double`s, `none` standing for a NaN. -/
def deq {α : Type} [LinearOrder α] (a b : Option α) : Bool :=
  match a, b with
  | some u, some v => decide (u = v)
  | _, _ => false

/-- The value of an `int` expression whose mathematical value is `v`, on a machine that wraps
(signed overflow is undefined in C). -/
def wrapInt32 (v : Int) : Int := (v + 2147483648) % 4294967296 - 2147483648

/-- The loop `while(hi - lo >= 2)` of `bincode` for the value `x`, with `breaks` the array of
`nb` values.  `new = (hi + lo)/2` is computed in `int`; when `new` is not an index of `breaks`
the read `breaks[new]` is outside the array and the embedding stops with an error value. -/
def bincodeSearch {α : Type} [LinearOrder α] (breaks : Nat → Option α) (nb : Nat) (x : α)
    (lft : Bool) : Nat → Int → Int → Res Int
  | 0, _, _ => .outOfFuel
  | k + 1, lo, hi =>
    if hi - lo ≥ 2 then
      let new := Int.tdiv (wrapInt32 (hi + lo)) 2
      if new < 0 ∨ (nb : Int) ≤ new then .error "index outside breaks"
      else if dlt (breaks new.toNat) (some x) || (lft && deq (some x) (breaks new.toNat)) then
        bincodeSearch breaks nb x lft k new hi
      else bincodeSearch breaks nb x lft k lo new
    else .ok (lo + 1)

/-- The body of the loop of `bincode` over `x`: the code stored for one element. -/
def bincodeElt {α : Type} [LinearOrder α] (breaks : Nat → Option α) (nb : Nat)
    (right include_border : Bool) (x : Option α) : Res Int :=
  match x with
  | none => .ok NA_INTEGER
  | some v =>
    if nb = 0 then .error "index outside breaks"
    else
      let lft := !right
      if dlt (some v) (breaks 0) || dlt (breaks (nb - 1)) (some v) ||
          (deq (some v) (breaks (if lft then nb - 1 else 0)) && !include_border) then
        .ok NA_INTEGER
      else bincodeSearch breaks nb v lft nb 0 ((nb : Int) - 1)

/-- The loop of `bincode` over the elements of `x`, up to the first error. -/
def bincodeLoop {α : Type} [LinearOrder α] (breaks : Nat → Option α) (nb : Nat)
    (right include_border : Bool) : List (Option α) → Res (List Int)
  | [] => .ok []
  | x :: rest =>
    match bincodeElt breaks nb right include_border x with
    | .ok c =>
      match bincodeLoop breaks nb right include_border rest with
      | .ok r => .ok (c :: r)
      | .error e => .error e
      | .outOfFuel => .outOfFuel
    | .error e => .error e
    | .outOfFuel => .outOfFuel

/-- The function `bincode(x, n, breaks, nb, code, right, include_border)`: the vector `code`
after the call.  `breaks` gives the element at each index below `nb`. -/
def bincode {α : Type} [LinearOrder α] (x : List (Option α)) (breaks : Nat → Option α)
    (nb : Nat) (right include_border : Bool) : Res (List Int) :=
  if (List.range nb).any (fun i => decide (1 ≤ i) && dlt (breaks i) (breaks (i - 1))) then
    .error "'breaks' is not sorted"
  else bincodeLoop breaks nb right include_border x

/-! ## Auxiliary lemmas: bit patterns, buffers -/

theorem and_3f_lt (x : Nat) : x &&& 0x3f < 64 := by
  have := Nat.and_le_right (n := x) (m := 0x3f); omega

theorem cont_byte_lt (x : Nat) : 0x80 ||| (x &&& 0x3f) < 256 :=
  Nat.or_lt_two_pow (n := 8) (by decide) (by have := and_3f_lt x; omega)

theorem cont_byte_mod (x : Nat) : (0x80 ||| (x &&& 0x3f)) % 256 = 0x80 ||| (x &&& 0x3f) :=
  Nat.mod_eq_of_lt (cont_byte_lt x)

theorem exists_split (buf : List Nat) (off k : Nat) (h : off + k ≤ buf.length) :
    ∃ pre mid post, buf = pre ++ (mid ++ post) ∧ pre.length = off ∧ mid.length = k := by
  refine ⟨buf.take off, (buf.drop off).take k, (buf.drop off).drop k, ?_, ?_, ?_⟩
  · simp
  · simp; omega
  · simp; omega

theorem tableIndex_def (cp : Nat) :
    tableIndex cp = if cp ≤ 0x7f then 0 else if cp ≤ 0x7ff then 1 else if cp ≤ 0xffff then 2
      else if cp ≤ 0x1fffff then 3 else if cp ≤ 0x3ffffff then 4
      else if cp ≤ 0x7fffffff then 5 else 6 := by
  simp only [tableIndex, utf8_table1, List.findIdx_cons, List.findIdx_nil, cond_eq_if,
    decide_eq_true_eq]
  split_ifs <;> rfl

theorem tableIndex_eq (cp k : Nat) (hk1 : 1 ≤ k) (hk6 : k ≤ 6)
    (hle : cp ≤ utf8_table1.getD (k - 1) 0)
    (hmin : ∀ j, 1 ≤ j → j < k → utf8_table1.getD (j - 1) 0 < cp) :
    tableIndex cp = k - 1 := by
  have h1 := hmin 1
  have h2 := hmin 2
  have h3 := hmin 3
  have h4 := hmin 4
  have h5 := hmin 5
  rw [tableIndex_def]
  interval_cases k <;>
    simp [utf8_table1] at hle h1 h2 h3 h4 h5 <;>
    split_ifs <;> omega

theorem shr_lt (cp a b : Nat) (h : cp < 2 ^ (a + b)) : cp >>> a < 2 ^ b := by
  rw [Nat.shiftRight_eq_div_pow]
  rw [Nat.pow_add] at h
  exact Nat.div_lt_of_lt_mul h

theorem Rwcrtomb32_split (pre mid post : List Nat) (cp k n : Nat)
    (hk1 : 1 ≤ k) (hk6 : k ≤ 6) (hidx : tableIndex cp = k - 1) (hcp : cp ≠ 0)
    (hle : cp ≤ utf8_table1.getD (k - 1) 0) (hn : k + 1 ≤ n) (hmid : mid.length = k) :
    Rwcrtomb32 (some (pre ++ (mid ++ post))) pre.length cp n
      = (some (pre ++ (canonicalUtf8 cp k ++ post)), k) := by
  have hn0 : n ≠ 0 := by omega
  have hnk : ¬ (n - 1 ≤ k - 1) := by omega
  simp only [Rwcrtomb32, hn0, hcp, hidx, if_false, ge_iff_le, hnk, Option.map_some']
  interval_cases k
  · match mid, hmid with
    | [a], _ =>
      simp [utf8_table1] at hle
      simp [writeTail, canonicalUtf8, utf8_table2, List.set_append]
      omega
  · match mid, hmid with
    | [a, b], _ =>
      simp [utf8_table1] at hle
      have h1 : cp >>> 6 < 2 ^ 5 := shr_lt cp 6 5 (by simp; omega)
      simp [writeTail, canonicalUtf8, utf8_table2, List.set_append, List.range_succ,
        cont_byte_mod, ← Nat.shiftRight_add]
      exact Nat.or_lt_two_pow (n := 8) (by decide) (by omega)
  · match mid, hmid with
    | [a, b, c], _ =>
      simp [utf8_table1] at hle
      have h1 : cp >>> 12 < 2 ^ 4 := shr_lt cp 12 4 (by simp; omega)
      simp [writeTail, canonicalUtf8, utf8_table2, List.set_append, List.range_succ,
        cont_byte_mod, ← Nat.shiftRight_add]
      exact Nat.or_lt_two_pow (n := 8) (by decide) (by omega)
  · match mid, hmid with
    | [a, b, c, d], _ =>
      simp [utf8_table1] at hle
      have h1 : cp >>> 18 < 2 ^ 3 := shr_lt cp 18 3 (by simp; omega)
      simp [writeTail, canonicalUtf8, utf8_table2, List.set_append, List.range_succ,
        cont_byte_mod, ← Nat.shiftRight_add]
      exact Nat.or_lt_two_pow (n := 8) (by decide) (by omega)
  · match mid, hmid with
    | [a, b, c, d, e], _ =>
      simp [utf8_table1] at hle
      have h1 : cp >>> 24 < 2 ^ 2 := shr_lt cp 24 2 (by simp; omega)
      simp [writeTail, canonicalUtf8, utf8_table2, List.set_append, List.range_succ,
        cont_byte_mod, ← Nat.shiftRight_add]
      exact Nat.or_lt_two_pow (n := 8) (by decide) (by omega)
  · match mid, hmid with
    | [a, b, c, d, e, f], _ =>
      simp [utf8_table1] at hle
      have h1 : cp >>> 30 < 2 ^ 1 := shr_lt cp 30 1 (by simp; omega)
      simp [writeTail, canonicalUtf8, utf8_table2, List.set_append, List.range_succ,
        cont_byte_mod, ← Nat.shiftRight_add]
      exact Nat.or_lt_two_pow (n := 8) (by decide) (by omega)


theorem and_3f_eq_mod (x : Nat) : x &&& 0x3f = x % 64 := Nat.and_pow_two_sub_one_eq_mod x 6

theorem shl_or_eq_add (a b i : Nat) (h : b < 2 ^ i) : a <<< i ||| b = a * 2 ^ i + b := by
  rw [Nat.shiftLeft_eq, Nat.mul_comm, Nat.mul_add_lt_is_or h]

theorem cont_facts : ∀ y, y < 64 → (0x80 ||| y) % 256 = 0x80 + y ∧ 0x80 ||| y = 0x80 + y ∧
    (0x80 + y) &&& 0xC0 = 0x80 ∧ (0x80 + y) &&& 0x3F = y ∧ (0x80 + y) &&& 0x0F = y % 16 := by
  decide

theorem lead2_facts : ∀ x, x < 32 → 0xC0 ||| x = 0xC0 + x ∧ (0xC0 + x) &&& 0x1F = x := by
  decide

theorem lead3_facts : ∀ x, x < 16 → 0xE0 ||| x = 0xE0 + x ∧ (0xE0 + x) &&& 0x0F = x := by
  decide

theorem lead4_facts : ∀ x, x < 8 → 0xF0 ||| x = 0xF0 + x ∧ (0xF0 + x) &&& 0x0F = x := by
  decide

@[simp] theorem byteAt_cons_zero (b : Nat) (s : List Nat) : byteAt (b :: s) 0 = b % 256 := rfl

@[simp] theorem byteAt_cons_succ (b : Nat) (s : List Nat) (i : Nat) :
    byteAt (b :: s) (i + 1) = byteAt s i := rfl

theorem strlen_cons (b : Nat) (s : List Nat) (h : b % 256 ≠ 0) :
    strlen (b :: s) = strlen s + 1 := by
  simp [strlen, List.takeWhile_cons, h]

theorem strlen_cons_zero (b : Nat) (s : List Nat) (h : b % 256 = 0) :
    strlen (b :: s) = 0 := by
  simp [strlen, List.takeWhile_cons, h]


theorem utf8toucs_2 (wbits x y : Nat) (post : List Nat) (hx : x < 32) (hy : y < 64) :
    utf8toucs wbits ((0xC0 + x) :: (0x80 + y) :: post) = ⟨2, some (wcast wbits (x * 64 + y))⟩ := by
  obtain ⟨-, l2⟩ := lead2_facts x hx
  obtain ⟨-, -, c1, c2, -⟩ := cont_facts y hy
  have e0 : (0xC0 + x) % 256 = 0xC0 + x := by omega
  have e1 : (0x80 + y) % 256 = 0x80 + y := by omega
  have hl : ¬ strlen ((0xC0 + x) :: (0x80 + y) :: post) < 2 := by
    rw [strlen_cons _ _ (by omega), strlen_cons _ _ (by omega)]; omega
  simp (disch := omega) only [utf8toucs, byteAt_cons_zero, byteAt_cons_succ, e0, e1, hl,
    if_neg, if_pos, l2, c1, c2]
  rw [shl_or_eq_add _ _ 6 (by omega)]
  rfl


theorem utf8toucs_1 (wbits x : Nat) (post : List Nat) (h0 : x ≠ 0) (hx : x < 0x80) :
    utf8toucs wbits (x :: post) = ⟨1, some (wcast wbits x)⟩ := by
  have e0 : x % 256 = x := by omega
  simp (disch := omega) only [utf8toucs, byteAt_cons_zero, e0, if_neg, if_pos]

theorem utf8toucs_3 (wbits x y z : Nat) (post : List Nat) (hw : 16 ≤ wbits)
    (hx : x < 16) (hy : y < 64) (hz : z < 64) :
    utf8toucs wbits ((0xE0 + x) :: (0x80 + y) :: (0x80 + z) :: post) =
      if (0xD800 ≤ x * 4096 + y * 64 + z ∧ x * 4096 + y * 64 + z ≤ 0xDFFF)
          ∨ x * 4096 + y * 64 + z = 0xFFFE ∨ x * 4096 + y * 64 + z = 0xFFFF
      then ⟨-1, some (x * 4096 + y * 64 + z)⟩ else ⟨3, some (x * 4096 + y * 64 + z)⟩ := by
  obtain ⟨-, l2⟩ := lead3_facts x hx
  obtain ⟨-, -, c1, c2, -⟩ := cont_facts y hy
  obtain ⟨-, -, d1, d2, -⟩ := cont_facts z hz
  have e0 : (0xE0 + x) % 256 = 0xE0 + x := by omega
  have e1 : (0x80 + y) % 256 = 0x80 + y := by omega
  have e2 : (0x80 + z) % 256 = 0x80 + z := by omega
  have hl : ¬ strlen ((0xE0 + x) :: (0x80 + y) :: (0x80 + z) :: post) < 3 := by
    rw [strlen_cons _ _ (by omega), strlen_cons _ _ (by omega), strlen_cons _ _ (by omega)]
    omega
  have hv : (x <<< 12 ||| y <<< 6 ||| z) = x * 4096 + y * 64 + z := by
    have hy6 : y <<< 6 < 2 ^ 12 := by rw [Nat.shiftLeft_eq]; omega
    have h2 : x * 2 ^ 12 + y <<< 6 = (x * 64 + y) <<< 6 := by
      simp only [Nat.shiftLeft_eq]; omega
    rw [shl_or_eq_add x (y <<< 6) 12 hy6, h2, shl_or_eq_add _ z 6 (by omega)]
    omega
  have hwc : wcast wbits (x * 4096 + y * 64 + z) = x * 4096 + y * 64 + z := by
    have : 2 ^ 16 ≤ 2 ^ wbits := Nat.pow_le_pow_right (by decide) hw
    exact Nat.mod_eq_of_lt (by omega)
  have hu : u32 (x * 4096 + y * 64 + z) = x * 4096 + y * 64 + z :=
    Nat.mod_eq_of_lt (by omega)
  simp (disch := omega) only [utf8toucs, byteAt_cons_zero, byteAt_cons_succ, e0, e1, e2, hl,
    if_neg, if_pos, l2, c1, c2, d1, d2, and_self, hv, hwc, hu, ↓reduceIte]
  split_ifs <;> first | rfl | omega


theorem join4 (x y z t : Nat) (hy : y < 64) (hz : z < 64) (ht : t < 64) :
    (x <<< 18 ||| y <<< 12 ||| z <<< 6 ||| t) = x * 262144 + y * 4096 + z * 64 + t := by
  have hy12 : y <<< 12 < 2 ^ 18 := by rw [Nat.shiftLeft_eq]; omega
  have h2 : x * 2 ^ 18 + y <<< 12 = (x * 64 + y) <<< 12 := by
    simp only [Nat.shiftLeft_eq]; omega
  have hz6 : z <<< 6 < 2 ^ 12 := by rw [Nat.shiftLeft_eq]; omega
  have h3 : (x * 64 + y) * 2 ^ 12 + z <<< 6 = ((x * 64 + y) * 64 + z) <<< 6 := by
    simp only [Nat.shiftLeft_eq]; omega
  rw [shl_or_eq_add x (y <<< 12) 18 hy12, h2, shl_or_eq_add _ (z <<< 6) 12 hz6, h3,
    shl_or_eq_add _ t 6 (by omega)]
  omega

theorem utf8toucs_4 (wbits x y z t : Nat) (post : List Nat)
    (hx : x < 8) (hy : y < 64) (hz : z < 64) (ht : t < 64) :
    utf8toucs wbits ((0xF0 + x) :: (0x80 + y) :: (0x80 + z) :: (0x80 + t) :: post) =
      if wbits < 32 then
        ⟨4, some (wcast wbits (wcast wbits
          (u32 (x * 262144 + y * 4096 + z * 64 + t + 2 ^ 32 - 0x10000) >>> 10) ||| 0xD800))⟩
      else ⟨4, some (wcast wbits (x * 262144 + y * 4096 + z * 64 + t))⟩ := by
  obtain ⟨-, l2⟩ := lead4_facts x hx
  obtain ⟨-, -, c1, c2, -⟩ := cont_facts y hy
  obtain ⟨-, -, d1, d2, -⟩ := cont_facts z hz
  obtain ⟨-, -, f1, f2, -⟩ := cont_facts t ht
  have e0 : (0xF0 + x) % 256 = 0xF0 + x := by omega
  have e1 : (0x80 + y) % 256 = 0x80 + y := by omega
  have e2 : (0x80 + z) % 256 = 0x80 + z := by omega
  have e3 : (0x80 + t) % 256 = 0x80 + t := by omega
  have hl : ¬ strlen ((0xF0 + x) :: (0x80 + y) :: (0x80 + z) :: (0x80 + t) :: post) < 4 := by
    rw [strlen_cons _ _ (by omega), strlen_cons _ _ (by omega), strlen_cons _ _ (by omega),
      strlen_cons _ _ (by omega)]
    omega
  have hv := join4 x y z t hy hz ht
  simp (disch := omega) only [utf8toucs, byteAt_cons_zero, byteAt_cons_succ, e0, e1, e2, e3, hl,
    if_neg, if_pos, l2, c1, c2, d1, d2, f1, f2, and_self, hv, ↓reduceIte]

theorem utf8toucs_nul (wbits : Nat) (s : List Nat) (h : byteAt s 0 = 0) :
    utf8toucs wbits s = ⟨0, some 0⟩ := by
  simp [utf8toucs, h, wcast]

theorem shr6 (cp : Nat) : cp >>> 6 = cp / 64 := Nat.shiftRight_eq_div_pow cp 6
theorem shr12 (cp : Nat) : cp >>> 12 = cp / 4096 := Nat.shiftRight_eq_div_pow cp 12
theorem shr18 (cp : Nat) : cp >>> 18 = cp / 262144 := Nat.shiftRight_eq_div_pow cp 18

theorem cont_eq (x : Nat) : 0x80 ||| (x &&& 0x3F) = 0x80 + x % 64 := by
  rw [and_3f_eq_mod]
  exact (cont_facts (x % 64) (Nat.mod_lt _ (by decide))).2.1

theorem canonicalUtf8_one (cp : Nat) : canonicalUtf8 cp 1 = [cp] := by
  simp [canonicalUtf8, utf8_table2]

theorem canonicalUtf8_two (cp : Nat) (h : cp ≤ 0x7FF) :
    canonicalUtf8 cp 2 = [0xC0 + cp / 64, 0x80 + cp % 64] := by
  have l := (lead2_facts (cp / 64) (by omega)).1
  simp [canonicalUtf8, utf8_table2, List.range_succ, cont_eq, shr6, l]

theorem canonicalUtf8_three (cp : Nat) (h : cp ≤ 0xFFFF) :
    canonicalUtf8 cp 3 = [0xE0 + cp / 4096, 0x80 + cp / 64 % 64, 0x80 + cp % 64] := by
  have l := (lead3_facts (cp / 4096) (by omega)).1
  simp [canonicalUtf8, utf8_table2, List.range_succ, cont_eq, shr6, shr12, l]

theorem canonicalUtf8_four (cp : Nat) (h : cp ≤ 0x1FFFFF) :
    canonicalUtf8 cp 4 =
      [0xF0 + cp / 262144, 0x80 + cp / 4096 % 64, 0x80 + cp / 64 % 64, 0x80 + cp % 64] := by
  have l := (lead4_facts (cp / 262144) (by omega)).1
  simp [canonicalUtf8, utf8_table2, List.range_succ, cont_eq, shr6, shr12, shr18, l]

theorem utf8toucs_canonical (cp k : Nat) (post : List Nat) (hcp0 : cp ≠ 0)
    (hcp : cp ≤ 0x10FFFF) (hsur : ¬ (0xD800 ≤ cp ∧ cp ≤ 0xDFFF))
    (hnc : cp ≠ 0xFFFE ∧ cp ≠ 0xFFFF) (hidx : tableIndex cp + 1 = k) :
    utf8toucs 32 (canonicalUtf8 cp k ++ post) = ⟨k, some cp⟩ := by
  rw [tableIndex_def] at hidx
  split_ifs at hidx <;> subst hidx
  · rw [canonicalUtf8_one]
    simp only [List.singleton_append]
    rw [utf8toucs_1 32 cp post hcp0 (by omega)]
    simp [wcast]; omega
  · rw [canonicalUtf8_two cp (by omega)]
    simp only [List.cons_append, List.nil_append]
    rw [utf8toucs_2 32 _ _ post (by omega) (by omega)]
    simp [wcast]; omega
  · rw [canonicalUtf8_three cp (by omega)]
    simp only [List.cons_append, List.nil_append]
    rw [utf8toucs_3 32 _ _ _ post (by omega) (by omega) (by omega) (by omega)]
    have : cp / 4096 * 4096 + cp / 64 % 64 * 64 + cp % 64 = cp := by omega
    rw [this, if_neg (by omega)]
    rfl
  · rw [canonicalUtf8_four cp (by omega)]
    simp only [List.cons_append, List.nil_append]
    rw [utf8toucs_4 32 _ _ _ _ post (by omega) (by omega) (by omega) (by omega)]
    have : cp / 262144 * 262144 + cp / 4096 % 64 * 4096 + cp / 64 % 64 * 64 + cp % 64 = cp := by
      omega
    rw [this]
    simp [wcast]; omega
  all_goals omega


/-! ## C1 -/

/-- C1, counterexample: the round trip fails at the scalar U+FFFE, which `Rwcrtomb32` encodes as
`EF BF BE` and `utf8toucs` rejects as invalid. -/
theorem roundtrip_fails_at_FFFE :
    Rwcrtomb32 (some [0, 0, 0, 0]) 0 0xFFFE 4 = (some [0xEF, 0xBF, 0xBE, 0], 3) ∧
    utf8toucs 32 [0xEF, 0xBF, 0xBE, 0] = ⟨-1, some 0xFFFE⟩ := by
  decide

/-- C1, amended: for every code point `cp ≤ 0x10FFFF` that is neither a surrogate nor U+FFFE nor
U+FFFF, decoding with `utf8toucs` (32-bit `wchar_t`) the bytes that `Rwcrtomb32` writes for `cp`
with a capacity of at least 5 returns the count `Rwcrtomb32` returned and the code point `cp`. -/
theorem utf8toucs_Rwcrtomb32_roundtrip (buf : List Nat) (off cp n : Nat)
    (hcp : cp ≤ 0x10FFFF) (hsur : ¬ (0xD800 ≤ cp ∧ cp ≤ 0xDFFF))
    (hnc : cp ≠ 0xFFFE ∧ cp ≠ 0xFFFF) (hn : 5 ≤ n) (hbuf : off + n ≤ buf.length) :
    ∃ out r, Rwcrtomb32 (some buf) off cp n = (some out, r) ∧
      utf8toucs 32 (out.drop off) = ⟨(r : Int), some cp⟩ := by
  by_cases h0 : cp = 0
  · subst h0
    obtain ⟨pre, mid, post, rfl, hpre, hmid⟩ := exists_split buf off 1 (by omega)
    match mid, hmid with
    | [a], _ =>
      refine ⟨pre ++ (0 :: post), 0, ?_, ?_⟩
      · subst hpre
        simp [Rwcrtomb32, List.set_append]
        omega
      · subst hpre
        simp [utf8toucs_nul]
  · have hk : tableIndex cp + 1 ≤ 4 := by
      rw [tableIndex_def]; split_ifs <;> omega
    obtain ⟨pre, mid, post, rfl, hpre, hmid⟩ :=
      exists_split buf off (tableIndex cp + 1) (by omega)
    have hle : cp ≤ utf8_table1.getD (tableIndex cp + 1 - 1) 0 := by
      rw [tableIndex_def]; split_ifs <;> simp [utf8_table1] <;> omega
    refine ⟨pre ++ (canonicalUtf8 cp (tableIndex cp + 1) ++ post), tableIndex cp + 1, ?_, ?_⟩
    · subst hpre
      exact Rwcrtomb32_split pre mid post cp _ n (by omega) (by omega) (by omega) h0 hle
        (by omega) hmid
    · subst hpre
      rw [List.drop_left]
      exact utf8toucs_canonical cp _ post h0 hcp hsur hnc rfl

/-- C1, witness: the amended round trip at U+20AC in an eight-byte buffer. -/
theorem utf8toucs_Rwcrtomb32_roundtrip_witness :
    ∃ out r, Rwcrtomb32 (some [1, 2, 3, 4, 5, 6, 7, 8]) 0 0x20AC 8 = (some out, r) ∧
      utf8toucs 32 (out.drop 0) = ⟨(r : Int), some 0x20AC⟩ :=
  utf8toucs_Rwcrtomb32_roundtrip [1, 2, 3, 4, 5, 6, 7, 8] 0 0x20AC 8 (by decide) (by decide)
    (by decide) (by decide) (by decide)


/-! ## The branches of `utf8toucs` -/

theorem utf8toucs_ascii (wbits : Nat) (s : List Nat) (h0 : byteAt s 0 ≠ 0)
    (h1 : byteAt s 0 < 0x80) : utf8toucs wbits s = ⟨1, some (wcast wbits (byteAt s 0))⟩ := by
  simp only [utf8toucs, h0, h1, ↓reduceIte]

theorem utf8toucs_cont (wbits : Nat) (s : List Nat) (h1 : 0x80 ≤ byteAt s 0)
    (h2 : byteAt s 0 < 0xC0) : utf8toucs wbits s = ⟨-1, none⟩ := by
  have a0 : ¬ byteAt s 0 = 0 := by omega
  have a1 : ¬ byteAt s 0 < 0x80 := by omega
  simp only [utf8toucs, a0, a1, h2, ↓reduceIte]

theorem utf8toucs_lead2 (wbits : Nat) (s : List Nat) (h1 : 0xC0 ≤ byteAt s 0)
    (h2 : byteAt s 0 < 0xE0) :
    utf8toucs wbits s =
      if strlen s < 2 then ⟨-2, none⟩
      else if byteAt s 1 &&& 0xC0 = 0x80 then
        ⟨2, some (wcast wbits (((byteAt s 0 &&& 0x1F) <<< 6) ||| (byteAt s 1 &&& 0x3F)))⟩
      else ⟨-1, none⟩ := by
  have a0 : ¬ byteAt s 0 = 0 := by omega
  have a1 : ¬ byteAt s 0 < 0x80 := by omega
  have a2 : ¬ byteAt s 0 < 0xC0 := by omega
  simp only [utf8toucs, a0, a1, a2, h2, ↓reduceIte]

theorem utf8toucs_lead3 (wbits : Nat) (s : List Nat) (h1 : 0xE0 ≤ byteAt s 0)
    (h2 : byteAt s 0 < 0xF0) :
    utf8toucs wbits s =
      if strlen s < 3 then ⟨-2, none⟩
      else if byteAt s 1 &&& 0xC0 = 0x80 ∧ byteAt s 2 &&& 0xC0 = 0x80 then
        if 0xD800 ≤ u32 (wcast wbits (((byteAt s 0 &&& 0x0F) <<< 12)
              ||| ((byteAt s 1 &&& 0x3F) <<< 6) ||| (byteAt s 2 &&& 0x3F)))
            ∧ u32 (wcast wbits (((byteAt s 0 &&& 0x0F) <<< 12)
              ||| ((byteAt s 1 &&& 0x3F) <<< 6) ||| (byteAt s 2 &&& 0x3F))) ≤ 0xDFFF then
          ⟨-1, some (wcast wbits (((byteAt s 0 &&& 0x0F) <<< 12)
              ||| ((byteAt s 1 &&& 0x3F) <<< 6) ||| (byteAt s 2 &&& 0x3F)))⟩
        else if u32 (wcast wbits (((byteAt s 0 &&& 0x0F) <<< 12)
              ||| ((byteAt s 1 &&& 0x3F) <<< 6) ||| (byteAt s 2 &&& 0x3F))) = 0xFFFE
            ∨ u32 (wcast wbits (((byteAt s 0 &&& 0x0F) <<< 12)
              ||| ((byteAt s 1 &&& 0x3F) <<< 6) ||| (byteAt s 2 &&& 0x3F))) = 0xFFFF then
          ⟨-1, some (wcast wbits (((byteAt s 0 &&& 0x0F) <<< 12)
              ||| ((byteAt s 1 &&& 0x3F) <<< 6) ||| (byteAt s 2 &&& 0x3F)))⟩
        else ⟨3, some (wcast wbits (((byteAt s 0 &&& 0x0F) <<< 12)
              ||| ((byteAt s 1 &&& 0x3F) <<< 6) ||| (byteAt s 2 &&& 0x3F)))⟩
      else ⟨-1, none⟩ := by
  have a0 : ¬ byteAt s 0 = 0 := by omega
  have a1 : ¬ byteAt s 0 < 0x80 := by omega
  have a2 : ¬ byteAt s 0 < 0xC0 := by omega
  have a3 : ¬ byteAt s 0 < 0xE0 := by omega
  simp only [utf8toucs, a0, a1, a2, a3, h2, ↓reduceIte]

theorem utf8toucs_lead4 (wbits : Nat) (s : List Nat) (h1 : 0xF0 ≤ byteAt s 0)
    (h2 : byteAt s 0 < 0xF8) :
    utf8toucs wbits s =
      if strlen s < 4 then ⟨-2, none⟩
      else if byteAt s 1 &&& 0xC0 = 0x80 ∧ byteAt s 2 &&& 0xC0 = 0x80
          ∧ byteAt s 3 &&& 0xC0 = 0x80 then
        if wbits < 32 then
          ⟨4, some (wcast wbits (wcast wbits (u32 ((((byteAt s 0 &&& 0x0F) <<< 18)
                 ||| ((byteAt s 1 &&& 0x3F) <<< 12) ||| ((byteAt s 2 &&& 0x3F) <<< 6)
                 ||| (byteAt s 3 &&& 0x3F)) + 2 ^ 32 - 0x10000) >>> 10) ||| 0xD800))⟩
        else ⟨4, some (wcast wbits (((byteAt s 0 &&& 0x0F) <<< 18)
                 ||| ((byteAt s 1 &&& 0x3F) <<< 12) ||| ((byteAt s 2 &&& 0x3F) <<< 6)
                 ||| (byteAt s 3 &&& 0x3F)))⟩
      else ⟨-1, none⟩ := by
  have a0 : ¬ byteAt s 0 = 0 := by omega
  have a1 : ¬ byteAt s 0 < 0x80 := by omega
  have a2 : ¬ byteAt s 0 < 0xC0 := by omega
  have a3 : ¬ byteAt s 0 < 0xE0 := by omega
  have a4 : ¬ byteAt s 0 < 0xF0 := by omega
  simp only [utf8toucs, a0, a1, a2, a3, a4, h2, ↓reduceIte]

theorem utf8toucs_lead5 (wbits : Nat) (s : List Nat) (h1 : 0xF8 ≤ byteAt s 0)
    (h2 : byteAt s 0 < 0xFC) :
    utf8toucs wbits s =
      if wbits < 32 then ⟨-2, none⟩
      else if strlen s < 5 then ⟨-2, none⟩
      else ⟨5, some (wcast wbits (u32 ((byteAt s 0 &&& 0x0F) <<< 24)
                 ||| ((byteAt s 1 &&& 0x3F) <<< 12)
                 ||| ((byteAt s 2 &&& 0x3F) <<< 12)
                 ||| ((byteAt s 3 &&& 0x3F) <<< 6)
                 ||| (byteAt s 4 &&& 0x3F)))⟩ := by
  have a0 : ¬ byteAt s 0 = 0 := by omega
  have a1 : ¬ byteAt s 0 < 0x80 := by omega
  have a2 : ¬ byteAt s 0 < 0xC0 := by omega
  have a3 : ¬ byteAt s 0 < 0xE0 := by omega
  have a4 : ¬ byteAt s 0 < 0xF0 := by omega
  have a5 : ¬ byteAt s 0 < 0xF8 := by omega
  simp only [utf8toucs, a0, a1, a2, a3, a4, a5, h2, ↓reduceIte]

theorem utf8toucs_lead6 (wbits : Nat) (s : List Nat) (h1 : 0xFC ≤ byteAt s 0) :
    utf8toucs wbits s =
      if wbits < 32 then ⟨-2, none⟩
      else if strlen s < 6 then ⟨-2, none⟩
      else ⟨6, some (wcast wbits (u32 ((byteAt s 0 &&& 0x0F) <<< 30)
                 ||| ((byteAt s 1 &&& 0x3F) <<< 24)
                 ||| ((byteAt s 2 &&& 0x3F) <<< 18)
                 ||| ((byteAt s 3 &&& 0x3F) <<< 12)
                 ||| ((byteAt s 4 &&& 0x3F) <<< 6)
                 ||| (byteAt s 5 &&& 0x3F)))⟩ := by
  have a0 : ¬ byteAt s 0 = 0 := by omega
  have a1 : ¬ byteAt s 0 < 0x80 := by omega
  have a2 : ¬ byteAt s 0 < 0xC0 := by omega
  have a3 : ¬ byteAt s 0 < 0xE0 := by omega
  have a4 : ¬ byteAt s 0 < 0xF0 := by omega
  have a5 : ¬ byteAt s 0 < 0xF8 := by omega
  have a6 : ¬ byteAt s 0 < 0xFC := by omega
  simp only [utf8toucs, a0, a1, a2, a3, a4, a5, a6, ↓reduceIte]


theorem byteAt_lt (s : List Nat) (i : Nat) : byteAt s i < 256 := Nat.mod_lt _ (by decide)

theorem wcast_le (wbits x : Nat) : wcast wbits x ≤ x := Nat.mod_le _ _

/-! ## C2 -/

/-- C2, counterexample: with a 32-bit `wchar_t` the overlong 4-byte form `F0 8D A0 80` decodes
successfully to the surrogate 0xD800, the overlong 4-byte form `F0 8F BF BE` to U+FFFE, and the
overlong 6-byte form `FC 80 80 8D A0 80` to 0xD800 as well. -/
theorem utf8toucs_accepts_overlong_surrogate :
    utf8toucs 32 [0xF0, 0x8D, 0xA0, 0x80, 0] = ⟨4, some 0xD800⟩ ∧
    utf8toucs 32 [0xF0, 0x8F, 0xBF, 0xBE, 0] = ⟨4, some 0xFFFE⟩ ∧
    utf8toucs 32 [0xFC, 0x80, 0x80, 0x8D, 0xA0, 0x80, 0] = ⟨6, some 0xD800⟩ := by
  decide

/-- C2, amended: whenever `utf8toucs` (32-bit `wchar_t`) succeeds with a length of at most 3
(the 1-, 2- and 3-byte forms), the decoded code point is neither in the surrogate range nor
U+FFFE nor U+FFFF: the 3-byte branch tests the decoded value, and the 1- and 2-byte forms stay
below `0x800`. -/
theorem utf8toucs_checked_forms (s : List Nat) (r : Int) (v : Nat)
    (h : utf8toucs 32 s = ⟨r, some v⟩) (hr : 0 < r) (hr3 : r ≤ 3) :
    ¬ (0xD800 ≤ v ∧ v ≤ 0xDFFF) ∧ v ≠ 0xFFFE ∧ v ≠ 0xFFFF := by
  have hb := byteAt_lt s 0
  by_cases c0 : byteAt s 0 = 0
  · rw [utf8toucs_nul 32 s c0] at h
    simp only [Ucs.mk.injEq] at h
    omega
  by_cases c1 : byteAt s 0 < 0x80
  · rw [utf8toucs_ascii 32 s c0 c1] at h
    simp only [Ucs.mk.injEq, Option.some.injEq] at h
    have := wcast_le 32 (byteAt s 0)
    omega
  by_cases c2 : byteAt s 0 < 0xC0
  · rw [utf8toucs_cont 32 s (by omega) c2] at h
    simp at h
  by_cases c3 : byteAt s 0 < 0xE0
  · rw [utf8toucs_lead2 32 s (by omega) c3] at h
    split_ifs at h <;> simp only [Ucs.mk.injEq, Option.some.injEq, reduceCtorEq, and_false] at h
    have h1 : (byteAt s 0 &&& 0x1F) <<< 6 < 2 ^ 11 := by
      have := Nat.and_le_right (n := byteAt s 0) (m := 0x1F)
      rw [Nat.shiftLeft_eq]; omega
    have h2 : byteAt s 1 &&& 0x3F < 2 ^ 11 := by
      have := and_3f_lt (byteAt s 1); omega
    have h3 := Nat.or_lt_two_pow h1 h2
    have := wcast_le 32 ((byteAt s 0 &&& 0x1F) <<< 6 ||| byteAt s 1 &&& 0x3F)
    omega
  by_cases c4 : byteAt s 0 < 0xF0
  · rw [utf8toucs_lead3 32 s (by omega) c4] at h
    have hu : ∀ x, u32 (wcast 32 x) = wcast 32 x := fun x => by simp [u32, wcast]
    simp only [hu] at h
    split_ifs at h <;> simp only [Ucs.mk.injEq, Option.some.injEq, reduceCtorEq, and_false] at h
    · omega
    · omega
    · omega
  by_cases c5 : byteAt s 0 < 0xF8
  · rw [utf8toucs_lead4 32 s (by omega) c5] at h
    split_ifs at h <;> simp only [Ucs.mk.injEq, Option.some.injEq, reduceCtorEq, and_false] at h
    all_goals omega
  by_cases c6 : byteAt s 0 < 0xFC
  · rw [utf8toucs_lead5 32 s (by omega) c6] at h
    split_ifs at h <;> simp only [Ucs.mk.injEq, Option.some.injEq, reduceCtorEq, and_false] at h
    all_goals omega
  · rw [utf8toucs_lead6 32 s (by omega)] at h
    split_ifs at h <;> simp only [Ucs.mk.injEq, Option.some.injEq, reduceCtorEq, and_false] at h
    all_goals omega

/-- C2, witness: the amended claim at the 3-byte encoding of U+20AC. -/
theorem utf8toucs_checked_forms_witness :
    ¬ (0xD800 ≤ 0x20AC ∧ 0x20AC ≤ 0xDFFF) ∧ 0x20AC ≠ 0xFFFE ∧ 0x20AC ≠ 0xFFFF :=
  utf8toucs_checked_forms [0xE2, 0x82, 0xAC, 0] 3 0x20AC (by decide) (by decide) (by decide)


theorem utf8clen_lead (b : Nat) (h1 : 0xC0 ≤ b) (h2 : b < 256) :
    utf8clen b = if b < 0xE0 then 2 else if b < 0xF0 then 3 else if b < 0xF8 then 4
      else if b < 0xFC then 5 else 6 := by
  interval_cases b <;> rfl

theorem utf8clen_single (b : Nat) (h2 : b < 0xC0) : utf8clen b = 1 := by
  interval_cases b <;> rfl

/-! ## C3 -/

/-- C3: for every lead byte `b ≥ 0xC0`, when the NUL-terminated input holds fewer bytes than
`utf8clen b`, `utf8toucs` (32-bit `wchar_t`) returns Incomplete (`-2`): it stores nothing and
does not return Invalid, whatever the bytes present are. -/
theorem utf8toucs_incomplete (s : List Nat) (hb : 0xC0 ≤ byteAt s 0)
    (hlen : strlen s < utf8clen (byteAt s 0)) :
    2 ≤ utf8clen (byteAt s 0) ∧ utf8clen (byteAt s 0) ≤ 6 ∧ utf8toucs 32 s = ⟨-2, none⟩ := by
  have hlt := byteAt_lt s 0
  rw [utf8clen_lead _ hb hlt] at hlen ⊢
  by_cases c3 : byteAt s 0 < 0xE0
  · rw [utf8toucs_lead2 32 s hb c3]
    simp only [c3, ↓reduceIte] at hlen ⊢
    simp [hlen]
  by_cases c4 : byteAt s 0 < 0xF0
  · rw [utf8toucs_lead3 32 s (by omega) c4]
    simp only [c3, c4, ↓reduceIte] at hlen ⊢
    simp [hlen]
  by_cases c5 : byteAt s 0 < 0xF8
  · rw [utf8toucs_lead4 32 s (by omega) c5]
    simp only [c3, c4, c5, ↓reduceIte] at hlen ⊢
    simp [hlen]
  by_cases c6 : byteAt s 0 < 0xFC
  · rw [utf8toucs_lead5 32 s (by omega) c6]
    simp only [c3, c4, c5, c6, ↓reduceIte] at hlen ⊢
    simp [hlen]
  · rw [utf8toucs_lead6 32 s (by omega)]
    simp only [c3, c4, c5, c6, ↓reduceIte] at hlen ⊢
    simp [hlen]

/-- C3, witness: the lead byte `E2` followed by a single byte that is not even a continuation
byte. -/
theorem utf8toucs_incomplete_witness :
    2 ≤ utf8clen (byteAt [0xE2, 0x41, 0] 0) ∧ utf8clen (byteAt [0xE2, 0x41, 0] 0) ≤ 6 ∧
      utf8toucs 32 [0xE2, 0x41, 0] = ⟨-2, none⟩ :=
  utf8toucs_incomplete [0xE2, 0x41, 0] (by decide) (by decide)

/-! ## C4 -/

/-- C4, counterexample: the byte `0x80` has its top two bits `10` and `utf8clen` gives it
length 1, but `utf8toucs` returns Invalid for it and stores nothing, for either width. -/
theorem utf8toucs_rejects_0x80 :
    0x80 &&& 0xC0 ≠ 0xC0 ∧ utf8clen 0x80 = 1 ∧
    utf8toucs 32 [0x80, 0] = ⟨-1, none⟩ ∧ utf8toucs 16 [0x80, 0] = ⟨-1, none⟩ := by
  decide

/-- C4, amended: for every input whose first byte `b` is non-zero with `(b & 0xC0) != 0xC0`,
`utf8clen b` is 1; `utf8toucs` returns length 1 with code point `b` when `b < 0x80`, and returns
Invalid (`-1`, nothing stored) when `b` is one of the bytes `0x80..0xBF`. -/
theorem utf8toucs_single_byte (wbits : Nat) (s : List Nat) (hw : 16 ≤ wbits)
    (h0 : byteAt s 0 ≠ 0) (htop : byteAt s 0 &&& 0xC0 ≠ 0xC0) :
    utf8clen (byteAt s 0) = 1 ∧
    (byteAt s 0 < 0x80 → utf8toucs wbits s = ⟨1, some (byteAt s 0)⟩) ∧
    (0x80 ≤ byteAt s 0 → utf8toucs wbits s = ⟨-1, none⟩) := by
  have hlt := byteAt_lt s 0
  have hC : byteAt s 0 < 0xC0 := by
    by_contra hge
    have hge : 0xC0 ≤ byteAt s 0 := by omega
    generalize byteAt s 0 = b at *
    interval_cases b <;> exact htop (by decide)
  refine ⟨utf8clen_single _ hC, ?_, ?_⟩
  · intro h7
    rw [utf8toucs_ascii wbits s h0 h7]
    have : 2 ^ 16 ≤ 2 ^ wbits := Nat.pow_le_pow_right (by decide) hw
    rw [wcast, Nat.mod_eq_of_lt (by omega)]
  · intro h8
    exact utf8toucs_cont wbits s h8 hC

/-- C4, witness: the amended claim on the string "A". -/
theorem utf8toucs_single_byte_witness :
    utf8clen (byteAt [0x41, 0] 0) = 1 ∧
    (byteAt [0x41, 0] 0 < 0x80 → utf8toucs 32 [0x41, 0] = ⟨1, some (byteAt [0x41, 0] 0)⟩) ∧
    (0x80 ≤ byteAt [0x41, 0] 0 → utf8toucs 32 [0x41, 0] = ⟨-1, none⟩) :=
  utf8toucs_single_byte 32 [0x41, 0] (by decide) (by decide) (by decide)


/-! ## C5 -/

/-- C5: for every code value `cp` in `[1, 0x7FFFFFFF]`, with `k` the minimal length in `1..6`
such that `cp ≤ utf8_table1[k-1]`, and every capacity `n ≥ k + 1`, `Rwcrtomb32` returns `k` and
writes exactly the canonical UTF-8 bytes of `cp` (lead byte `utf8_table2[k-1] | (cp >> 6*(k-1))`,
then `k-1` continuation bytes) at the `k` positions starting at `s`, leaving the other bytes of
the buffer as they were. -/
theorem Rwcrtomb32_canonical (buf : List Nat) (off cp n k : Nat)
    (hcp1 : 1 ≤ cp) (hcp : cp ≤ 0x7FFFFFFF) (hk1 : 1 ≤ k) (hk6 : k ≤ 6)
    (hle : cp ≤ utf8_table1.getD (k - 1) 0)
    (hmin : ∀ j, 1 ≤ j → j < k → utf8_table1.getD (j - 1) 0 < cp)
    (hn : k + 1 ≤ n) (hbuf : off + n ≤ buf.length) :
    Rwcrtomb32 (some buf) off cp n
      = (some (buf.take off ++ (canonicalUtf8 cp k ++ buf.drop (off + k))), k) := by
  have hidx := tableIndex_eq cp k hk1 hk6 hle hmin
  obtain ⟨pre, mid, post, rfl, hpre, hmid⟩ := exists_split buf off k (by omega)
  subst hpre
  rw [Rwcrtomb32_split pre mid post cp k n hk1 hk6 hidx (by omega) hle hn hmid]
  subst hmid
  have h1 : (pre ++ (mid ++ post)).take pre.length = pre := List.take_left _ _
  have h2 : (pre ++ (mid ++ post)).drop (pre.length + mid.length) = post := by
    rw [← List.append_assoc, ← List.length_append, List.drop_left]
  rw [h1, h2]

/-- C5, witness: U+20AC written at offset 1 of an eight-byte buffer with capacity 4. -/
theorem Rwcrtomb32_canonical_witness :
    Rwcrtomb32 (some [1, 2, 3, 4, 5, 6, 7, 8]) 1 0x20AC 4
      = (some ([1, 2, 3, 4, 5, 6, 7, 8].take 1 ++
          (canonicalUtf8 0x20AC 3 ++ [1, 2, 3, 4, 5, 6, 7, 8].drop (1 + 3))), 3) :=
  Rwcrtomb32_canonical [1, 2, 3, 4, 5, 6, 7, 8] 1 0x20AC 4 3 (by decide) (by decide) (by decide)
    (by decide) (by decide) (by intro j h1 h2; interval_cases j <;> decide) (by decide)
    (by decide)

/-! ## C6 -/

/-- C6, counterexample: with capacity 1 the code value 0x41 does not fit; `Rwcrtomb32` returns 0
but has overwritten the first byte of the buffer with a terminator. -/
theorem Rwcrtomb32_short_writes_terminator :
    Rwcrtomb32 (some [0x41, 0x42]) 0 0x41 1 = (some [0, 0x42], 0) ∧
    (Rwcrtomb32 (some [0x41, 0x42]) 0 0x41 1).1 ≠ some [0x41, 0x42] := by
  decide

/-- C6, amended: for every non-zero code value `cp` and every capacity `n ≥ 1` smaller than the
encoded length of `cp` plus one, `Rwcrtomb32` returns 0 and the only byte it writes is a
terminator at `s[0]`; every other byte of the buffer is unchanged. -/
theorem Rwcrtomb32_short (buf : List Nat) (off cp n : Nat) (hcp : cp ≠ 0) (hn1 : 1 ≤ n)
    (hn : n < tableIndex cp + 1 + 1) :
    Rwcrtomb32 (some buf) off cp n = (some (buf.set off 0), 0) := by
  have hn0 : n ≠ 0 := by omega
  have hge : tableIndex cp ≥ n - 1 := by omega
  simp only [Rwcrtomb32, hn0, hcp, hge, ↓reduceIte, Option.map_some']

/-- C6, witness: U+20AC (three bytes) with capacity 3 in a four-byte buffer. -/
theorem Rwcrtomb32_short_witness :
    Rwcrtomb32 (some [9, 9, 9, 9]) 0 0x20AC 3 = (some ([9, 9, 9, 9].set 0 0), 0) :=
  Rwcrtomb32_short [9, 9, 9, 9] 0 0x20AC 3 (by decide) (by decide) (by decide)


theorem and_3ff_eq_mod (x : Nat) : x &&& 0x3FF = x % 1024 := Nat.and_pow_two_sub_one_eq_mod x 10

theorem high_unit_eq (h : Nat) (hh : h < 1024) : h ||| 0xD800 = 0xD800 + h := by
  rw [Nat.or_comm]
  have e : (0xD800 : Nat) = 54 <<< 10 := by decide
  rw [e, shl_or_eq_add 54 h 10 (by omega), Nat.shiftLeft_eq]

theorem low_unit_eq (a t : Nat) (ha : a < 16) (ht : t < 64) :
    0xDC00 ||| a <<< 6 ||| t = 0xDC00 + a * 64 + t := by
  have e : (0xDC00 : Nat) = 55 <<< 10 := by decide
  have h6 : a <<< 6 < 2 ^ 10 := by rw [Nat.shiftLeft_eq]; omega
  have h2 : 55 * 2 ^ 10 + a <<< 6 = (55 * 16 + a) <<< 6 := by
    simp only [Nat.shiftLeft_eq]; omega
  rw [e, shl_or_eq_add 55 (a <<< 6) 10 h6, h2, shl_or_eq_add _ t 6 (by omega),
    Nat.shiftLeft_eq]
  omega

/-! ## C7 -/

/-- C7: for every scalar `c` in `[0x10000, 0x10FFFF]`, with `s` the 4-byte UTF-8 encoding that
`Rwcrtomb32` writes, `utf8toucs` on a 16-bit `wchar_t` returns 4 and the high unit
`((c - 0x10000) >> 10) | 0xD800`; this unit and the low unit `utf8toutf16low(s)` form a
surrogate pair and rejoin to `c`: `utf8toucs32(high, s) = utf16toucs(high, low)
= 0x10000 + ((high & 0x3FF) << 10) + (low & 0x3FF) = c`. -/
theorem surrogate_pair_rejoins (buf : List Nat) (c n : Nat) (h1 : 0x10000 ≤ c)
    (h2 : c ≤ 0x10FFFF) (hn : 5 ≤ n) (hbuf : n ≤ buf.length) :
    ∃ s, Rwcrtomb32 (some buf) 0 c n = (some s, 4) ∧
      utf8toucs 16 s = ⟨4, some (((c - 0x10000) >>> 10) ||| 0xD800)⟩ ∧
      IS_SURROGATE_PAIR (((c - 0x10000) >>> 10) ||| 0xD800) (utf8toutf16low 16 s) = true ∧
      utf8toucs32 16 (((c - 0x10000) >>> 10) ||| 0xD800) s = c ∧
      utf16toucs (((c - 0x10000) >>> 10) ||| 0xD800) (utf8toutf16low 16 s) = c ∧
      0x10000 + (((((c - 0x10000) >>> 10) ||| 0xD800) &&& 0x3FF) <<< 10)
        + (utf8toutf16low 16 s &&& 0x3FF) = c := by
  obtain ⟨pre, mid, post, rfl, hpre, hmid⟩ := exists_split buf 0 4 (by omega)
  have hp : pre = [] := List.length_eq_zero.mp hpre
  subst hp
  have hidx : tableIndex c = 4 - 1 := by
    rw [tableIndex_def]; split_ifs <;> omega
  have henc := Rwcrtomb32_split [] mid post c 4 n (by decide) (by decide) hidx (by omega)
    (by simp [utf8_table1]; omega) (by omega) hmid
  rw [canonicalUtf8_four c (by omega)] at henc
  simp only [List.nil_append, List.length_nil, List.cons_append] at henc ⊢
  refine ⟨_, henc, ?_⟩
  have hh : (c - 0x10000) >>> 10 = (c - 0x10000) / 1024 := Nat.shiftRight_eq_div_pow _ 10
  have hhi := high_unit_eq ((c - 0x10000) / 1024) (by omega)
  have hlow : utf8toutf16low 16
      ((0xF0 + c / 262144) :: (0x80 + c / 4096 % 64) :: (0x80 + c / 64 % 64) ::
        (0x80 + c % 64) :: post) = 0xDC00 + (c / 64 % 64 % 16) * 64 + c % 64 := by
    obtain ⟨-, -, -, -, d3⟩ := cont_facts (c / 64 % 64) (by omega)
    obtain ⟨-, -, -, f2, -⟩ := cont_facts (c % 64) (by omega)
    have e2 : (0x80 + c / 64 % 64) % 256 = 0x80 + c / 64 % 64 := by omega
    have e3 : (0x80 + c % 64) % 256 = 0x80 + c % 64 := by omega
    simp only [utf8toutf16low, LOW_SURROGATE_START, byteAt_cons_succ, byteAt_cons_zero, e2, e3,
      d3, f2]
    rw [low_unit_eq _ _ (by omega) (by omega), wcast]
    exact Nat.mod_eq_of_lt (by omega)
  have hjoin : 0x10000 + (((((c - 0x10000) >>> 10) ||| 0xD800) &&& 0x3FF) <<< 10)
      + ((0xDC00 + (c / 64 % 64 % 16) * 64 + c % 64) &&& 0x3FF) = c := by
    rw [hh, hhi, and_3ff_eq_mod, and_3ff_eq_mod, Nat.shiftLeft_eq]
    omega
  refine ⟨?_, ?_, ?_, ?_, ?_⟩
  · rw [utf8toucs_4 16 _ _ _ _ post (by omega) (by omega) (by omega) (by omega)]
    have hv : c / 262144 * 262144 + c / 4096 % 64 * 4096 + c / 64 % 64 * 64 + c % 64 = c := by
      omega
    have hu : u32 (c + 2 ^ 32 - 0x10000) = c - 0x10000 := by
      simp only [u32]; omega
    have hw1 : wcast 16 ((c - 0x10000) / 1024) = (c - 0x10000) / 1024 :=
      Nat.mod_eq_of_lt (by omega)
    have hw2 : wcast 16 (0xD800 + (c - 0x10000) / 1024) = 0xD800 + (c - 0x10000) / 1024 :=
      Nat.mod_eq_of_lt (by omega)
    rw [hv, hu, hh, hw1, hhi, hw2]
    rfl
  · rw [hlow, hh, hhi]
    simp only [IS_SURROGATE_PAIR, IS_HIGH_SURROGATE, IS_LOW_SURROGATE, HIGH_SURROGATE_START,
      HIGH_SURROGATE_END, LOW_SURROGATE_START, LOW_SURROGATE_END, Bool.and_eq_true,
      decide_eq_true_eq]
    omega
  · rw [utf8toucs32, utf16toucs, hlow, hjoin]
    exact Nat.mod_eq_of_lt (by omega)
  · rw [utf16toucs, hlow, hjoin]
    exact Nat.mod_eq_of_lt (by omega)
  · rw [hlow, hjoin]

/-- C7, witness: U+1F600 split into the pair `D83D DE00` and rejoined. -/
theorem surrogate_pair_rejoins_witness :
    ∃ s, Rwcrtomb32 (some [0, 0, 0, 0, 0]) 0 0x1F600 5 = (some s, 4) ∧
      utf8toucs 16 s = ⟨4, some (((0x1F600 - 0x10000) >>> 10) ||| 0xD800)⟩ ∧
      IS_SURROGATE_PAIR (((0x1F600 - 0x10000) >>> 10) ||| 0xD800) (utf8toutf16low 16 s) = true ∧
      utf8toucs32 16 (((0x1F600 - 0x10000) >>> 10) ||| 0xD800) s = 0x1F600 ∧
      utf16toucs (((0x1F600 - 0x10000) >>> 10) ||| 0xD800) (utf8toutf16low 16 s) = 0x1F600 ∧
      0x10000 + (((((0x1F600 - 0x10000) >>> 10) ||| 0xD800) &&& 0x3FF) <<< 10)
        + (utf8toutf16low 16 s &&& 0x3FF) = 0x1F600 :=
  surrogate_pair_rejoins [0, 0, 0, 0, 0] 0x1F600 5 (by decide) (by decide) (by decide)
    (by decide)


/-! ## Steps of the whole-string loops -/

theorem strlen_pos (t : List Nat) (h : byteAt t 0 ≠ 0) : 1 ≤ strlen t := by
  cases t with
  | nil => simp [byteAt] at h
  | cons b rest =>
    rw [strlen_cons b rest (by simpa using h)]
    omega

theorem strlen_drop (t : List Nat) (k : Nat) (h : k ≤ strlen t) :
    strlen (t.drop k) = strlen t - k := by
  induction k generalizing t with
  | zero => simp
  | succ k ih =>
    cases t with
    | nil => simp [strlen] at h
    | cons b rest =>
      by_cases hb : b % 256 = 0
      · rw [strlen_cons_zero b rest hb] at h; omega
      · rw [strlen_cons b rest hb] at h ⊢
        simp only [List.drop_succ_cons]
        rw [ih rest (by omega)]
        omega

theorem utf8toucs_ret_le (wbits : Nat) (t : List Nat) (h : 0 < (utf8toucs wbits t).ret) :
    1 ≤ (utf8toucs wbits t).ret.toNat ∧ (utf8toucs wbits t).ret.toNat ≤ strlen t := by
  by_cases c0 : byteAt t 0 = 0
  · rw [utf8toucs_nul wbits t c0] at h
    simp at h
  have hpos := strlen_pos t c0
  by_cases c1 : byteAt t 0 < 0x80
  · rw [utf8toucs_ascii wbits t c0 c1]
    simpa using hpos
  by_cases c2 : byteAt t 0 < 0xC0
  · rw [utf8toucs_cont wbits t (by omega) c2] at h
    simp at h
  by_cases c3 : byteAt t 0 < 0xE0
  · rw [utf8toucs_lead2 wbits t (by omega) c3] at h ⊢
    split_ifs at h ⊢
    all_goals simp at h ⊢
    all_goals omega
  by_cases c4 : byteAt t 0 < 0xF0
  · rw [utf8toucs_lead3 wbits t (by omega) c4] at h ⊢
    split_ifs at h ⊢
    all_goals simp at h ⊢
    all_goals omega
  by_cases c5 : byteAt t 0 < 0xF8
  · rw [utf8toucs_lead4 wbits t (by omega) c5] at h ⊢
    split_ifs at h ⊢
    all_goals simp at h ⊢
    all_goals omega
  by_cases c6 : byteAt t 0 < 0xFC
  · rw [utf8toucs_lead5 wbits t (by omega) c6] at h ⊢
    split_ifs at h ⊢
    all_goals simp at h ⊢
    all_goals omega
  · rw [utf8toucs_lead6 wbits t (by omega)] at h ⊢
    split_ifs at h ⊢
    all_goals simp at h ⊢
    all_goals omega

theorem DecodesTo_not_fails (wbits : Nat) (s : List Nat) (k : Nat)
    (h : DecodesTo wbits s k) : ¬ DecodeFails wbits s := by
  induction h with
  | nul s h0 =>
    intro hf
    cases hf with
    | here _ hn => omega
    | later _ hp _ => omega
  | step s k hp _ ih =>
    intro hf
    cases hf with
    | here _ hn => omega
    | later _ _ hrest => exact ih hrest

theorem DecodesTo_unique (wbits : Nat) (s : List Nat) (k j : Nat)
    (h : DecodesTo wbits s k) (h2 : DecodesTo wbits s j) : k = j := by
  induction h generalizing j with
  | nul s h0 =>
    cases h2 with
    | nul _ _ => rfl
    | step _ _ hp _ => omega
  | step s k hp _ ih =>
    cases h2 with
    | nul _ h0 => omega
    | step _ j2 _ hrest => rw [ih j2 hrest]

theorem utf8towcsLen_spec (wbits : Nat) (fuel : Nat) (t : List Nat) (res : Nat)
    (hf : strlen t + 1 ≤ fuel) :
    (DecodeFails wbits t ∧
        utf8towcsLen wbits fuel t res = .error "invalid input in 'utf8towcs'") ∨
    (∃ k, DecodesTo wbits t k ∧ utf8towcsLen wbits fuel t res = .ok (none, res + k)) := by
  induction fuel generalizing t res with
  | zero => omega
  | succ fuel ih =>
    by_cases hneg : (utf8toucs wbits t).ret < 0
    · left
      exact ⟨DecodeFails.here t hneg, by simp [utf8towcsLen, hneg]⟩
    by_cases hz : (utf8toucs wbits t).ret = 0
    · right
      exact ⟨0, DecodesTo.nul t hz, by simp [utf8towcsLen, hz]⟩
    have hp : 0 < (utf8toucs wbits t).ret := by omega
    obtain ⟨h1, h2⟩ := utf8toucs_ret_le wbits t hp
    have hd := strlen_drop t _ h2
    by_cases hs : IS_HIGH_SURROGATE ((utf8toucs wbits t).w.getD 0) = true
    · rcases ih (t.drop (utf8toucs wbits t).ret.toNat) (res + 1 + 1) (by omega) with
        ⟨hfail, he⟩ | ⟨k, hk, he⟩
      · left
        exact ⟨DecodeFails.later t hp hfail, by simp [utf8towcsLen, hneg, hz, hs, he]⟩
      · right
        refine ⟨k + unitsOf (utf8toucs wbits t), DecodesTo.step t k hp hk, ?_⟩
        simp [utf8towcsLen, hneg, hz, hs, he, unitsOf]
        omega
    · rcases ih (t.drop (utf8toucs wbits t).ret.toNat) (res + 1) (by omega) with
        ⟨hfail, he⟩ | ⟨k, hk, he⟩
      · left
        exact ⟨DecodeFails.later t hp hfail, by simp [utf8towcsLen, hneg, hz, hs, he]⟩
      · right
        refine ⟨k + unitsOf (utf8toucs wbits t), DecodesTo.step t k hp hk, ?_⟩
        simp [utf8towcsLen, hneg, hz, hs, he, unitsOf]
        omega

/-! ## C8 -/

/-- C8: for every NUL-terminated byte string `s`, `utf8towcs` in length-only mode (`wc = NULL`)
raises the 'invalid input' error exactly when decoding left to right from the start with
`utf8toucs` meets a negative result before the terminating NUL; otherwise it returns the number
of wide units of `s`, one per decoded character and two for a character decoded as a high
surrogate.  The loop always ends. -/
theorem utf8towcs_length_only (wbits : Nat) (s : List Nat) (n : Nat) :
    (utf8towcs wbits none s n = .error "invalid input in 'utf8towcs'" ↔ DecodeFails wbits s) ∧
    (∀ k, utf8towcs wbits none s n = .ok (none, k) ↔ DecodesTo wbits s k) ∧
    (DecodeFails wbits s ∨ ∃ k, DecodesTo wbits s k) ∧
    utf8towcs wbits none s n ≠ .outOfFuel := by
  simp only [utf8towcs]
  rcases utf8towcsLen_spec wbits (strlen s + 1) s 0 (Nat.le_refl _) with
    ⟨hfail, he⟩ | ⟨k, hk, he⟩
  · refine ⟨⟨fun _ => hfail, fun _ => he⟩, ?_, Or.inl hfail, by rw [he]; simp⟩
    intro j
    constructor
    · intro hj; rw [he] at hj; simp at hj
    · intro hj; exact absurd hfail (DecodesTo_not_fails wbits s j hj)
  · rw [Nat.zero_add] at he
    refine ⟨⟨?_, ?_⟩, ?_, Or.inr ⟨k, hk⟩, by rw [he]; simp⟩
    · intro hj; rw [he] at hj; simp at hj
    · intro hj; exact absurd hj (DecodesTo_not_fails wbits s k hk)
    · intro j
      constructor
      · intro hj
        rw [he] at hj
        simp only [Res.ok.injEq, Prod.mk.injEq, true_and] at hj
        exact hj ▸ hk
      · intro hj
        rw [he, DecodesTo_unique wbits s k j hk hj]


/-! ## C9 -/

/-- C9, the failing input: on a 16-bit `wchar_t`, `utf8towcs4` applied to "a" followed by the
4-byte encoding of U+1F600 writes `0x61, 0x1F7D8` instead of `0x61, 0x1F600`: the low surrogate
is read at the start `s` of the string, not at the current position `t`.  With a 32-bit
`wchar_t`, and with the 4-byte sequence first, the result is right. -/
theorem utf8towcs4_low_surrogate_read_at_start :
    canonicalUtf8 0x61 1 ++ canonicalUtf8 0x1F600 4 ++ [0] = [0x61, 0xF0, 0x9F, 0x98, 0x80, 0] ∧
    utf8towcs4 16 (some [0, 0, 0]) [0x61, 0xF0, 0x9F, 0x98, 0x80, 0] 3
      = .ok (some [0x61, 0x1F7D8, 0], 2) ∧
    utf8towcs4 32 (some [0, 0, 0]) [0x61, 0xF0, 0x9F, 0x98, 0x80, 0] 3
      = .ok (some [0x61, 0x1F600, 0], 2) ∧
    utf8towcs4 16 (some [0, 0, 0]) [0xF0, 0x9F, 0x98, 0x80, 0x61, 0] 3
      = .ok (some [0x1F600, 0x61, 0], 2) := by
  decide


/-! ## Steps of `wcstoutf8` -/

theorem canonicalUtf8_length (cp k : Nat) (hk : 1 ≤ k) : (canonicalUtf8 cp k).length = k := by
  simp [canonicalUtf8]; omega

theorem tableIndex_le (cp : Nat) (h : cp ≤ 0x7FFFFFFF) :
    tableIndex cp ≤ 5 ∧ cp ≤ utf8_table1.getD (tableIndex cp) 0 := by
  rw [tableIndex_def]
  split_ifs <;> simp [utf8_table1] <;> omega

theorem Rwcrtomb32_at (pre rest : List Nat) (cp n : Nat) (hcp0 : cp ≠ 0)
    (hcp : cp ≤ 0x7FFFFFFF) (hn : tableIndex cp + 2 ≤ n) (hr : n ≤ rest.length) :
    Rwcrtomb32 (some (pre ++ rest)) pre.length cp n
      = (some (pre ++ (canonicalUtf8 cp (tableIndex cp + 1) ++ rest.drop (tableIndex cp + 1))),
          tableIndex cp + 1) := by
  obtain ⟨h5, hle⟩ := tableIndex_le cp hcp
  have hsplit : rest = rest.take (tableIndex cp + 1) ++ rest.drop (tableIndex cp + 1) :=
    (List.take_append_drop _ _).symm
  have hlen : (rest.take (tableIndex cp + 1)).length = tableIndex cp + 1 := by
    rw [List.length_take]; omega
  have := Rwcrtomb32_split pre (rest.take (tableIndex cp + 1)) (rest.drop (tableIndex cp + 1))
    cp (tableIndex cp + 1) n (by omega) (by omega) (by omega) hcp0 (by simpa using hle)
    (by omega) hlen
  rw [← hsplit] at this
  exact this

theorem Rwcrtomb32_nul_at (pre rest : List Nat) (n : Nat) (hn : 1 ≤ n) (hr : 1 ≤ rest.length) :
    Rwcrtomb32 (some (pre ++ rest)) pre.length 0 n = (some (pre ++ 0 :: rest.drop 1), 0) := by
  have hn0 : n ≠ 0 := by omega
  cases rest with
  | nil => simp at hr
  | cons b rest => simp [Rwcrtomb32, hn0, List.set_append]


theorem not_surrogate_zero : IS_HIGH_SURROGATE 0 = false ∧ IS_LOW_SURROGATE 0 = false := by
  decide

theorem wcstoutf8Loop_end (wbits n fuel : Nat) (pre rest p warns : List Nat)
    (hu : wcharAt wbits p 0 = 0) (hn : pre.length + 1 ≤ n)
    (hr : n ≤ pre.length + rest.length) :
    wcstoutf8Loop wbits n (fuel + 1) (some (pre ++ rest)) p pre.length warns
      = .ok ⟨some (pre ++ 0 :: rest.drop 1), pre.length + 1, warns⟩ := by
  have hz : u32 0 = 0 := rfl
  simp only [wcstoutf8Loop, hu, IS_SURROGATE_PAIR, not_surrogate_zero.1, not_surrogate_zero.2,
    Bool.false_and, Bool.or_self, Bool.false_eq_true, ↓reduceIte, hz]
  rw [Rwcrtomb32_nul_at pre rest (n - pre.length) (by omega) (by omega)]
  simp only [↓reduceIte]

theorem wcstoutf8Loop_single (wbits n fuel : Nat) (pre rest p warns : List Nat) (u : Nat)
    (hu : wcharAt wbits p 0 = u) (hne : u ≠ 0) (hmax : u ≤ 0x7FFFFFFF)
    (hpair : IS_SURROGATE_PAIR u (wcharAt wbits p 1) = false)
    (hn : pre.length + tableIndex u + 2 ≤ n) (hr : n ≤ pre.length + rest.length) :
    wcstoutf8Loop wbits n (fuel + 1) (some (pre ++ rest)) p pre.length warns
      = wcstoutf8Loop wbits n fuel
          (some ((pre ++ canonicalUtf8 u (tableIndex u + 1)) ++ rest.drop (tableIndex u + 1)))
          (p.drop 1) (pre ++ canonicalUtf8 u (tableIndex u + 1)).length
          (warns ++ (if isSurrogate u then [u] else [])) := by
  have hz : u32 u = u := Nat.mod_eq_of_lt (by omega)
  have henc := Rwcrtomb32_at pre rest u (n - pre.length) hne hmax (by omega) (by omega)
  simp only [wcstoutf8Loop, hu, hpair, Bool.false_eq_true, ↓reduceIte, hz, henc]
  rw [if_neg (by omega)]
  simp only [List.length_append, canonicalUtf8_length u _ (Nat.le_add_left 1 _),
    List.append_assoc, isSurrogate]
  by_cases hs : (IS_HIGH_SURROGATE u || IS_LOW_SURROGATE u) = true
  · simp [hs]
  · simp [hs]

theorem pair_value_bounds (u v : Nat) :
    0x10000 ≤ 0x10000 + ((u &&& 0x3FF) <<< 10) + (v &&& 0x3FF) ∧
    0x10000 + ((u &&& 0x3FF) <<< 10) + (v &&& 0x3FF) ≤ 0x10FFFF := by
  have h1 := Nat.and_le_right (n := u) (m := 0x3FF)
  have h2 := Nat.and_le_right (n := v) (m := 0x3FF)
  rw [Nat.shiftLeft_eq]
  omega

theorem wcstoutf8Loop_pair (wbits n fuel : Nat) (pre rest p warns : List Nat) (u v : Nat)
    (hu : wcharAt wbits p 0 = u) (hv : wcharAt wbits p 1 = v)
    (hpair : IS_SURROGATE_PAIR u v = true)
    (hn : pre.length + 5 ≤ n) (hr : n ≤ pre.length + rest.length) :
    wcstoutf8Loop wbits n (fuel + 1) (some (pre ++ rest)) p pre.length warns
      = wcstoutf8Loop wbits n fuel
          (some ((pre ++ canonicalUtf8 (0x10000 + ((u &&& 0x3FF) <<< 10) + (v &&& 0x3FF)) 4)
            ++ rest.drop 4))
          (p.drop 2)
          (pre ++ canonicalUtf8 (0x10000 + ((u &&& 0x3FF) <<< 10) + (v &&& 0x3FF)) 4).length
          warns := by
  obtain ⟨hb1, hb2⟩ := pair_value_bounds u v
  have hc : u32 (((u &&& 0x3FF) <<< 10) + (v &&& 0x3FF) + 0x010000)
      = 0x10000 + ((u &&& 0x3FF) <<< 10) + (v &&& 0x3FF) := by
    rw [u32, Nat.mod_eq_of_lt (by omega)]; omega
  have hidx : tableIndex (0x10000 + ((u &&& 0x3FF) <<< 10) + (v &&& 0x3FF)) = 3 := by
    rw [tableIndex_def]; split_ifs <;> omega
  have henc := Rwcrtomb32_at pre rest _ (n - pre.length) (by omega : 0x10000 + ((u &&& 0x3FF) <<< 10) + (v &&& 0x3FF) ≠ 0)
    (by omega) (by omega) (by omega)
  rw [hidx] at henc
  simp only [wcstoutf8Loop, hu, hv, hpair, ↓reduceIte, hc, henc]
  rw [if_neg (by omega)]
  simp only [List.length_append, canonicalUtf8_length _ 4 (by decide), List.append_assoc]


theorem surrogate_range (u : Nat) (h : isSurrogate u = true) : 0xD800 ≤ u ∧ u ≤ 0xDFFF := by
  simp only [isSurrogate, IS_HIGH_SURROGATE, IS_LOW_SURROGATE, HIGH_SURROGATE_START,
    HIGH_SURROGATE_END, LOW_SURROGATE_START, LOW_SURROGATE_END, Bool.or_eq_true,
    Bool.and_eq_true, decide_eq_true_eq] at h
  omega

theorem canonicalUtf8_surrogate (u : Nat) (h1 : 0xD800 ≤ u) (h2 : u ≤ 0xDFFF) :
    tableIndex u = 2 ∧ canonicalUtf8 u 3 = surrogateBytes u := by
  constructor
  · rw [tableIndex_def]; split_ifs <;> omega
  · have h12 : u >>> 12 = 13 := by rw [shr12]; omega
    simp [canonicalUtf8, surrogateBytes, utf8_table2, List.range_succ, h12]

theorem low_not_high (v : Nat) (h : IS_LOW_SURROGATE v = true) : IS_HIGH_SURROGATE v = false := by
  simp only [IS_HIGH_SURROGATE, IS_LOW_SURROGATE, HIGH_SURROGATE_START,
    HIGH_SURROGATE_END, LOW_SURROGATE_START, LOW_SURROGATE_END,
    Bool.and_eq_true, decide_eq_true_eq, Bool.and_eq_false_imp] at h ⊢
  intro _
  simp only [decide_eq_false_iff_not]
  omega

theorem unitBytes_single (prev u next : Nat) (h1 : IS_SURROGATE_PAIR u next = false)
    (h2 : IS_SURROGATE_PAIR prev u = false) :
    unitBytes prev u next = canonicalUtf8 u (tableIndex u + 1) := by
  simp only [unitBytes, h1, h2, Bool.false_eq_true, ↓reduceIte]
  by_cases hs : isSurrogate u = true
  · obtain ⟨ha, hb⟩ := surrogate_range u hs
    obtain ⟨hi, hc⟩ := canonicalUtf8_surrogate u ha hb
    rw [if_pos hs, hi, hc]
  · rw [if_neg hs]

theorem unitWarning_single (prev u next : Nat) (h1 : IS_SURROGATE_PAIR u next = false)
    (h2 : IS_SURROGATE_PAIR prev u = false) :
    unitWarning prev u next = if isSurrogate u then [u] else [] := by
  simp [unitWarning, h1, h2]

theorem wcharAt_units_zero (wbits : Nat) (ws junk : List Nat)
    (hunits : ∀ u ∈ ws, u ≠ 0 ∧ u < 2 ^ wbits ∧ u ≤ 0x7FFFFFFF) :
    wcharAt wbits (ws ++ 0 :: junk) 0 = ws.headD 0 := by
  cases ws with
  | nil => simp [wcharAt]
  | cons u ws =>
    have := (hunits u (List.mem_cons_self _ _)).2.1
    simp [wcharAt, Nat.mod_eq_of_lt this]

theorem wcharAt_succ (wbits : Nat) (u : Nat) (p : List Nat) (i : Nat) :
    wcharAt wbits (u :: p) (i + 1) = wcharAt wbits p i := rfl


theorem canonicalUtf8_length_four (cp : Nat) : (canonicalUtf8 cp 4).length = 4 :=
  canonicalUtf8_length cp 4 (by decide)

theorem canonicalUtf8_length_succ (cp i : Nat) : (canonicalUtf8 cp (i + 1)).length = i + 1 :=
  canonicalUtf8_length cp (i + 1) (by omega)

theorem wcstoutf8Loop_spec (wbits n : Nat) (junk : List Nat) :
    ∀ (m : Nat) (ws : List Nat) (prev fuel : Nat) (pre rest warns : List Nat),
      ws.length ≤ m →
      (∀ u ∈ ws, u ≠ 0 ∧ u < 2 ^ wbits ∧ u ≤ 0x7FFFFFFF) →
      IS_SURROGATE_PAIR prev (ws.headD 0) = false →
      pre.length + (expectedBytes prev ws).length + 1 ≤ n →
      n ≤ pre.length + rest.length →
      (expectedBytes prev ws).length + 1 ≤ fuel →
      wcstoutf8Loop wbits n fuel (some (pre ++ rest)) (ws ++ 0 :: junk) pre.length warns =
        .ok ⟨some (pre ++ (expectedBytes prev ws
                ++ 0 :: rest.drop ((expectedBytes prev ws).length + 1))),
             pre.length + (expectedBytes prev ws).length + 1,
             warns ++ expectedWarnings prev ws⟩ := by
  intro m
  induction m with
  | zero =>
    intro ws prev fuel pre rest warns hm hunits hprev hn hr hf
    have hws : ws = [] := List.length_eq_zero.mp (by omega)
    subst hws
    obtain ⟨f, rfl⟩ : ∃ f, fuel = f + 1 := ⟨fuel - 1, by omega⟩
    simp only [expectedBytes, expectedWarnings, List.length_nil, List.nil_append,
      List.append_nil, Nat.add_zero, Nat.zero_add] at hn ⊢
    exact wcstoutf8Loop_end wbits n f pre rest _ warns (by simp [wcharAt]) hn hr
  | succ m ih =>
    intro ws prev fuel pre rest warns hm hunits hprev hn hr hf
    obtain ⟨f, rfl⟩ : ∃ f, fuel = f + 1 := ⟨fuel - 1, by omega⟩
    cases ws with
    | nil =>
      simp only [expectedBytes, expectedWarnings, List.length_nil, List.nil_append,
        List.append_nil, Nat.add_zero, Nat.zero_add] at hn ⊢
      exact wcstoutf8Loop_end wbits n f pre rest _ warns (by simp [wcharAt]) hn hr
    | cons u ws1 =>
      obtain ⟨hu0, hulw, humax⟩ := hunits u (List.mem_cons_self _ _)
      have hunits1 : ∀ x ∈ ws1, x ≠ 0 ∧ x < 2 ^ wbits ∧ x ≤ 0x7FFFFFFF :=
        fun x hx => hunits x (List.mem_cons_of_mem _ hx)
      have hu : wcharAt wbits ((u :: ws1) ++ 0 :: junk) 0 = u := by
        simp [wcharAt, Nat.mod_eq_of_lt hulw]
      have hv : wcharAt wbits ((u :: ws1) ++ 0 :: junk) 1 = ws1.headD 0 := by
        rw [List.cons_append, wcharAt_succ, wcharAt_units_zero wbits ws1 junk hunits1]
      simp only [List.headD_cons] at hprev
      by_cases hp : IS_SURROGATE_PAIR u (ws1.headD 0) = true
      · cases ws1 with
        | nil =>
          simp [IS_SURROGATE_PAIR, not_surrogate_zero.2] at hp
        | cons v ws2 =>
          simp only [List.headD_cons] at hp hv
          have hvlow : IS_LOW_SURROGATE v = true := by
            simp only [IS_SURROGATE_PAIR, Bool.and_eq_true] at hp
            exact hp.2
          have hnext : ∀ x, IS_SURROGATE_PAIR v x = false := by
            intro x
            simp [IS_SURROGATE_PAIR, low_not_high v hvlow]
          have hE : expectedBytes prev (u :: v :: ws2)
              = canonicalUtf8 (0x10000 + ((u &&& 0x3FF) <<< 10) + (v &&& 0x3FF)) 4
                ++ expectedBytes v ws2 := by
            simp [expectedBytes, unitBytes, hp, hnext]
          have hW : expectedWarnings prev (u :: v :: ws2) = expectedWarnings v ws2 := by
            simp [expectedWarnings, unitWarning, hp, hnext]
          have hlen4 := canonicalUtf8_length
            (0x10000 + ((u &&& 0x3FF) <<< 10) + (v &&& 0x3FF)) 4 (by decide)
          rw [hE, List.length_append, hlen4] at hn hf
          rw [wcstoutf8Loop_pair wbits n f pre rest _ warns u v hu hv hp (by omega) hr]
          have hdrop : List.drop 2 ((u :: v :: ws2) ++ 0 :: junk) = ws2 ++ 0 :: junk := rfl
          rw [hdrop, ih ws2 v f _ (rest.drop 4) warns (by simp at hm; omega)
            (fun x hx => hunits1 x (List.mem_cons_of_mem _ hx)) (hnext _)
            (by simp only [List.length_append, hlen4]; omega)
            (by simp only [List.length_append, hlen4, List.length_drop]; omega)
            (by omega)]
          rw [hE, hW]
          simp only [List.length_append, canonicalUtf8_length_four, List.append_assoc,
            List.drop_drop, Nat.add_assoc]
      · have hp' : IS_SURROGATE_PAIR u (ws1.headD 0) = false := by
          simpa using hp
        have hE : expectedBytes prev (u :: ws1)
            = canonicalUtf8 u (tableIndex u + 1) ++ expectedBytes u ws1 := by
          show unitBytes prev u (ws1.headD 0) ++ expectedBytes u ws1 = _
          rw [unitBytes_single prev u _ hp' hprev]
        have hW : expectedWarnings prev (u :: ws1)
            = (if isSurrogate u then [u] else []) ++ expectedWarnings u ws1 := by
          show unitWarning prev u (ws1.headD 0) ++ expectedWarnings u ws1 = _
          rw [unitWarning_single prev u _ hp' hprev]
        have hlenk := canonicalUtf8_length u (tableIndex u + 1) (by omega)
        rw [hE, List.length_append, hlenk] at hn hf
        rw [wcstoutf8Loop_single wbits n f pre rest _ warns u hu hu0 humax
          (by rw [hv]; exact hp') (by omega) hr]
        have hdrop : List.drop 1 ((u :: ws1) ++ 0 :: junk) = ws1 ++ 0 :: junk := rfl
        rw [hdrop, ih ws1 u f _ (rest.drop (tableIndex u + 1)) _ (by simp at hm; omega)
          hunits1 hp'
          (by simp only [List.length_append, hlenk]; omega)
          (by simp only [List.length_append, hlenk, List.length_drop]; omega)
          (by omega)]
        rw [hE, hW]
        simp only [List.length_append, canonicalUtf8_length_succ, List.append_assoc,
          List.drop_drop, Nat.add_assoc]


/-! ## C10 -/

/-- C10: for every NUL-terminated wide string (units `ws`, then the terminator) and sufficient
capacity, `wcstoutf8` converts all of it: each surrogate unit that is neither the first nor the
second unit of a high+low pair causes one warning and is still encoded, as the 3-byte pattern
`0xED, 0x80|((u>>6)&0x3F), 0x80|(u&0x3F)`; the conversion continues with the following units;
the two units of a proper high+low pair are combined into one 4-byte sequence without a warning;
the output is terminated and the count includes the terminator. -/
theorem wcstoutf8_surrogates (wbits : Nat) (ws junk buf : List Nat) (n : Nat)
    (hunits : ∀ u ∈ ws, u ≠ 0 ∧ u < 2 ^ wbits ∧ u ≤ 0x7FFFFFFF)
    (hn : (expectedBytes 0 ws).length + 1 ≤ n) (hbuf : n ≤ buf.length) :
    wcstoutf8 wbits (some buf) (ws ++ 0 :: junk) n =
      .ok ⟨some (expectedBytes 0 ws ++ 0 :: buf.drop ((expectedBytes 0 ws).length + 1)),
           (expectedBytes 0 ws).length + 1, expectedWarnings 0 ws⟩ := by
  have hn0 : n ≠ 0 := by omega
  have hpair : IS_SURROGATE_PAIR 0 (ws.headD 0) = false := by
    simp [IS_SURROGATE_PAIR, not_surrogate_zero.1]
  have h := wcstoutf8Loop_spec wbits n junk ws.length ws 0 n [] buf [] (Nat.le_refl _) hunits
    hpair (by simpa using hn) (by simpa using hbuf) hn
  simp only [List.nil_append, List.length_nil, Nat.zero_add] at h
  simp only [wcstoutf8, hn0, ↓reduceIte, h]

/-- C10, witness: "A", the pair `D83D DE00`, a lone high surrogate, "B" and a lone low
surrogate, on a 16-bit `wchar_t`: two warnings, 12 bytes and the terminator. -/
theorem wcstoutf8_surrogates_witness :
    wcstoutf8 16 (some (List.replicate 14 9))
        ([0x41, 0xD83D, 0xDE00, 0xD800, 0x42, 0xDC00] ++ 0 :: []) 14 =
      .ok ⟨some [0x41, 0xF0, 0x9F, 0x98, 0x80, 0xED, 0xA0, 0x80, 0x42, 0xED, 0xB0, 0x80, 0, 9],
           13, [0xD800, 0xDC00]⟩ :=
  (wcstoutf8_surrogates 16 [0x41, 0xD83D, 0xDE00, 0xD800, 0x42, 0xDC00] []
    (List.replicate 14 9) 14 (by decide) (by decide) (by decide)).trans (by decide)

/-! ## Steps of `wcs4toutf8` -/

theorem utf8Encode_append (a b : List Nat) :
    utf8Encode (a ++ b) = utf8Encode a ++ utf8Encode b := by
  induction a with
  | nil => rfl
  | cons u a ih => simp [utf8Encode, ih]

theorem fitCount_le (cap : Nat) (ws : List Nat) : fitCount cap ws ≤ ws.length := by
  induction ws generalizing cap with
  | nil => simp [fitCount]
  | cons u ws ih =>
    simp only [fitCount]
    split_ifs
    · have := ih (cap - (tableIndex u + 1)); simp; omega
    · simp

theorem fitCount_le_cap (cap : Nat) (ws : List Nat) : fitCount cap ws ≤ cap := by
  induction ws generalizing cap with
  | nil => simp [fitCount]
  | cons u ws ih =>
    simp only [fitCount]
    split_ifs
    · have := ih (cap - (tableIndex u + 1)); omega
    · omega

theorem fitCount_fits (cap : Nat) (ws : List Nat) :
    (utf8Encode (ws.take (fitCount cap ws))).length ≤ cap := by
  induction ws generalizing cap with
  | nil => simp [fitCount, utf8Encode]
  | cons u ws ih =>
    simp only [fitCount]
    split_ifs with h
    · have := ih (cap - (tableIndex u + 1))
      simp only [List.take_succ_cons, utf8Encode, List.length_append,
        canonicalUtf8_length_succ]
      omega
    · simp [utf8Encode]

theorem fitCount_longest (cap : Nat) (ws : List Nat) (j : Nat) (hj : j ≤ ws.length)
    (hfit : (utf8Encode (ws.take j)).length ≤ cap) : j ≤ fitCount cap ws := by
  induction ws generalizing cap j with
  | nil => simp at hj; omega
  | cons u ws ih =>
    cases j with
    | zero => omega
    | succ j =>
      simp only [List.take_succ_cons, utf8Encode, List.length_append,
        canonicalUtf8_length_succ] at hfit
      simp only [fitCount]
      rw [if_pos (by omega)]
      have := ih (cap - (tableIndex u + 1)) j (by simpa using hj) (by omega)
      omega

theorem Rwcrtomb32_short_at (pre rest : List Nat) (cp n : Nat) (hcp : cp ≠ 0) (hn1 : 1 ≤ n)
    (hn : n < tableIndex cp + 1 + 1) (hr : 1 ≤ rest.length) :
    Rwcrtomb32 (some (pre ++ rest)) pre.length cp n = (some (pre ++ 0 :: rest.drop 1), 0) := by
  have hn0 : n ≠ 0 := by omega
  have hge : tableIndex cp ≥ n - 1 := by omega
  cases rest with
  | nil => simp at hr
  | cons b rest =>
    simp [Rwcrtomb32, hn0, hcp, hge, List.set_append]

theorem wcs4toutf8Loop_spec (n : Nat) (junk : List Nat) :
    ∀ (ws : List Nat) (fuel : Nat) (pre rest : List Nat),
      (∀ u ∈ ws, u ≠ 0 ∧ u ≤ 0x7FFFFFFF) →
      pre.length + 1 ≤ n →
      n ≤ pre.length + rest.length →
      fitCount (n - 1 - pre.length) ws + 1 ≤ fuel →
      wcs4toutf8Loop n fuel (some (pre ++ rest)) (ws ++ 0 :: junk) pre.length =
        .ok (some (pre ++ (utf8Encode (ws.take (fitCount (n - 1 - pre.length) ws))
                ++ 0 :: rest.drop
                  ((utf8Encode (ws.take (fitCount (n - 1 - pre.length) ws))).length + 1))),
             pre.length
               + (utf8Encode (ws.take (fitCount (n - 1 - pre.length) ws))).length + 1) := by
  intro ws
  induction ws with
  | nil =>
    intro fuel pre rest _ hn hr hf
    obtain ⟨f, rfl⟩ : ∃ f, fuel = f + 1 := ⟨fuel - 1, by omega⟩
    have hz : u32 0 = 0 := rfl
    simp only [wcs4toutf8Loop, List.nil_append, List.getD_cons_zero, hz, fitCount,
      List.take_nil, utf8Encode, List.length_nil, Nat.add_zero, Nat.zero_add]
    rw [Rwcrtomb32_nul_at pre rest (n - pre.length) (by omega) (by omega)]
    simp
  | cons u ws ih =>
    intro fuel pre rest hunits hn hr hf
    obtain ⟨f, rfl⟩ : ∃ f, fuel = f + 1 := ⟨fuel - 1, by omega⟩
    obtain ⟨hu0, humax⟩ := hunits u (List.mem_cons_self _ _)
    have hz : u32 u = u := Nat.mod_eq_of_lt (by omega)
    simp only [wcs4toutf8Loop, List.cons_append, List.getD_cons_zero, hz, List.drop_succ_cons,
      List.drop_zero]
    by_cases hfit : tableIndex u + 1 ≤ n - 1 - pre.length
    · have henc := Rwcrtomb32_at pre rest u (n - pre.length) hu0 humax (by omega) (by omega)
      have hfc : fitCount (n - 1 - pre.length) (u :: ws)
          = fitCount (n - 1 - pre.length - (tableIndex u + 1)) ws + 1 := by
        simp only [fitCount]; rw [if_pos hfit]
      rw [hfc] at hf ⊢
      rw [henc]
      simp only [Nat.add_one_ne_zero, ↓reduceIte]
      have hlen : (pre ++ canonicalUtf8 u (tableIndex u + 1)).length
          = pre.length + (tableIndex u + 1) := by
        rw [List.length_append, canonicalUtf8_length_succ]
      have hcap : n - 1 - (pre.length + (tableIndex u + 1))
          = n - 1 - pre.length - (tableIndex u + 1) := by omega
      have := ih f (pre ++ canonicalUtf8 u (tableIndex u + 1)) (rest.drop (tableIndex u + 1))
        (fun x hx => hunits x (List.mem_cons_of_mem _ hx))
        (by omega) (by rw [hlen, List.length_drop]; omega) (by rw [hlen, hcap]; omega)
      rw [hlen, hcap] at this
      rw [← List.append_assoc, this]
      simp only [List.take_succ_cons, utf8Encode, List.length_append,
        canonicalUtf8_length_succ, List.append_assoc, List.drop_drop, Nat.add_assoc]
    · have hfc : fitCount (n - 1 - pre.length) (u :: ws) = 0 := by
        simp only [fitCount]; rw [if_neg hfit]
      rw [hfc]
      rw [Rwcrtomb32_short_at pre rest u (n - pre.length) hu0 (by omega) (by omega) (by omega)]
      simp [utf8Encode]

/-! ## C11 -/

/-- C11: for every NUL-terminated wide string of code values in `[1, 0x7FFFFFFF]` followed by
`0` and every buffer `s` of size `n ≥ 1`, `wcs4toutf8(s, wc, n)` returns `r` with
`1 ≤ r ≤ n`; `s[0..r-1)` is the concatenation of the complete UTF-8 encodings of the longest
prefix of `wc` that fits in `n - 1` bytes, `s[r-1]` is `0`, and the bytes from index `r` on
are untouched (so nothing is written at an index `≥ n`). -/
theorem wcs4toutf8_truncates (ws junk buf : List Nat) (n : Nat)
    (hunits : ∀ u ∈ ws, u ≠ 0 ∧ u ≤ 0x7FFFFFFF) (hn : 1 ≤ n) (hbuf : n ≤ buf.length) :
    ∃ k, k ≤ ws.length ∧
      (utf8Encode (ws.take k)).length + 1 ≤ n ∧
      (∀ j, j ≤ ws.length → (utf8Encode (ws.take j)).length ≤ n - 1 → j ≤ k) ∧
      wcs4toutf8 (some buf) (ws ++ 0 :: junk) n =
        .ok (some (utf8Encode (ws.take k)
                ++ 0 :: buf.drop ((utf8Encode (ws.take k)).length + 1)),
             (utf8Encode (ws.take k)).length + 1) := by
  have hfits := fitCount_fits (n - 1) ws
  refine ⟨fitCount (n - 1) ws, fitCount_le _ _, by omega,
    fun j hj hfit => fitCount_longest (n - 1) ws j hj hfit, ?_⟩
  have hn0 : n ≠ 0 := by omega
  have h := wcs4toutf8Loop_spec n junk ws n [] buf hunits (by simpa using hn)
    (by simpa using hbuf) (by have := fitCount_le_cap (n - 1) ws; simp; omega)
  simp only [List.nil_append, List.length_nil, Nat.zero_add, Nat.sub_zero] at h
  simp only [wcs4toutf8, hn0, ↓reduceIte, h]

/-- C11, witness: "A", U+20AC, U+1F600 into a buffer of 6 bytes: the first two characters
(4 bytes) fit, the third does not, and the count is 5. -/
theorem wcs4toutf8_truncates_witness :
    ∃ k, k ≤ [0x41, 0x20AC, 0x1F600].length ∧
      (utf8Encode ([0x41, 0x20AC, 0x1F600].take k)).length + 1 ≤ 6 ∧
      (∀ j, j ≤ [0x41, 0x20AC, 0x1F600].length →
        (utf8Encode ([0x41, 0x20AC, 0x1F600].take j)).length ≤ 6 - 1 → j ≤ k) ∧
      wcs4toutf8 (some [9, 9, 9, 9, 9, 9]) ([0x41, 0x20AC, 0x1F600] ++ 0 :: []) 6 =
        .ok (some (utf8Encode ([0x41, 0x20AC, 0x1F600].take k)
                ++ 0 :: [9, 9, 9, 9, 9, 9].drop
                  ((utf8Encode ([0x41, 0x20AC, 0x1F600].take k)).length + 1)),
             (utf8Encode ([0x41, 0x20AC, 0x1F600].take k)).length + 1) :=
  wcs4toutf8_truncates [0x41, 0x20AC, 0x1F600] [] [9, 9, 9, 9, 9, 9] 6 (by decide) (by decide)
    (by decide)

/-! ## C12 -/

/-- C12, the failing input: in a UTF-8 locale, truncating `FF E2` gives `FF` (only the last
character is examined) and truncating that again gives the empty string. -/
theorem mbcsTruncateToValid_twice_differs :
    mbcsTruncateToValid true true mbrtowcUtf8 [0xFF, 0xE2, 0] = .ok [0xFF, 0, 0] ∧
    mbcsTruncateToValid true true mbrtowcUtf8 [0xFF, 0, 0] = .ok [0, 0, 0] := by
  decide

/-! ## C13 -/

/-- C13, the failing input: in a UTF-8 locale, `mbcsTruncateToValid` leaves the string `FF 61`
as it is, although `FF` is not a valid multi-byte character (the decoder rejects it) and the
longest valid prefix is empty; in a multi-byte locale that is not UTF-8 the same decoder makes
the forward scan clear the whole string. -/
theorem mbcsTruncateToValid_keeps_invalid_prefix :
    mbcsTruncateToValid true true mbrtowcUtf8 [0xFF, 0x61, 0] = .ok [0xFF, 0x61, 0] ∧
    mbrtowcUtf8 [0xFF, 0x61, 0] 2 = -1 ∧
    mbcsTruncateToValid true false mbrtowcUtf8 [0xFF, 0x61, 0] = .ok [0, 0, 0] := by
  decide

/-! ## Steps of the Adobe Symbol conversions -/

theorem getD_mem_of_lt (l : List Nat) (i : Nat) (h : i < l.length) : l.getD i 0 ∈ l := by
  rw [List.getD_eq_getElem l 0 h]
  exact List.getElem_mem h

set_option maxRecDepth 8192 in
theorem s2u_length : s2u.length = 224 := by
  rfl

set_option maxRecDepth 8192 in
theorem s2unicode_length : s2unicode.length = 224 := by
  rfl

set_option maxRecDepth 8192 in
theorem s2u_entries : ∀ u ∈ s2u, u ≠ 0 ∧ u ≤ 0xFFFF ∧ ¬ (0xD800 ≤ u ∧ u ≤ 0xDFFF) := by
  decide

set_option maxRecDepth 8192 in
theorem s2unicode_entries : ∀ u ∈ s2unicode, u ≠ 0 ∧ u ≤ 0xFFFF ∧ ¬ (0xD800 ≤ u ∧ u ≤ 0xDFFF) := by
  decide

theorem symbolCode_bounds (usePUA : Bool) (b : Nat) (hb : b ≤ 255) :
    symbolCode usePUA b ≠ 0 ∧ symbolCode usePUA b ≤ 0xFFFF := by
  unfold symbolCode
  split_ifs with h1 h2
  · decide
  · have := s2u_entries _ (getD_mem_of_lt s2u (b - 32) (by rw [s2u_length]; omega))
    exact ⟨this.1, this.2.1⟩
  · have := s2unicode_entries _ (getD_mem_of_lt s2unicode (b - 32) (by rw [s2unicode_length]; omega))
    exact ⟨this.1, this.2.1⟩

theorem tableIndex_le_two (u : Nat) (h : u ≤ 0xFFFF) : tableIndex u ≤ 2 := by
  rw [tableIndex_def]; split_ifs <;> omega

theorem symbolUtf8_length (usePUA : Bool) (b : Nat) (hb : b ≤ 255) :
    1 ≤ (symbolUtf8 usePUA b).length ∧ (symbolUtf8 usePUA b).length ≤ 3 := by
  have := tableIndex_le_two _ (symbolCode_bounds usePUA b hb).2
  rw [symbolUtf8, canonicalUtf8_length_succ]
  omega

theorem adobeWrite_code (usePUA : Bool) (b : Nat) (work : List Nat) (t : Nat) (hb : b ≤ 255) :
    adobeWrite usePUA b work t =
      if symbolCode usePUA b < 128 then (work.set t (symbolCode usePUA b), t + 1)
      else if symbolCode usePUA b < 0x800 then
        ((work.set t (0xC0 + symbolCode usePUA b / 64)).set (t + 1)
            (0x80 + symbolCode usePUA b % 64), t + 2)
      else
        (((work.set t (0xE0 + symbolCode usePUA b / 4096)).set (t + 1)
            (0x80 + symbolCode usePUA b / 64 % 64)).set (t + 2)
            (0x80 + symbolCode usePUA b % 64), t + 3) := by
  obtain ⟨h0, hmax⟩ := symbolCode_bounds usePUA b hb
  by_cases hlt : b < 32
  · have hc : symbolCode usePUA b = 0x20 := by simp [symbolCode, hlt]
    simp [adobeWrite, hlt, hc]
  · have hc : symbolCode usePUA b = (if usePUA then s2u else s2unicode).getD (b - 32) 0 := by
      simp [symbolCode, hlt]
    have hu : u32 ((if usePUA then s2u else s2unicode).getD (b - 32) 0)
        = symbolCode usePUA b := by
      rw [← hc]; exact Nat.mod_eq_of_lt (by omega)
    simp only [adobeWrite, hlt, ↓reduceIte, hu]
    generalize symbolCode usePUA b = u at *
    split_ifs with h1 h2
    · rw [Nat.mod_eq_of_lt (by omega)]
    · obtain ⟨l1, -⟩ := lead2_facts (u / 64) (by omega)
      obtain ⟨c1, -⟩ := cont_facts (u % 64) (by omega)
      rw [shr6, and_3f_eq_mod, l1, c1, Nat.mod_eq_of_lt (by omega)]
    · obtain ⟨l1, -⟩ := lead3_facts (u / 4096) (by omega)
      obtain ⟨c1, -⟩ := cont_facts (u % 64) (by omega)
      obtain ⟨d1, -⟩ := cont_facts (u / 64 % 64) (by omega)
      rw [shr6, shr12, and_3f_eq_mod, and_3f_eq_mod, l1, c1, d1, Nat.mod_eq_of_lt (by omega)]

theorem symbolUtf8_eq (usePUA : Bool) (b : Nat) (hb : b ≤ 255) :
    symbolUtf8 usePUA b =
      if symbolCode usePUA b < 128 then [symbolCode usePUA b]
      else if symbolCode usePUA b < 0x800 then
        [0xC0 + symbolCode usePUA b / 64, 0x80 + symbolCode usePUA b % 64]
      else
        [0xE0 + symbolCode usePUA b / 4096, 0x80 + symbolCode usePUA b / 64 % 64,
          0x80 + symbolCode usePUA b % 64] := by
  obtain ⟨h0, hmax⟩ := symbolCode_bounds usePUA b hb
  unfold symbolUtf8
  generalize symbolCode usePUA b = u at *
  rw [tableIndex_def]
  split_ifs <;> first
    | omega
    | exact canonicalUtf8_one u
    | exact canonicalUtf8_two u (by omega)
    | exact canonicalUtf8_three u (by omega)

theorem adobeWrite_at (usePUA : Bool) (b : Nat) (pre rest : List Nat) (hb : b ≤ 255)
    (hr : 3 ≤ rest.length) :
    adobeWrite usePUA b (pre ++ rest) pre.length =
      (pre ++ (symbolUtf8 usePUA b ++ rest.drop (symbolUtf8 usePUA b).length),
        pre.length + (symbolUtf8 usePUA b).length) := by
  rw [adobeWrite_code usePUA b _ _ hb, symbolUtf8_eq usePUA b hb]
  match rest, hr with
  | x :: y :: z :: rest, _ =>
    split_ifs <;> simp [List.set_append]

theorem symbolExpand_length_le (usePUA : Bool) (c : List Nat) (hc : ∀ b ∈ c, 1 ≤ b ∧ b ≤ 255) :
    (symbolExpand usePUA c).length ≤ 3 * c.length := by
  induction c with
  | nil => simp [symbolExpand]
  | cons b c ih =>
    have := symbolUtf8_length usePUA b (hc b (List.mem_cons_self _ _)).2
    have := ih (fun x hx => hc x (List.mem_cons_of_mem _ hx))
    simp only [symbolExpand, List.length_append, List.length_cons]
    omega

theorem adobeLoop_stop (usePUA : Bool) (nwork : Nat) (junk work : List Nat) (t : Nat) :
    adobeLoop usePUA nwork (0 :: junk) work t = (work, t) := by
  simp [adobeLoop]

theorem adobeLoop_full (usePUA : Bool) (nwork : Nat) (junk : List Nat) :
    ∀ (c pre rest : List Nat), (∀ b ∈ c, 1 ≤ b ∧ b ≤ 255) →
      pre.length + 3 * c.length + 3 ≤ nwork →
      3 * c.length + 1 ≤ rest.length →
      adobeLoop usePUA nwork (c ++ 0 :: junk) (pre ++ rest) pre.length =
        (pre ++ (symbolExpand usePUA c ++ rest.drop (symbolExpand usePUA c).length),
          pre.length + (symbolExpand usePUA c).length) := by
  intro c
  induction c with
  | nil =>
    intro pre rest _ _ _
    simp [adobeLoop, symbolExpand]
  | cons b c ih =>
    intro pre rest hc hn hr
    obtain ⟨hb1, hb⟩ := hc b (List.mem_cons_self _ _)
    have hmod : b % 256 = b := Nat.mod_eq_of_lt (by omega)
    have hne : ¬ b = 0 := by omega
    obtain ⟨hk1, hk3⟩ := symbolUtf8_length usePUA b hb
    simp only [List.length_cons] at hn hr
    have hw := adobeWrite_at usePUA b pre rest hb (by omega)
    simp only [List.cons_append, adobeLoop, hmod, hne, ↓reduceIte, hw, List.append_eq]
    have hlen : (pre ++ symbolUtf8 usePUA b).length = pre.length + (symbolUtf8 usePUA b).length :=
      List.length_append _ _
    have hrec := ih (pre ++ symbolUtf8 usePUA b) (rest.drop (symbolUtf8 usePUA b).length)
      (fun x hx => hc x (List.mem_cons_of_mem _ hx))
    rw [hlen] at hrec
    by_cases hg : pre.length + (symbolUtf8 usePUA b).length + 6 > nwork
    · have hcn : c = [] := List.length_eq_zero.mp (by omega)
      subst hcn
      simp [hg, symbolExpand]
    · rw [if_neg hg, ← List.append_assoc, hrec (by omega) (by rw [List.length_drop]; omega)]
      simp only [symbolExpand, List.length_append, List.append_assoc, List.drop_drop,
        Nat.add_assoc]

theorem set_after_append' (E l : List Nat) (v : Nat) (h : 1 ≤ l.length) :
    (E ++ l).set E.length v = E ++ v :: l.drop 1 := by
  cases l with
  | nil => simp at h
  | cons x l => simp [List.set_append]

theorem set_after_append (E l : List Nat) (h : 1 ≤ l.length) :
    (E ++ l).set E.length 0 = E ++ 0 :: l.drop 1 := by
  cases l with
  | nil => simp at h
  | cons x l => simp [List.set_append]

theorem Rf_AdobeSymbol2utf8_full (usePUA : Bool) (nwork : Nat) (c junk work : List Nat)
    (hc : ∀ b ∈ c, 1 ≤ b ∧ b ≤ 255) (hn : 3 * c.length + 3 ≤ nwork)
    (hw : 3 * c.length + 1 ≤ work.length) :
    Rf_AdobeSymbol2utf8 work (c ++ 0 :: junk) nwork usePUA =
      symbolExpand usePUA c ++ 0 :: work.drop ((symbolExpand usePUA c).length + 1) := by
  have h := adobeLoop_full usePUA nwork junk c [] work hc (by simpa using hn) hw
  have hle := symbolExpand_length_le usePUA c hc
  simp only [List.nil_append, List.length_nil, Nat.zero_add] at h
  simp only [Rf_AdobeSymbol2utf8, h]
  rw [set_after_append _ _ (by rw [List.length_drop]; omega), List.drop_drop, Nat.add_comm]

theorem Rf_AdobeSymbol2utf8_single (usePUA : Bool) (nwork b : Nat) (junk work : List Nat)
    (hb1 : 1 ≤ b) (hb : b ≤ 255) (hw : 4 ≤ work.length) :
    Rf_AdobeSymbol2utf8 work (b :: 0 :: junk) nwork usePUA =
      symbolUtf8 usePUA b ++ 0 :: work.drop ((symbolUtf8 usePUA b).length + 1) := by
  have hmod : b % 256 = b := Nat.mod_eq_of_lt (by omega)
  have hne : ¬ b = 0 := by omega
  obtain ⟨hk1, hk3⟩ := symbolUtf8_length usePUA b hb
  have hwr := adobeWrite_at usePUA b [] work hb (by omega)
  simp only [List.nil_append, List.length_nil, Nat.zero_add] at hwr
  have hloop : adobeLoop usePUA nwork (b :: 0 :: junk) work 0
      = (symbolUtf8 usePUA b ++ work.drop (symbolUtf8 usePUA b).length,
          (symbolUtf8 usePUA b).length) := by
    simp only [adobeLoop, hmod, hne, ↓reduceIte, hwr]
    split_ifs <;> rfl
  simp only [Rf_AdobeSymbol2utf8, hloop]
  rw [set_after_append _ _ (by rw [List.length_drop]; omega), List.drop_drop, Nat.add_comm]

/-! ## Steps of `Rf_utf8toAdobeSymbol` -/

theorem indexOf_getD (l : List Nat) (a : Nat) (h : a ∈ l) : l.getD (l.indexOf a) 0 = a := by
  induction l with
  | nil => simp at h
  | cons x l ih =>
    by_cases hx : x = a
    · rw [List.indexOf_cons_eq l hx]; simpa using hx
    · rw [List.indexOf_cons_ne l hx]
      have : a ∈ l := by
        rcases List.mem_cons.mp h with h1 | h1
        · exact absurd h1.symm hx
        · exact h1
      simpa using ih this

theorem indexOf_first (l : List Nat) (a j : Nat) (hj : j < l.indexOf a) : l.getD j 0 ≠ a := by
  induction l generalizing j with
  | nil => simp at hj
  | cons x l ih =>
    by_cases hx : x = a
    · rw [List.indexOf_cons_eq l hx] at hj; omega
    · rw [List.indexOf_cons_ne l hx] at hj
      cases j with
      | zero => simpa using hx
      | succ j => simpa using ih j (by omega)

theorem symbolIndex_of_mem (cp : Nat) (h : cp ∈ s2u) : symbolIndex cp = some (s2u.indexOf cp) := by
  have := List.indexOf_lt_length.mpr h
  rw [s2u_length] at this
  simp [symbolIndex, this]

theorem symbolIndex_of_not_mem (cp : Nat) (h : cp ∉ s2u) : symbolIndex cp = none := by
  have : ¬ s2u.indexOf cp < 224 := by
    rw [← s2u_length, List.indexOf_lt_length]; exact h
  simp [symbolIndex, this]

theorem canonical_head (cp : Nat) (post : List Nat) (h0 : cp ≠ 0) (hmax : cp ≤ 0x10FFFF) :
    byteAt (canonicalUtf8 cp (tableIndex cp + 1) ++ post) 0 ≠ 0 ∧
    utf8clen (byteAt (canonicalUtf8 cp (tableIndex cp + 1) ++ post) 0) = tableIndex cp + 1 := by
  rw [tableIndex_def]
  split_ifs
  · rw [canonicalUtf8_one]
    simp only [List.singleton_append, byteAt_cons_zero]
    rw [Nat.mod_eq_of_lt (by omega)]
    exact ⟨h0, utf8clen_single cp (by omega)⟩
  · rw [canonicalUtf8_two cp (by omega)]
    simp only [List.cons_append, byteAt_cons_zero]
    rw [Nat.mod_eq_of_lt (by omega)]
    refine ⟨by omega, ?_⟩
    rw [utf8clen_lead _ (by omega) (by omega), if_pos (by omega)]
  · rw [canonicalUtf8_three cp (by omega)]
    simp only [List.cons_append, byteAt_cons_zero]
    rw [Nat.mod_eq_of_lt (by omega)]
    refine ⟨by omega, ?_⟩
    rw [utf8clen_lead _ (by omega) (by omega), if_neg (by omega), if_pos (by omega)]
  · rw [canonicalUtf8_four cp (by omega)]
    simp only [List.cons_append, byteAt_cons_zero]
    rw [Nat.mod_eq_of_lt (by omega)]
    refine ⟨by omega, ?_⟩
    rw [utf8clen_lead _ (by omega) (by omega), if_neg (by omega), if_neg (by omega),
      if_pos (by omega)]
  all_goals omega

theorem drop_canonical (cp i : Nat) (post : List Nat) :
    (canonicalUtf8 cp (i + 1) ++ post).drop (i + 1) = post := by
  have h := List.drop_left (canonicalUtf8 cp (i + 1)) post
  rwa [canonicalUtf8_length_succ] at h

theorem utf8Encode_length_ge (cps : List Nat) : cps.length ≤ (utf8Encode cps).length := by
  induction cps with
  | nil => simp [utf8Encode]
  | cons cp cps ih =>
    simp only [utf8Encode, List.length_append, canonicalUtf8_length_succ, List.length_cons]
    omega

theorem countChars_encode (junk : List Nat) :
    ∀ (cps : List Nat) (fuel nc : Nat), (∀ cp ∈ cps, cp ≠ 0 ∧ cp ≤ 0x10FFFF) →
      cps.length + 1 ≤ fuel →
      countChars fuel (utf8Encode cps ++ 0 :: junk) nc = .ok (nc + cps.length) := by
  intro cps
  induction cps with
  | nil =>
    intro fuel nc _ hf
    obtain ⟨f, rfl⟩ : ∃ f, fuel = f + 1 := ⟨fuel - 1, by omega⟩
    simp [countChars, utf8Encode]
  | cons cp cps ih =>
    intro fuel nc hcps hf
    obtain ⟨f, rfl⟩ : ∃ f, fuel = f + 1 := ⟨fuel - 1, by omega⟩
    obtain ⟨h0, hmax⟩ := hcps cp (List.mem_cons_self _ _)
    obtain ⟨hne, hclen⟩ := canonical_head cp (utf8Encode cps ++ 0 :: junk) h0 hmax
    simp only [utf8Encode, List.append_assoc, countChars, hne, ↓reduceIte, hclen,
      drop_canonical]
    rw [ih f (nc + 1) (fun x hx => hcps x (List.mem_cons_of_mem _ hx))
      (by simp at hf; omega)]
    simp only [List.length_cons]
    congr 1
    omega

theorem symbolLoop_ok (mbrtoint : List Nat → Ucs) (tail : List Nat) :
    ∀ (cps pre rest : List Nat) (tmp : Nat), (∀ cp ∈ cps, cp ∈ s2u) →
      (∀ cp ∈ cps, ∀ post, mbrtoint (canonicalUtf8 cp (tableIndex cp + 1) ++ post)
        = ⟨((tableIndex cp + 1 : Nat) : Int), some cp⟩) →
      cps.length ≤ rest.length →
      symbolLoop mbrtoint cps.length (pre ++ rest) (utf8Encode cps ++ tail) pre.length tmp =
        .ok (pre ++ (cps.map (fun cp => s2u.indexOf cp + 32) ++ rest.drop cps.length)) := by
  intro cps
  induction cps with
  | nil =>
    intro pre rest tmp _ _ _
    simp [symbolLoop]
  | cons cp cps ih =>
    intro pre rest tmp hmem hdec hr
    have hm := hmem cp (List.mem_cons_self _ _)
    have hd := hdec cp (List.mem_cons_self _ _) (utf8Encode cps ++ tail)
    have hidx := List.indexOf_lt_length.mpr hm
    rw [s2u_length] at hidx
    have hmod : (s2u.indexOf cp + 32) % 256 = s2u.indexOf cp + 32 :=
      Nat.mod_eq_of_lt (by omega)
    cases rest with
    | nil => simp at hr
    | cons x rest =>
      have hnn : ¬ ((tableIndex cp : Int) + 1 < 0) := by omega
      simp only [List.length_cons, utf8Encode, List.append_assoc, symbolLoop, hd,
        Nat.cast_add, Nat.cast_one, hnn, ↓reduceIte, Option.getD_some,
        symbolIndex_of_mem cp hm, hmod]
      have htn : ((tableIndex cp : Int) + 1).toNat = tableIndex cp + 1 := by omega
      rw [htn, drop_canonical]
      have hset : (pre ++ x :: rest).set pre.length (s2u.indexOf cp + 32)
          = (pre ++ [s2u.indexOf cp + 32]) ++ rest := by
        simp [List.set_append]
      have hl : pre.length + 1 = (pre ++ [s2u.indexOf cp + 32]).length := by simp
      rw [hset, hl, ih _ rest _ (fun y hy => hmem y (List.mem_cons_of_mem _ hy))
        (fun y hy => hdec y (List.mem_cons_of_mem _ hy)) (by simpa using hr)]
      simp

theorem symbolLoop_fail (mbrtoint : List Nat → Ucs) (tail : List Nat) :
    ∀ (cps out : List Nat) (j tmp : Nat), (∃ cp ∈ cps, cp ∉ s2u) →
      (∀ cp ∈ cps, ∀ post, mbrtoint (canonicalUtf8 cp (tableIndex cp + 1) ++ post)
        = ⟨((tableIndex cp + 1 : Nat) : Int), some cp⟩) →
      symbolLoop mbrtoint cps.length out (utf8Encode cps ++ tail) j tmp =
        .error "Conversion failed" := by
  intro cps
  induction cps with
  | nil =>
    intro out j tmp hex _
    obtain ⟨cp, hcp, _⟩ := hex
    simp at hcp
  | cons cp cps ih =>
    intro out j tmp hex hdec
    have hd := hdec cp (List.mem_cons_self _ _) (utf8Encode cps ++ tail)
    have hnn : ¬ ((tableIndex cp : Int) + 1 < 0) := by omega
    by_cases hm : cp ∈ s2u
    · simp only [List.length_cons, utf8Encode, List.append_assoc, symbolLoop, hd,
        Nat.cast_add, Nat.cast_one, hnn, ↓reduceIte, Option.getD_some,
        symbolIndex_of_mem cp hm]
      have htn : ((tableIndex cp : Int) + 1).toNat = tableIndex cp + 1 := by omega
      rw [htn, drop_canonical]
      apply ih
      · obtain ⟨c2, hc2, hn2⟩ := hex
        rcases List.mem_cons.mp hc2 with h1 | h1
        · subst h1; exact absurd hm hn2
        · exact ⟨c2, h1, hn2⟩
      · exact fun y hy => hdec y (List.mem_cons_of_mem _ hy)
    · simp only [List.length_cons, utf8Encode, List.append_assoc, symbolLoop, hd,
        Nat.cast_add, Nat.cast_one, hnn, ↓reduceIte, Option.getD_some,
        symbolIndex_of_not_mem cp hm]

theorem Rf_utf8toAdobeSymbol_ok (mbrtoint : List Nat → Ucs) (cps junk out : List Nat)
    (hcps : ∀ cp ∈ cps, cp ≠ 0 ∧ cp ≤ 0x10FFFF)
    (hdec : ∀ cp ∈ cps, ∀ post, mbrtoint (canonicalUtf8 cp (tableIndex cp + 1) ++ post)
      = ⟨((tableIndex cp + 1 : Nat) : Int), some cp⟩)
    (hout : cps.length + 1 ≤ out.length) (hmem : ∀ cp ∈ cps, cp ∈ s2u) :
    Rf_utf8toAdobeSymbol mbrtoint out (utf8Encode cps ++ 0 :: junk) =
      .ok (cps.map (fun cp => s2u.indexOf cp + 32) ++ 0 :: out.drop (cps.length + 1),
        cps.length) := by
  have hge := utf8Encode_length_ge cps
  have hcount := countChars_encode junk cps ((utf8Encode cps ++ 0 :: junk).length + 1) 0 hcps
    (by simp; omega)
  have hloop := symbolLoop_ok mbrtoint (0 :: junk) cps [] out 0 hmem hdec (by omega)
  simp only [List.nil_append, List.length_nil, Nat.zero_add] at hcount hloop
  simp only [Rf_utf8toAdobeSymbol, hcount, hloop]
  have hl : cps.length = (cps.map (fun cp => s2u.indexOf cp + 32)).length := by simp
  congr 2
  conv_lhs => rw [hl]
  rw [set_after_append _ _ (by rw [List.length_drop]; omega), List.drop_drop, ← hl,
    Nat.add_comm]

theorem Rf_utf8toAdobeSymbol_fail (mbrtoint : List Nat → Ucs) (cps junk out : List Nat)
    (hcps : ∀ cp ∈ cps, cp ≠ 0 ∧ cp ≤ 0x10FFFF)
    (hdec : ∀ cp ∈ cps, ∀ post, mbrtoint (canonicalUtf8 cp (tableIndex cp + 1) ++ post)
      = ⟨((tableIndex cp + 1 : Nat) : Int), some cp⟩)
    (hex : ∃ cp ∈ cps, cp ∉ s2u) :
    Rf_utf8toAdobeSymbol mbrtoint out (utf8Encode cps ++ 0 :: junk) =
      .error "Conversion failed" := by
  have hge := utf8Encode_length_ge cps
  have hcount := countChars_encode junk cps ((utf8Encode cps ++ 0 :: junk).length + 1) 0 hcps
    (by simp; omega)
  have hloop := symbolLoop_fail mbrtoint (0 :: junk) cps out 0 0 hex hdec
  simp only [Nat.zero_add] at hcount
  simp only [Rf_utf8toAdobeSymbol, hcount, hloop]

theorem first_index_forall (cps : List Nat) (hmem : ∀ cp ∈ cps, cp ∈ s2u) :
    List.Forall₂ (fun cp k => k < 224 ∧ s2u.getD k 0 = cp ∧ ∀ j, j < k → s2u.getD j 0 ≠ cp)
      cps (cps.map (fun cp => s2u.indexOf cp)) := by
  induction cps with
  | nil => exact List.Forall₂.nil
  | cons cp cps ih =>
    have hm := hmem cp (List.mem_cons_self _ _)
    have hidx := List.indexOf_lt_length.mpr hm
    rw [s2u_length] at hidx
    exact List.Forall₂.cons ⟨hidx, indexOf_getD s2u cp hm, fun j hj => indexOf_first s2u cp j hj⟩
      (ih (fun y hy => hmem y (List.mem_cons_of_mem _ hy)))

/-! ## C15 -/

/-- C15: for every well-formed UTF-8 input (the encodings of the code points `cps`, each of
which `mbrtoint` decodes), `Rf_utf8toAdobeSymbol` raises the 'Conversion failed' error iff some
code point occurs at no index of `s2u`; otherwise it returns the number of code points and
writes, for each code point in order, the byte `k + 32` where `k` is the smallest index with
`s2u[k]` equal to it, followed by NUL. -/
theorem Rf_utf8toAdobeSymbol_spec (mbrtoint : List Nat → Ucs) (cps junk out : List Nat)
    (hcps : ∀ cp ∈ cps, cp ≠ 0 ∧ cp ≤ 0x10FFFF)
    (hdec : ∀ cp ∈ cps, ∀ post, mbrtoint (canonicalUtf8 cp (tableIndex cp + 1) ++ post)
      = ⟨((tableIndex cp + 1 : Nat) : Int), some cp⟩)
    (hout : cps.length + 1 ≤ out.length) :
    (Rf_utf8toAdobeSymbol mbrtoint out (utf8Encode cps ++ 0 :: junk) = .error "Conversion failed"
      ↔ ∃ cp ∈ cps, cp ∉ s2u) ∧
    ((∀ cp ∈ cps, cp ∈ s2u) →
      ∃ ks, List.Forall₂
          (fun cp k => k < 224 ∧ s2u.getD k 0 = cp ∧ ∀ j, j < k → s2u.getD j 0 ≠ cp) cps ks ∧
        Rf_utf8toAdobeSymbol mbrtoint out (utf8Encode cps ++ 0 :: junk) =
          .ok (ks.map (fun k => k + 32) ++ 0 :: out.drop (cps.length + 1), cps.length)) := by
  constructor
  · constructor
    · intro herr
      by_contra hno
      have hmem : ∀ cp ∈ cps, cp ∈ s2u := by
        intro cp hcp
        by_contra hn
        exact hno ⟨cp, hcp, hn⟩
      rw [Rf_utf8toAdobeSymbol_ok mbrtoint cps junk out hcps hdec hout hmem] at herr
      simp at herr
    · exact Rf_utf8toAdobeSymbol_fail mbrtoint cps junk out hcps hdec
  · intro hmem
    refine ⟨cps.map (fun cp => s2u.indexOf cp), first_index_forall cps hmem, ?_⟩
    rw [Rf_utf8toAdobeSymbol_ok mbrtoint cps junk out hcps hdec hout hmem]
    simp [List.map_map, Function.comp_def]

/-- C15, witness: the encodings of U+2200 and U+F8E5, decoded by `utf8toucs`. -/
theorem Rf_utf8toAdobeSymbol_spec_witness :
    (Rf_utf8toAdobeSymbol (utf8toucs 32) [9, 9, 9] (utf8Encode [0x2200, 0xF8E5] ++ 0 :: [])
        = .error "Conversion failed"
      ↔ ∃ cp ∈ [0x2200, 0xF8E5], cp ∉ s2u) ∧
    ((∀ cp ∈ [0x2200, 0xF8E5], cp ∈ s2u) →
      ∃ ks, List.Forall₂
          (fun cp k => k < 224 ∧ s2u.getD k 0 = cp ∧ ∀ j, j < k → s2u.getD j 0 ≠ cp)
          [0x2200, 0xF8E5] ks ∧
        Rf_utf8toAdobeSymbol (utf8toucs 32) [9, 9, 9] (utf8Encode [0x2200, 0xF8E5] ++ 0 :: []) =
          .ok (ks.map (fun k => k + 32) ++ 0 :: [9, 9, 9].drop ([0x2200, 0xF8E5].length + 1),
            [0x2200, 0xF8E5].length)) :=
  Rf_utf8toAdobeSymbol_spec (utf8toucs 32) [0x2200, 0xF8E5] [] [9, 9, 9] (by decide)
    (by
      intro cp hcp post
      simp only [List.mem_cons, List.mem_singleton, List.not_mem_nil, or_false] at hcp
      rcases hcp with rfl | rfl <;>
        exact utf8toucs_canonical _ _ post (by decide) (by decide) (by decide) (by decide) rfl)
    (by decide)

/-! ## C14 -/

set_option maxRecDepth 100000 in
theorem s2u_first_index : ∀ i, i < 224 → s2u.getD i 0 ≠ 0x20 ∨ i = 0 →
    s2u.indexOf (s2u.getD i 0) = i := by
  decide

/-- C14: for every byte `b` in `[32, 255]` with a defined PUA mapping (`s2u[b-32] != 0x0020`, or
`b == 32`), converting the one-byte string `[b]` with `Rf_AdobeSymbol2utf8(usePUA = TRUE)` and
the result back with `Rf_utf8toAdobeSymbol` returns length 1 and the byte `b` (followed by NUL),
when `mbrtoint` decodes the UTF-8 bytes of the table entry. -/
theorem symbol_roundtrip (mbrtoint : List Nat → Ucs) (b nwork : Nat) (junk work out : List Nat)
    (hb1 : 32 ≤ b) (hb : b ≤ 255) (hdef : s2u.getD (b - 32) 0 ≠ 0x20 ∨ b = 32)
    (hw : 4 ≤ work.length) (hout : 2 ≤ out.length)
    (hdec : ∀ post, mbrtoint (symbolUtf8 true b ++ post)
      = ⟨(((symbolUtf8 true b).length : Nat) : Int), some (s2u.getD (b - 32) 0)⟩) :
    Rf_utf8toAdobeSymbol mbrtoint out (Rf_AdobeSymbol2utf8 work (b :: 0 :: junk) nwork true)
      = .ok (b :: 0 :: out.drop 2, 1) := by
  have hcode : symbolCode true b = s2u.getD (b - 32) 0 := by
    have : ¬ b < 32 := by omega
    simp [symbolCode, this]
  have hmem : s2u.getD (b - 32) 0 ∈ s2u := getD_mem_of_lt s2u (b - 32) (by rw [s2u_length]; omega)
  obtain ⟨h0, hmax, -⟩ := s2u_entries _ hmem
  have hidx := s2u_first_index (b - 32) (by omega) (by omega)
  rw [Rf_AdobeSymbol2utf8_single true nwork b junk work (by omega) hb hw]
  have henc : symbolUtf8 true b = utf8Encode [s2u.getD (b - 32) 0] := by
    simp [utf8Encode, symbolUtf8, hcode]
  have hd : ∀ cp ∈ [s2u.getD (b - 32) 0], ∀ post,
      mbrtoint (canonicalUtf8 cp (tableIndex cp + 1) ++ post)
        = ⟨((tableIndex cp + 1 : Nat) : Int), some cp⟩ := by
    intro cp hcp post
    rw [List.mem_singleton] at hcp
    subst hcp
    have := hdec post
    rw [symbolUtf8, hcode, canonicalUtf8_length_succ] at this
    exact this
  rw [henc, Rf_utf8toAdobeSymbol_ok mbrtoint [s2u.getD (b - 32) 0] _ out
    (by intro cp hcp; rw [List.mem_singleton] at hcp; subst hcp; exact ⟨h0, by omega⟩)
    hd (by simpa using hout)
    (by intro cp hcp; rw [List.mem_singleton] at hcp; subst hcp; exact hmem)]
  simp only [List.map_cons, List.map_nil, hidx, List.length_singleton, List.cons_append,
    List.nil_append]
  have : b - 32 + 32 = b := by omega
  rw [this]

/-- C14, witness: the byte 0x60, whose PUA code point is U+F8E5, with `utf8toucs` as the
decoder. -/
theorem symbol_roundtrip_witness :
    Rf_utf8toAdobeSymbol (utf8toucs 32) [9, 9]
        (Rf_AdobeSymbol2utf8 [9, 9, 9, 9] (0x60 :: 0 :: []) 4 true)
      = .ok (0x60 :: 0 :: [9, 9].drop 2, 1) :=
  symbol_roundtrip (utf8toucs 32) 0x60 4 [] [9, 9, 9, 9] [9, 9] (by decide) (by decide)
    (by decide) (by decide) (by decide)
    (fun post => utf8toucs_canonical 0xF8E5 3 post (by decide) (by decide) (by decide)
      (by decide) (by decide))

/-! ## Steps of `Rf_utf8Toutf8NoPUA` -/

theorem copyBytes_succ (dst src : List Nat) (p k : Nat) :
    copyBytes dst p src (k + 1) = (copyBytes dst p src k).set (p + k) (byteAt src k) := by
  simp [copyBytes, List.range_succ, List.foldl_append]

theorem copyBytes_at (pre rest src : List Nat) (k : Nat) (hs : k ≤ src.length)
    (hr : k ≤ rest.length) (hbytes : ∀ x ∈ src, x < 256) :
    copyBytes (pre ++ rest) pre.length src k = pre ++ (src.take k ++ rest.drop k) := by
  induction k with
  | zero => simp [copyBytes]
  | succ k ih =>
    rw [copyBytes_succ, ih (by omega) (by omega)]
    have hlt : k < src.length := by omega
    have hb : byteAt src k = src[k] := by
      rw [byteAt, List.getD_eq_getElem src 0 hlt]
      exact Nat.mod_eq_of_lt (hbytes _ (List.getElem_mem hlt))
    have htl : (src.take k).length = k := by rw [List.length_take]; omega
    have h1 : pre.length + k = (pre ++ src.take k).length := by
      rw [List.length_append, htl]
    rw [hb, ← List.append_assoc, h1, set_after_append' _ _ _ (by rw [List.length_drop]; omega),
      List.drop_drop, List.append_assoc]
    congr 1
    rw [List.take_succ, List.getElem?_eq_getElem hlt]
    simp only [Option.toList, List.append_assoc, List.cons_append, List.nil_append]

theorem copyBytes_congr (dst src1 src2 : List Nat) (p k : Nat)
    (h : ∀ j, j < k → byteAt src1 j = byteAt src2 j) :
    copyBytes dst p src1 k = copyBytes dst p src2 k := by
  induction k with
  | zero => rfl
  | succ k ih =>
    rw [copyBytes_succ, copyBytes_succ, ih (fun j hj => h j (by omega)), h k (by omega)]

theorem copyBytes_prefix (pre rest E post : List Nat) (hr : E.length ≤ rest.length)
    (hE : ∀ x ∈ E, x < 256) :
    copyBytes (pre ++ rest) pre.length (E ++ post) E.length = pre ++ (E ++ rest.drop E.length) := by
  rw [copyBytes_congr _ (E ++ post) E _ _ (fun j hj => by
    simp only [byteAt, List.getD_eq_getElem?_getD, List.getElem?_append_left hj]),
    copyBytes_at pre rest E E.length (Nat.le_refl _) hr hE, List.take_length]

theorem strlen_append_nul (E tail : List Nat) (h : ∀ x ∈ E, x % 256 ≠ 0) :
    strlen (E ++ 0 :: tail) = E.length := by
  induction E with
  | nil => exact strlen_cons_zero 0 tail rfl
  | cons x E ih =>
    rw [List.cons_append, strlen_cons _ _ (h x (List.mem_cons_self _ _)),
      ih (fun y hy => h y (List.mem_cons_of_mem _ hy)), List.length_cons]

theorem symbolUtf8_bytes (usePUA : Bool) (b : Nat) (hb : b ≤ 255) :
    ∀ x ∈ symbolUtf8 usePUA b, x % 256 ≠ 0 ∧ x < 256 := by
  obtain ⟨h0, hmax⟩ := symbolCode_bounds usePUA b hb
  rw [symbolUtf8_eq usePUA b hb]
  generalize symbolCode usePUA b = u at *
  intro x hx
  split_ifs at hx <;> simp only [List.mem_cons, List.mem_singleton, List.not_mem_nil,
    or_false] at hx
  · omega
  · omega
  · omega

set_option maxRecDepth 100000 in
theorem tables_agree : ∀ i, i < 224 → s2u.getD i 0 ≤ 0xF600 →
    s2unicode.getD i 0 = s2u.getD i 0 := by
  decide

theorem symbolUtf8_agree (b : Nat) (hb : b ≤ 255) (h : symbolCode true b ≤ 0xF600) :
    symbolUtf8 false b = symbolUtf8 true b := by
  have hc : symbolCode false b = symbolCode true b := by
    unfold symbolCode at h ⊢
    by_cases hlt : b < 32
    · simp [hlt]
    · simp only [hlt, ↓reduceIte, Bool.false_eq_true] at h ⊢
      exact tables_agree (b - 32) (by omega) h
  rw [symbolUtf8, symbolUtf8, hc]

theorem pua_byte (b : Nat) (hb : b ≤ 255) (h : symbolCode true b > 0xF600) :
    32 ≤ b ∧ symbolCode true b = s2u.getD (b - 32) 0 ∧ s2u.indexOf (symbolCode true b) = b - 32 := by
  unfold symbolCode at h ⊢
  by_cases hlt : b < 32
  · simp [hlt] at h
  · simp only [hlt, ↓reduceIte] at h ⊢
    exact ⟨by omega, trivial, s2u_first_index (b - 32) (by omega) (by omega)⟩

theorem symbolCode_mem (b : Nat) (hb : b ≤ 255) : symbolCode true b ∈ s2u := by
  unfold symbolCode
  by_cases hlt : b < 32
  · simp only [hlt, ↓reduceIte]
    have h := getD_mem_of_lt s2u 0 (by rw [s2u_length]; omega)
    exact h
  · simp only [hlt, ↓reduceIte]
    exact getD_mem_of_lt s2u (b - 32) (by rw [s2u_length]; omega)

theorem noPUALoop_step (mbrtoint : List Nat → Ucs) (k b tmp : Nat) (pre rest post : List Nat)
    (hb : b ≤ 255) (hr : 3 ≤ rest.length)
    (hdec : ∀ post, mbrtoint (symbolUtf8 true b ++ post)
      = ⟨(((symbolUtf8 true b).length : Nat) : Int), some (symbolCode true b)⟩) :
    noPUALoop mbrtoint (k + 1) (pre ++ rest) pre.length (symbolUtf8 true b ++ post) tmp =
      noPUALoop mbrtoint k
        ((pre ++ symbolUtf8 false b) ++ rest.drop (symbolUtf8 false b).length)
        (pre ++ symbolUtf8 false b).length post (symbolCode true b) := by
  obtain ⟨hk1, hk3⟩ := symbolUtf8_length true b hb
  obtain ⟨hf1, hf3⟩ := symbolUtf8_length false b hb
  obtain ⟨h0, hmax⟩ := symbolCode_bounds true b hb
  have hbytesT : ∀ x ∈ symbolUtf8 true b, x < 256 := fun x hx => (symbolUtf8_bytes true b hb x hx).2
  have hbytesF : ∀ x ∈ symbolUtf8 false b, x < 256 :=
    fun x hx => (symbolUtf8_bytes false b hb x hx).2
  have hdrop : (symbolUtf8 true b ++ post).drop (symbolUtf8 true b).length = post :=
    List.drop_left _ _
  simp only [noPUALoop, hdec post, Option.getD_some, Int.toNat_ofNat, hdrop]
  by_cases hp : symbolCode true b > 0xF600
  · obtain ⟨hb32, hcode, hidx⟩ := pua_byte b hb hp
    have hin : (copyBytes [0, 0, 0, 0] 0 (symbolUtf8 true b ++ post)
        (symbolUtf8 true b).length).set (symbolUtf8 true b).length 0
        = utf8Encode [symbolCode true b]
          ++ 0 :: ([0, 0, 0, 0] : List Nat).drop ((symbolUtf8 true b).length + 1) := by
      have h := copyBytes_prefix [] [0, 0, 0, 0] (symbolUtf8 true b) post
        (by simp only [List.length_cons, List.length_nil]; omega) hbytesT
      simp only [List.nil_append, List.length_nil] at h
      rw [h, set_after_append _ _ (by rw [List.length_drop]; simp; omega), List.drop_drop,
        Nat.add_comm]
      simp [utf8Encode, symbolUtf8]
    have hd : ∀ cp ∈ [symbolCode true b], ∀ post,
        mbrtoint (canonicalUtf8 cp (tableIndex cp + 1) ++ post)
          = ⟨((tableIndex cp + 1 : Nat) : Int), some cp⟩ := by
      intro cp hcp post
      rw [List.mem_singleton] at hcp
      subst hcp
      have := hdec post
      rw [symbolUtf8, canonicalUtf8_length_succ] at this
      exact this
    have hsym := Rf_utf8toAdobeSymbol_ok mbrtoint [symbolCode true b]
      (([0, 0, 0, 0] : List Nat).drop ((symbolUtf8 true b).length + 1)) [0, 0]
      (by intro cp hcp; rw [List.mem_singleton] at hcp; subst hcp; exact ⟨h0, by omega⟩)
      hd (by simp)
      (by intro cp hcp; rw [List.mem_singleton] at hcp; subst hcp; exact symbolCode_mem b hb)
    have hbb : b - 32 + 32 = b := by omega
    simp only [List.map_cons, List.map_nil, hidx, hbb, List.length_singleton,
      List.singleton_append] at hsym
    have hutf := Rf_AdobeSymbol2utf8_single false 4 b [] [0, 0, 0, 0] (by omega) hb (by simp)
    have hdrop2 : ([0, 0] : List Nat).drop (1 + 1) = [] := rfl
    rw [hdrop2] at hsym
    rw [if_pos hp, hin, hsym]
    simp only [hutf]
    rw [strlen_append_nul _ _ (fun x hx => (symbolUtf8_bytes false b hb x hx).1),
      copyBytes_prefix pre rest _ _ (by omega) hbytesF]
    simp only [List.length_append, List.append_assoc]
  · rw [if_neg hp, copyBytes_prefix pre rest _ _ (by omega) hbytesT,
      symbolUtf8_agree b hb (by omega)]
    simp only [List.length_append, List.append_assoc]

theorem noPUALoop_end (mbrtoint : List Nat → Ucs)
    (hnul : ∀ post, (mbrtoint (0 :: post)).ret = 0) :
    ∀ (k : Nat) (result post : List Nat) (p tmp : Nat),
      noPUALoop mbrtoint k result p (0 :: post) tmp = .ok (result, p) := by
  intro k
  induction k with
  | zero => intro result post p tmp; rfl
  | succ k ih =>
    intro result post p tmp
    have hsym : Rf_utf8toAdobeSymbol mbrtoint [0, 0] [0, 0, 0, 0] = .ok ([0, 0], 0) := by
      simp [Rf_utf8toAdobeSymbol, countChars, symbolLoop, byteAt]
    have hutf : Rf_AdobeSymbol2utf8 [0, 0, 0, 0] [0, 0] 4 false = [0, 0, 0, 0] := by
      simp [Rf_AdobeSymbol2utf8, adobeLoop]
    have hs0 : strlen ([0, 0, 0, 0] : List Nat) = 0 := strlen_cons_zero 0 _ rfl
    have hc0 : ∀ (d s : List Nat) (q : Nat), copyBytes d q s 0 = d := fun _ _ _ => rfl
    simp only [noPUALoop, hnul post, Int.toNat_zero, hc0, List.drop_zero, Nat.add_zero]
    have hset : ([0, 0, 0, 0] : List Nat).set 0 0 = [0, 0, 0, 0] := rfl
    rw [hset, hsym]
    simp only [hutf, hs0, hc0, Nat.add_zero]
    split_ifs <;> exact ih _ _ _ _

theorem noPUALoop_spec (mbrtoint : List Nat → Ucs) (junk : List Nat)
    (hnul : ∀ post, (mbrtoint (0 :: post)).ret = 0) :
    ∀ (c : List Nat) (k tmp : Nat) (pre rest : List Nat),
      (∀ b ∈ c, 1 ≤ b ∧ b ≤ 255) →
      (∀ b ∈ c, ∀ post, mbrtoint (symbolUtf8 true b ++ post)
        = ⟨(((symbolUtf8 true b).length : Nat) : Int), some (symbolCode true b)⟩) →
      c.length ≤ k → 3 * c.length ≤ rest.length →
      noPUALoop mbrtoint k (pre ++ rest) pre.length (symbolExpand true c ++ 0 :: junk) tmp =
        .ok (pre ++ (symbolExpand false c ++ rest.drop (symbolExpand false c).length),
          pre.length + (symbolExpand false c).length) := by
  intro c
  induction c with
  | nil =>
    intro k tmp pre rest _ _ _ _
    simp only [symbolExpand, List.nil_append, List.length_nil, List.drop_zero, Nat.add_zero]
    exact noPUALoop_end mbrtoint hnul k _ junk _ tmp
  | cons b c ih =>
    intro k tmp pre rest hc hdec hk hr
    obtain ⟨f, rfl⟩ : ∃ f, k = f + 1 := ⟨k - 1, by simp at hk; omega⟩
    obtain ⟨hb1, hb⟩ := hc b (List.mem_cons_self _ _)
    obtain ⟨hf1, hf3⟩ := symbolUtf8_length false b hb
    simp only [List.length_cons] at hk hr
    simp only [symbolExpand, List.append_assoc]
    rw [noPUALoop_step mbrtoint f b tmp pre rest _ hb (by omega)
      (hdec b (List.mem_cons_self _ _)),
      ih f _ _ _ (fun x hx => hc x (List.mem_cons_of_mem _ hx))
        (fun x hx => hdec x (List.mem_cons_of_mem _ hx)) (by omega)
        (by rw [List.length_drop]; omega)]
    simp only [List.length_append, List.append_assoc, List.drop_drop, Nat.add_assoc]

theorem symbolExpand_bytes (usePUA : Bool) (c : List Nat) (hc : ∀ b ∈ c, 1 ≤ b ∧ b ≤ 255) :
    ∀ x ∈ symbolExpand usePUA c, x % 256 ≠ 0 := by
  induction c with
  | nil => simp [symbolExpand]
  | cons b c ih =>
    intro x hx
    simp only [symbolExpand, List.mem_append] at hx
    rcases hx with hx | hx
    · exact (symbolUtf8_bytes usePUA b (hc b (List.mem_cons_self _ _)).2 x hx).1
    · exact ih (fun y hy => hc y (List.mem_cons_of_mem _ hy)) x hx

theorem symbolExpand_length_ge (usePUA : Bool) (c : List Nat) (hc : ∀ b ∈ c, 1 ≤ b ∧ b ≤ 255) :
    c.length ≤ (symbolExpand usePUA c).length := by
  induction c with
  | nil => simp
  | cons b c ih =>
    have := symbolUtf8_length usePUA b (hc b (List.mem_cons_self _ _)).2
    have := ih (fun x hx => hc x (List.mem_cons_of_mem _ hx))
    simp only [symbolExpand, List.length_append, List.length_cons]
    omega

/-! ## C16 -/

/-- C16: for every NUL-terminated symbol-encoded string `c` converted without truncation,
normalising the PUA-variant expansion gives the non-PUA expansion:
`Rf_utf8Toutf8NoPUA(Rf_AdobeSymbol2utf8(c, usePUA = TRUE))` and
`Rf_AdobeSymbol2utf8(c, usePUA = FALSE)` hold the same string, the expansion of `c` through
`s2unicode` (a space for each control byte), when `mbrtoint` decodes the bytes of each `s2u`
entry of `c` and returns `0` at a NUL. -/
theorem Rf_utf8Toutf8NoPUA_normalises (mbrtoint : List Nat → Ucs)
    (c junk work1 work2 alloc : List Nat) (nwork : Nat)
    (hc : ∀ b ∈ c, 1 ≤ b ∧ b ≤ 255) (hn : 3 * c.length + 3 ≤ nwork)
    (hw1 : 3 * c.length + 1 ≤ work1.length) (hw2 : 3 * c.length + 1 ≤ work2.length)
    (halloc : alloc.length
      = 3 * strlen (Rf_AdobeSymbol2utf8 work1 (c ++ 0 :: junk) nwork true) + 1)
    (hdec : ∀ b ∈ c, ∀ post, mbrtoint (symbolUtf8 true b ++ post)
      = ⟨(((symbolUtf8 true b).length : Nat) : Int), some (symbolCode true b)⟩)
    (hnul : ∀ post, (mbrtoint (0 :: post)).ret = 0) :
    Rf_utf8Toutf8NoPUA mbrtoint alloc (Rf_AdobeSymbol2utf8 work1 (c ++ 0 :: junk) nwork true)
      = .ok (symbolExpand false c ++ 0 :: alloc.drop ((symbolExpand false c).length + 1)) ∧
    Rf_AdobeSymbol2utf8 work2 (c ++ 0 :: junk) nwork false
      = symbolExpand false c ++ 0 :: work2.drop ((symbolExpand false c).length + 1) := by
  refine ⟨?_, Rf_AdobeSymbol2utf8_full false nwork c junk work2 hc hn hw2⟩
  rw [Rf_AdobeSymbol2utf8_full true nwork c junk work1 hc hn hw1] at halloc ⊢
  have hlen := strlen_append_nul (symbolExpand true c)
    (work1.drop ((symbolExpand true c).length + 1)) (symbolExpand_bytes true c hc)
  rw [hlen] at halloc
  have hge := symbolExpand_length_ge true c hc
  have hle := symbolExpand_length_le false c hc
  have h := noPUALoop_spec mbrtoint (work1.drop ((symbolExpand true c).length + 1)) hnul c
    (3 * (symbolExpand true c).length + 1) 0 [] alloc hc hdec (by omega) (by omega)
  simp only [List.nil_append, List.length_nil, Nat.zero_add] at h
  simp only [Rf_utf8Toutf8NoPUA, hlen, h]
  rw [set_after_append _ _ (by rw [List.length_drop]; omega), List.drop_drop, Nat.add_comm]

/-- C16, witness: the symbol string `61 60 10` ("a", the radical extender glyph and a control
byte), with `utf8toucs` as the decoder. -/
theorem Rf_utf8Toutf8NoPUA_normalises_witness :
    Rf_utf8Toutf8NoPUA (utf8toucs 32) (List.replicate 19 0)
        (Rf_AdobeSymbol2utf8 (List.replicate 20 0) ([0x61, 0x60, 0x10] ++ 0 :: []) 20 true)
      = .ok (symbolExpand false [0x61, 0x60, 0x10]
          ++ 0 :: (List.replicate 19 0).drop ((symbolExpand false [0x61, 0x60, 0x10]).length + 1)) ∧
    Rf_AdobeSymbol2utf8 (List.replicate 20 0) ([0x61, 0x60, 0x10] ++ 0 :: []) 20 false
      = symbolExpand false [0x61, 0x60, 0x10]
          ++ 0 :: (List.replicate 20 0).drop ((symbolExpand false [0x61, 0x60, 0x10]).length + 1) :=
  Rf_utf8Toutf8NoPUA_normalises (utf8toucs 32) [0x61, 0x60, 0x10] [] (List.replicate 20 0)
    (List.replicate 20 0) (List.replicate 19 0) 20 (by decide) (by decide) (by decide)
    (by decide) (by decide)
    (by
      intro b hb post
      simp only [List.mem_cons, List.mem_singleton, List.not_mem_nil, or_false] at hb
      rcases hb with rfl | rfl | rfl <;>
        exact utf8toucs_canonical _ _ post (by decide) (by decide) (by decide) (by decide) rfl)
    (fun post => by rw [utf8toucs_nul 32 (0 :: post) rfl])

/-! ## C17 -/

/-- C17, the failing input: for the two-byte symbol string "aa" and a work buffer of
`nwork = 3*strlen(c)+1 = 7` bytes, `Rf_AdobeSymbol2utf8` stops after the first character
(`t + 6 > nwork` already holds there) and the output is `CE B1` alone, for either table, while
the expansion of every input byte is `CE B1 CE B1`. -/
theorem Rf_AdobeSymbol2utf8_stops_early :
    3 * strlen [0x61, 0x61, 0] + 1 = 7 ∧
    Rf_AdobeSymbol2utf8 [9, 9, 9, 9, 9, 9, 9] [0x61, 0x61, 0] 7 true
      = [0xCE, 0xB1, 0, 9, 9, 9, 9] ∧
    Rf_AdobeSymbol2utf8 [9, 9, 9, 9, 9, 9, 9] [0x61, 0x61, 0] 7 false
      = [0xCE, 0xB1, 0, 9, 9, 9, 9] ∧
    symbolExpand true [0x61, 0x61] = [0xCE, 0xB1, 0xCE, 0xB1] ∧
    symbolExpand false [0x61, 0x61] = [0xCE, 0xB1, 0xCE, 0xB1] := by
  decide

/-! ## `R_strtod5`: inputs without a number -/

theorem byteAt_nil (i : Nat) : byteAt [] i = 0 := by
  simp [byteAt]

theorem byteAt_drop_one (p : List Nat) (i : Nat) : byteAt (p.drop 1) i = byteAt p (i + 1) := by
  cases p with
  | nil => simp [byteAt]
  | cons c r => simp [byteAt]

theorem skipSpace_append (ws t : List Nat) (hws : ∀ c ∈ ws, isspace (c % 256) = true)
    (ht : isspace (byteAt t 0) = false) : skipSpace (ws ++ t) = ws.length := by
  induction ws with
  | nil =>
    cases t with
    | nil => rfl
    | cons c r =>
      rw [byteAt_cons_zero] at ht
      simp [skipSpace, ht]
  | cons a ws ih =>
    have ha := hws a (by simp)
    have := ih (fun c hc => hws c (by simp [hc]))
    simp [skipSpace, ha, this]

theorem decDigits_nondigit (p : List Nat) (ans : Nat) (h : isDigit (byteAt p 0) = false) :
    decDigits p ans = (ans, 0) := by
  cases p with
  | nil => rfl
  | cons c r =>
    rw [byteAt_cons_zero] at h
    simp [decDigits, h]

theorem strtodDec_no_digits (p : List Nat) (off : Nat) (sign : Int) (dec : Nat) (exact : Int)
    (hdig : isDigit (byteAt p 0) = false)
    (hdec : ¬ (byteAt p 0 = dec % 256 ∧ isDigit (byteAt p 1) = true)) :
    strtodDec p off sign dec exact = ⟨sign, .na, 0, false⟩ := by
  unfold strtodDec
  simp only [decDigits_nondigit p 0 hdig, List.drop_zero]
  by_cases hd : byteAt p 0 = dec % 256
  · have h1 : isDigit (byteAt (p.drop 1) 0) = false := by
      rw [byteAt_drop_one]
      cases hb : isDigit (byteAt p (0 + 1)) with
      | false => rfl
      | true => exact absurd ⟨hd, hb⟩ hdec
    simp only [hd, if_true, decDigits_nondigit _ 0 h1, Nat.add_zero, if_true]
  · simp only [hd, if_false, Nat.add_zero, if_true]

theorem startsWithCI_inf (p : List Nat)
    (h : startsWithCI p [73, 110, 102] = false) :
    startsWithCI p [105, 110, 102, 105, 110, 105, 116, 121] = false := by
  simp only [startsWithCI, tolower] at h ⊢
  simp only [Bool.and_true] at h
  revert h
  generalize tolower_a : (if 65 ≤ byteAt p 0 ∧ byteAt p 0 ≤ 90 then byteAt p 0 + 32 else byteAt p 0) = a
  intro h
  simp at h ⊢
  intro h0 h1 h2
  exact absurd h2 (h h0 h1)

theorem byteAt_sign_rest (sg rest : List Nat) (hsg : sg = [] ∨ sg = [45] ∨ sg = [43])
    (hstop : sg = [] →
      isspace (byteAt rest 0) = false ∧ byteAt rest 0 ≠ 45 ∧ byteAt rest 0 ≠ 43) :
    isspace (byteAt (sg ++ rest) 0) = false ∧
    (byteAt (sg ++ rest) 0 = 45 ↔ sg = [45]) ∧
    ((byteAt (sg ++ rest) 0 = 45 ∨ byteAt (sg ++ rest) 0 = 43) ↔ sg ≠ []) ∧
    ((sg ++ rest).drop sg.length = rest) := by
  rcases hsg with h | h | h
  · subst h
    obtain ⟨h1, h2, h3⟩ := hstop rfl
    simp [h1, h2, h3]
  · subst h
    simp [isspace]
  · subst h
    simp [isspace]

/-- C18: when, after the leading whitespace `ws` and the optional sign `sg`, the text `rest`
starts neither with NaN, infinity or Inf (in any case), nor with a decimal digit, nor with the
separator `dec` followed by a decimal digit, and no NA token is matched, `R_strtod5` returns
the NA value (with the sign read) and `*endptr = str`: the consumed length is 0 although the
whitespace and the sign were scanned. -/
theorem R_strtod5_no_digits (ws sg rest : List Nat) (dec : Nat) (NA : Bool) (exact : Int)
    (hws : ∀ c ∈ ws, isspace (c % 256) = true)
    (hsg : sg = [] ∨ sg = [45] ∨ sg = [43])
    (hstop : sg = [] →
      isspace (byteAt rest 0) = false ∧ byteAt rest 0 ≠ 45 ∧ byteAt rest 0 ≠ 43)
    (hNA : NA = false ∨ ¬ (byteAt (sg ++ rest) 0 = 78 ∧ byteAt (sg ++ rest) 1 = 65))
    (hnan : startsWithCI rest [78, 97, 78] = false)
    (hinf : startsWithCI rest [73, 110, 102] = false)
    (hdig : isDigit (byteAt rest 0) = false)
    (hdec : ¬ (byteAt rest 0 = dec % 256 ∧ isDigit (byteAt rest 1) = true)) :
    R_strtod5 (ws ++ sg ++ rest) dec NA exact =
      ⟨if sg = [45] then -1 else 1, .na, 0, false⟩ := by
  obtain ⟨hsp, hneg, hsgn, hdrop⟩ := byteAt_sign_rest sg rest hsg hstop
  have hw : skipSpace (ws ++ (sg ++ rest)) = ws.length := skipSpace_append ws _ hws hsp
  have hg : (if byteAt (sg ++ rest) 0 = 45 ∨ byteAt (sg ++ rest) 0 = 43 then 1 else 0)
      = sg.length := by
    rcases hsg with h | h | h <;> subst h
    · rw [if_neg (by rw [hsgn]; simp)]; rfl
    · rw [if_pos (by rw [hsgn]; simp)]; rfl
    · rw [if_pos (by rw [hsgn]; simp)]; rfl
  have hna : (NA && (byteAt (sg ++ rest) 0 == 78 && byteAt (sg ++ rest) 1 == 65)) = false := by
    rcases hNA with h | h
    · simp [h]
    · simp only [Bool.and_eq_false_iff, Bool.and_eq_true, beq_iff_eq]
      right
      by_contra hc
      simp only [not_or, Bool.not_eq_false] at hc
      exact h ⟨by simpa using hc.1, by simpa using hc.2⟩
  have hhex : ¬ (strlen rest > 2 ∧ byteAt rest 0 = 48 ∧
      (byteAt rest 1 = 120 ∨ byteAt rest 1 = 88)) := by
    rintro ⟨_, h0, _⟩
    rw [h0] at hdig
    exact absurd hdig (by decide)
  unfold R_strtod5
  simp only [List.append_assoc, hw, List.drop_left, hna, Bool.false_eq_true, if_false, hg,
    hdrop, hnan, startsWithCI_inf rest hinf, hinf, hhex, strtodDec_no_digits rest _ _ dec exact
    hdig hdec]
  simp only [hneg]

/-- The examples "abc", "", "-", "." and "  e5" with the separator `.`. -/
theorem R_strtod5_no_digits_witness :
    R_strtod5 [97, 98, 99] 46 false 0 = ⟨1, .na, 0, false⟩ ∧
    R_strtod5 [] 46 false 0 = ⟨1, .na, 0, false⟩ ∧
    R_strtod5 [45] 46 false 0 = ⟨-1, .na, 0, false⟩ ∧
    R_strtod5 [46] 46 false 0 = ⟨1, .na, 0, false⟩ ∧
    R_strtod5 [32, 32, 101, 53] 46 true 0 = ⟨1, .na, 0, false⟩ :=
  ⟨R_strtod5_no_digits [] [] [97, 98, 99] 46 false 0 (by decide) (by decide) (by decide)
      (by decide) (by decide) (by decide) (by decide) (by decide),
   R_strtod5_no_digits [] [] [] 46 false 0 (by decide) (by decide) (by decide)
      (by decide) (by decide) (by decide) (by decide) (by decide),
   R_strtod5_no_digits [] [45] [] 46 false 0 (by decide) (by decide) (by decide)
      (by decide) (by decide) (by decide) (by decide) (by decide),
   R_strtod5_no_digits [] [] [46] 46 false 0 (by decide) (by decide) (by decide)
      (by decide) (by decide) (by decide) (by decide) (by decide),
   R_strtod5_no_digits [32, 32] [] [101, 53] 46 true 0 (by decide) (by decide) (by decide)
      (by decide) (by decide) (by decide) (by decide) (by decide)⟩

/-- C19: on "0xg" (separator `.`) the hexadecimal case is entered, the prefix `0x` is
consumed, no hexadecimal digit is read, and the function leaves with `ans` still zero and
`*endptr = str + 2`: the parse does not fail, the result is `0` and not NA, and the consumed
length is 2 and not 0.  The same happens after whitespace and a sign, for any value of the
NA flag and of the exactness flag. -/
theorem R_strtod5_hex_without_digits :
    R_strtod5 [48, 120, 103] 46 false 0 = ⟨1, .hex 0 (-1) none, 2, false⟩ ∧
    R_strtod5 [48, 120, 103] 46 false 0 ≠ ⟨1, .na, 0, false⟩ ∧
    R_strtod5 [32, 45, 48, 88, 122] 46 true 1 = ⟨-1, .hex 0 (-1) none, 4, false⟩ ∧
    R_strtod5 [48, 120, 103] 46 true NA_LOGICAL = ⟨1, .hex 0 (-1) none, 2, false⟩ := by
  refine ⟨by decide, by decide, by decide, by decide⟩

/-- C20, the case that fails: with the NA flag FALSE the input "NAN" starts with the exact
characters "NA", yet it is read as NaN with 3 characters consumed, not as NA with 0. -/
theorem R_strtod5_NAN_is_NaN :
    R_strtod5 [78, 65, 78] 46 false 0 = ⟨1, .nan, 3, false⟩ ∧
    R_strtod5 [78, 65, 78] 46 false 0 ≠ ⟨1, .na, 0, false⟩ := by
  refine ⟨by decide, by decide⟩

/-- C20, amended: for an input that after the whitespace `ws` starts with the exact characters
"NA": with the NA flag TRUE, `R_strtod5` returns NA with `*endptr = str + w + 2`; with the NA
flag FALSE, it returns NA with `*endptr = str` when the character after "NA" is neither `n`
nor `N`, and NaN with `*endptr = str + w + 3` when it is. -/
theorem R_strtod5_NA_token (ws rest : List Nat) (dec : Nat) (exact : Int)
    (hws : ∀ c ∈ ws, isspace (c % 256) = true) :
    R_strtod5 (ws ++ 78 :: 65 :: rest) dec true exact = ⟨1, .na, ws.length + 2, false⟩ ∧
    (tolower (byteAt rest 0) ≠ 110 →
      R_strtod5 (ws ++ 78 :: 65 :: rest) dec false exact = ⟨1, .na, 0, false⟩) ∧
    (tolower (byteAt rest 0) = 110 →
      R_strtod5 (ws ++ 78 :: 65 :: rest) dec false exact =
        ⟨1, .nan, ws.length + 3, false⟩) := by
  have h0 : byteAt (78 :: 65 :: rest) 0 = 78 := rfl
  have hw : skipSpace (ws ++ 78 :: 65 :: rest) = ws.length :=
    skipSpace_append ws _ hws (by rw [h0]; decide)
  have h1 : byteAt (78 :: 65 :: rest) 1 = 65 := rfl
  have hnan : startsWithCI (78 :: 65 :: rest) [78, 97, 78]
      = (tolower (byteAt rest 0) == 110) := by
    simp only [startsWithCI, h0, List.drop_one, List.tail_cons, byteAt_cons_zero, Bool.and_true]
    have e1 : (tolower 78 == tolower 78) = true := by decide
    have e2 : (tolower (65 % 256) == tolower 97) = true := by decide
    have e3 : tolower 78 = 110 := by decide
    rw [e1, e2, e3]
    rfl
  have hinf1 : startsWithCI (78 :: 65 :: rest) [105, 110, 102, 105, 110, 105, 116, 121]
      = false := by
    have e1 : (tolower 78 == tolower 105) = false := by decide
    simp only [startsWithCI, h0, e1, Bool.false_and]
  have hinf2 : startsWithCI (78 :: 65 :: rest) [73, 110, 102] = false := by
    have e1 : (tolower 78 == tolower 73) = false := by decide
    simp only [startsWithCI, h0, e1, Bool.false_and]
  have hdec := strtodDec_no_digits (78 :: 65 :: rest) (ws.length + 0) 1 dec exact
    (by rw [h0]; decide) (by rw [h1]; rintro ⟨_, h⟩; exact absurd h (by decide))
  refine ⟨?_, ?_, ?_⟩
  · unfold R_strtod5
    simp only [hw, List.drop_left, h0, h1]
    rfl
  · intro hn
    have hn' : (tolower (byteAt rest 0) == 110) = false := by simpa using hn
    unfold R_strtod5
    simp only [hw, List.drop_left, h0, h1, Bool.false_and, Bool.false_eq_true, if_false,
      show ¬ ((78 : Nat) = 45) by decide, show ¬ ((78 : Nat) = 43) by decide, or_self,
      List.drop_zero, hnan, hn', hinf1, hinf2, show ¬ ((78 : Nat) = 48) by decide, false_and,
      and_false, hdec]
  · intro hn
    have hn' : (tolower (byteAt rest 0) == 110) = true := by simpa using hn
    unfold R_strtod5
    simp only [hw, List.drop_left, h0, h1, Bool.false_and, Bool.false_eq_true, if_false,
      show ¬ ((78 : Nat) = 45) by decide, show ¬ ((78 : Nat) = 43) by decide, or_self,
      List.drop_zero, hnan, hn', if_true, Nat.add_zero]

/-- The inputs "  NA", "NA5" and "NAn". -/
theorem R_strtod5_NA_token_witness :
    R_strtod5 [32, 32, 78, 65] 46 true 0 = ⟨1, .na, 4, false⟩ ∧
    R_strtod5 [78, 65, 53] 46 false 0 = ⟨1, .na, 0, false⟩ ∧
    R_strtod5 [78, 65, 110] 46 false 0 = ⟨1, .nan, 3, false⟩ :=
  ⟨(R_strtod5_NA_token [32, 32] [] 46 0 (by decide)).1,
   (R_strtod5_NA_token [] [53] 46 0 (by decide)).2.1 (by decide),
   (R_strtod5_NA_token [] [110] 46 0 (by decide)).2.2 (by decide)⟩

/-! ## `R_strtod5`: the text after the whitespace and the sign -/

/-- After the whitespace `ws` and the sign `sg`, with no NA token matched, `R_strtod5` goes on
with the tests on `rest`, at offset `ws.length + sg.length` and with the sign read. -/
theorem R_strtod5_after_sign (ws sg rest : List Nat) (dec : Nat) (NA : Bool) (exact : Int)
    (hws : ∀ c ∈ ws, isspace (c % 256) = true)
    (hsg : sg = [] ∨ sg = [45] ∨ sg = [43])
    (hstop : sg = [] →
      isspace (byteAt rest 0) = false ∧ byteAt rest 0 ≠ 45 ∧ byteAt rest 0 ≠ 43)
    (hNA : NA = false ∨ ¬ (byteAt (sg ++ rest) 0 = 78 ∧ byteAt (sg ++ rest) 1 = 65)) :
    R_strtod5 (ws ++ sg ++ rest) dec NA exact =
      if startsWithCI rest [78, 97, 78] then
        ⟨if sg = [45] then -1 else 1, .nan, ws.length + sg.length + 3, false⟩
      else if startsWithCI rest [105, 110, 102, 105, 110, 105, 116, 121] then
        ⟨if sg = [45] then -1 else 1, .posInf, ws.length + sg.length + 8, false⟩
      else if startsWithCI rest [73, 110, 102] then
        ⟨if sg = [45] then -1 else 1, .posInf, ws.length + sg.length + 3, false⟩
      else if strlen rest > 2 ∧ byteAt rest 0 = 48 ∧
          (byteAt rest 1 = 120 ∨ byteAt rest 1 = 88) then
        strtodHex rest (ws.length + sg.length) (if sg = [45] then -1 else 1) dec exact
      else strtodDec rest (ws.length + sg.length) (if sg = [45] then -1 else 1) dec exact := by
  obtain ⟨hsp, hneg, hsgn, hdrop⟩ := byteAt_sign_rest sg rest hsg hstop
  have hw : skipSpace (ws ++ (sg ++ rest)) = ws.length := skipSpace_append ws _ hws hsp
  have hg : (if byteAt (sg ++ rest) 0 = 45 ∨ byteAt (sg ++ rest) 0 = 43 then 1 else 0)
      = sg.length := by
    rcases hsg with h | h | h <;> subst h
    · rw [if_neg (by rw [hsgn]; simp)]; rfl
    · rw [if_pos (by rw [hsgn]; simp)]; rfl
    · rw [if_pos (by rw [hsgn]; simp)]; rfl
  have hna : (NA && (byteAt (sg ++ rest) 0 == 78 && byteAt (sg ++ rest) 1 == 65)) = false := by
    rcases hNA with h | h
    · simp [h]
    · simp only [Bool.and_eq_false_iff, Bool.and_eq_true, beq_iff_eq]
      right
      by_contra hc
      simp only [not_or, Bool.not_eq_false] at hc
      exact h ⟨by simpa using hc.1, by simpa using hc.2⟩
  unfold R_strtod5
  simp only [List.append_assoc, hw, List.drop_left, hna, Bool.false_eq_true, if_false, hg,
    hdrop]
  simp only [hneg]

theorem tolower_cases (x : Nat) (h : tolower x = 110 ∨ tolower x = 105) :
    x = 78 ∨ x = 110 ∨ x = 73 ∨ x = 105 := by
  unfold tolower at h
  split_ifs at h <;> omega

theorem keyword_first (rest : List Nat)
    (h : tolower (byteAt rest 0) = 110 ∨ tolower (byteAt rest 0) = 105) :
    isspace (byteAt rest 0) = false ∧ byteAt rest 0 ≠ 45 ∧ byteAt rest 0 ≠ 43 := by
  rcases tolower_cases _ h with h | h | h | h <;> rw [h] <;> decide

theorem startsWithCI_first (p lit : List Nat) (l : Nat) (h : startsWithCI p (l :: lit) = true) :
    tolower (byteAt p 0) = tolower l := by
  simp only [startsWithCI, Bool.and_eq_true, beq_iff_eq] at h
  exact h.1

/-! ## Runs of digits -/

theorem isDigit_mod (c : Nat) (h : isDigit c = true) : c % 256 = c := by
  simp only [isDigit, Bool.and_eq_true, decide_eq_true_eq] at h
  omega

theorem isDigit_bounds (c : Nat) (h : isDigit c = true) : 48 ≤ c ∧ c ≤ 57 := by
  simpa only [isDigit, Bool.and_eq_true, decide_eq_true_eq] using h

theorem decVal_append (ans : Nat) (a b : List Nat) :
    decVal ans (a ++ b) = decVal (decVal ans a) b := by
  simp [decVal, List.foldl_append]

theorem decDigits_run (A rest : List Nat) (ans : Nat) (hA : ∀ c ∈ A, isDigit c = true)
    (hr : isDigit (byteAt rest 0) = false) :
    decDigits (A ++ rest) ans = (decVal ans A, A.length) := by
  induction A generalizing ans with
  | nil => simpa [decVal] using decDigits_nondigit rest ans hr
  | cons c A ih =>
    have hc := hA c (by simp)
    have hm := isDigit_mod c hc
    have := ih (10 * ans + (c - 48)) (fun x hx => hA x (by simp [hx]))
    simp only [List.cons_append, List.append_eq, decDigits, hm, hc, if_true, this,
      List.length_cons]
    rfl

theorem expDigits_run (ds rest : List Nat) (n : Nat) (hds : ∀ c ∈ ds, isDigit c = true)
    (hr : isDigit (byteAt rest 0) = false) :
    expDigits (ds ++ rest) n = ((expDigits ds n).1, ds.length) := by
  induction ds generalizing n with
  | nil =>
    cases rest with
    | nil => rfl
    | cons c r =>
      rw [byteAt_cons_zero] at hr
      simp [expDigits, hr]
  | cons c ds ih =>
    have hc := hds c (by simp)
    have hm := isDigit_mod c hc
    have hrec := fun m => ih m (fun x hx => hds x (by simp [hx]))
    simp only [List.cons_append, List.append_eq, expDigits, hm, hc, if_true, hrec,
      List.length_cons]

theorem expDigits_snd (ds : List Nat) (n : Nat) (hds : ∀ c ∈ ds, isDigit c = true) :
    (expDigits ds n).2 = ds.length := by
  have := expDigits_run ds [] n hds (by decide)
  rw [List.append_nil] at this
  rw [this]

theorem expDigits_append (a b : List Nat) (n : Nat) (ha : ∀ c ∈ a, isDigit c = true) :
    (expDigits (a ++ b) n).1 = (expDigits b (expDigits a n).1).1 := by
  induction a generalizing n with
  | nil => simp [expDigits]
  | cons c a ih =>
    have hc := ha c (by simp)
    have hm := isDigit_mod c hc
    have hrec := fun m => ih m (fun x hx => ha x (by simp [hx]))
    simp only [List.cons_append, List.append_eq, expDigits, hm, hc, if_true, hrec]

theorem expDigits_le (ds : List Nat) (n : Nat) (hn : n ≤ 99989) :
    (expDigits ds n).1 ≤ 99989 := by
  induction ds generalizing n with
  | nil => simpa [expDigits] using hn
  | cons c ds ih =>
    simp only [expDigits]
    split_ifs with hc hlt
    · have hb := isDigit_bounds _ hc
      simp only [MAX_EXPONENT_PREFIX] at hlt
      exact ih _ (by omega)
    · exact ih _ hn
    · exact hn

theorem expDigits_saturated (ds : List Nat) (n : Nat) (hn : 9999 ≤ n) :
    (expDigits ds n).1 = n := by
  induction ds generalizing n with
  | nil => simp [expDigits]
  | cons c ds ih =>
    simp only [expDigits]
    split_ifs with hc hlt
    · simp only [MAX_EXPONENT_PREFIX] at hlt
      omega
    · exact ih _ hn
    · rfl

theorem expDigits_exact_aux (l : List Nat) (n : Nat) (hl : ∀ c ∈ l, isDigit c = true)
    (h : (l.length ≤ 4 ∧ n = 0) ∨ (l.length ≤ 3 ∧ n < 10) ∨ (l.length ≤ 2 ∧ n < 100) ∨
      (l.length ≤ 1 ∧ n < 1000) ∨ l.length = 0) :
    (expDigits l n).1 = decVal n l := by
  induction l generalizing n with
  | nil => simp [expDigits, decVal]
  | cons c l ih =>
    have hc := hl c (by simp)
    have hm := isDigit_mod c hc
    have hb := isDigit_bounds c hc
    simp only [List.length_cons] at h
    have hlt : n < MAX_EXPONENT_PREFIX := by simp only [MAX_EXPONENT_PREFIX]; omega
    simp only [expDigits, hm, hc, if_true, hlt]
    rw [ih (n * 10 + (c - 48)) (fun x hx => hl x (by simp [hx])) (by omega)]
    simp [decVal, Nat.mul_comm]

theorem expDigits_exact (ds : List Nat) (hds : ∀ c ∈ ds, isDigit c = true)
    (hlen : ds.length ≤ 4) : (expDigits ds 0).1 = decVal 0 ds :=
  expDigits_exact_aux ds 0 hds (Or.inl ⟨hlen, rfl⟩)

/-! ## Decimal and hexadecimal literals -/

theorem digit_facts (x : Nat) (h : isDigit x = true) :
    isspace x = false ∧ x ≠ 45 ∧ x ≠ 43 ∧ x ≠ 78 ∧ tolower x = x ∧ x ≠ 110 ∧ x ≠ 105 ∧
      x ≠ 0 ∧ x ≠ 101 ∧ x ≠ 69 ∧ x ≠ 120 ∧ x ≠ 88 := by
  obtain ⟨h1, h2⟩ := isDigit_bounds x h
  interval_cases x <;> decide

theorem startsWithCI_digit (p lit : List Nat) (l : Nat) (h : isDigit (byteAt p 0) = true)
    (hl : l = 78 ∨ l = 105 ∨ l = 73) : startsWithCI p (l :: lit) = false := by
  obtain ⟨_, _, _, _, ht, h110, h105, _⟩ := digit_facts _ h
  have : tolower l = 110 ∨ tolower l = 105 := by
    rcases hl with rfl | rfl | rfl <;> decide
  simp only [startsWithCI, ht, Bool.and_eq_false_iff, beq_eq_false_iff_ne]
  left
  rcases this with e | e <;> rw [e] <;> assumption

theorem R_strtod5_decimal (str : List Nat) (dec : Nat) (NA : Bool) (exact : Int)
    (h0 : isDigit (byteAt str 0) = true) (h1 : byteAt str 1 ≠ 120 ∧ byteAt str 1 ≠ 88) :
    R_strtod5 str dec NA exact = strtodDec str 0 1 dec exact := by
  obtain ⟨f1, f2, f3, f4, _⟩ := digit_facts _ h0
  have := R_strtod5_after_sign [] [] str dec NA exact (by simp) (Or.inl rfl)
    (fun _ => ⟨f1, f2, f3⟩) (Or.inr (fun h => f4 h.1))
  simp only [List.nil_append, List.length_nil, Nat.add_zero,
    startsWithCI_digit str _ _ h0 (Or.inl rfl),
    startsWithCI_digit str _ _ h0 (Or.inr (Or.inl rfl)),
    startsWithCI_digit str _ _ h0 (Or.inr (Or.inr rfl)), Bool.false_eq_true, if_false,
    show ¬ (byteAt str 1 = 120 ∨ byteAt str 1 = 88) from fun h => h.elim h1.1 h1.2,
    and_false, List.cons_ne_self, reduceCtorEq] at this
  exact this

theorem R_strtod5_hex (x : Nat) (t : List Nat) (dec : Nat) (NA : Bool) (exact : Int)
    (hx : x = 120 ∨ x = 88) (ht : byteAt t 0 ≠ 0) :
    R_strtod5 (48 :: x :: t) dec NA exact = strtodHex (48 :: x :: t) 0 1 dec exact := by
  have h0 : isDigit (byteAt (48 :: x :: t) 0) = true := by
    rw [byteAt_cons_zero]; decide
  obtain ⟨f1, f2, f3, f4, _⟩ := digit_facts _ h0
  have hlen : strlen (48 :: x :: t) > 2 := by
    have := strlen_pos t ht
    rw [strlen_cons 48 _ (by decide), strlen_cons x _ (by rcases hx with rfl | rfl <;> decide)]
    omega
  have hx1 : byteAt (48 :: x :: t) 1 = 120 ∨ byteAt (48 :: x :: t) 1 = 88 := by
    rcases hx with rfl | rfl
    · left; rfl
    · right; rfl
  have := R_strtod5_after_sign [] [] (48 :: x :: t) dec NA exact (by simp) (Or.inl rfl)
    (fun _ => ⟨f1, f2, f3⟩) (Or.inr (fun h => f4 h.1))
  simp only [List.nil_append, List.length_nil, Nat.add_zero,
    startsWithCI_digit _ _ _ h0 (Or.inl rfl),
    startsWithCI_digit _ _ _ h0 (Or.inr (Or.inl rfl)),
    startsWithCI_digit _ _ _ h0 (Or.inr (Or.inr rfl)), Bool.false_eq_true, if_false,
    hlen, hx1, show byteAt (48 :: x :: t) 0 = 48 from rfl, and_self, if_true,
    reduceCtorEq] at this
  exact this

theorem strtod_EXACT_CLAUSE_false (ans : Nat) : strtod_EXACT_CLAUSE 0 ans = .pass false := by
  simp [strtod_EXACT_CLAUSE]

theorem strtodDec_int (A t : List Nat) (off : Nat) (sign : Int) (dec : Nat)
    (hA : ∀ c ∈ A, isDigit c = true) (hne : A ≠ [])
    (ht : isDigit (byteAt t 0) = false) (hsep : byteAt t 0 ≠ dec % 256) :
    strtodDec (A ++ t) off sign dec 0 =
      if byteAt t 0 = 101 ∨ byteAt t 0 = 69 then
        ⟨sign, .dec (decVal 0 A) (exponentPart (t.drop 1)).1 A.length,
          off + A.length + 1 + (exponentPart (t.drop 1)).2, false⟩
      else ⟨sign, .dec (decVal 0 A) 0 A.length, off + A.length, false⟩ := by
  have hlen : A.length ≠ 0 := fun h => hne (List.length_eq_zero.mp h)
  unfold strtodDec
  simp only [decDigits_run A t 0 hA ht, List.drop_left, hsep, if_false, Nat.add_zero, hlen,
    strtod_EXACT_CLAUSE_false, List.drop_zero, Nat.cast_zero, neg_zero, zero_add]

theorem strtodDec_frac (A B t : List Nat) (off : Nat) (sign : Int) (dec : Nat)
    (hA : ∀ c ∈ A, isDigit c = true) (hB : ∀ c ∈ B, isDigit c = true)
    (hne : A.length + B.length ≠ 0) (hd : dec < 256) (hdd : isDigit dec = false)
    (ht : isDigit (byteAt t 0) = false) :
    strtodDec (A ++ dec :: (B ++ t)) off sign dec 0 =
      if byteAt t 0 = 101 ∨ byteAt t 0 = 69 then
        ⟨sign, .dec (decVal 0 (A ++ B)) (-(B.length : Int) + (exponentPart (t.drop 1)).1)
          (A.length + B.length),
          off + A.length + (1 + B.length) + 1 + (exponentPart (t.drop 1)).2, false⟩
      else ⟨sign, .dec (decVal 0 (A ++ B)) (-(B.length : Int)) (A.length + B.length),
          off + A.length + (1 + B.length), false⟩ := by
  have hm : dec % 256 = dec := Nat.mod_eq_of_lt hd
  have h1 : isDigit (byteAt (dec :: (B ++ t)) 0) = false := by
    rw [byteAt_cons_zero, hm]; exact hdd
  have hdrop : List.drop (1 + B.length) (dec :: (B ++ t)) = t := by
    rw [Nat.add_comm, List.drop_succ_cons, List.drop_left]
  unfold strtodDec
  simp only [decDigits_run A _ 0 hA h1, List.drop_left, byteAt_cons_zero, if_true,
    List.drop_one, List.tail_cons, decDigits_run B t _ hB ht, hne, if_false,
    strtod_EXACT_CLAUSE_false, hdrop, decVal_append]

theorem exponentPart_run (sg ds rest : List Nat) (hsg : sg = [] ∨ sg = [45] ∨ sg = [43])
    (hds : ∀ c ∈ ds, isDigit c = true) (hne : ds ≠ [])
    (hr : isDigit (byteAt rest 0) = false) :
    exponentPart (sg ++ (ds ++ rest)) =
      ((if sg = [45] then -1 else 1) * ((expDigits ds 0).1 : Int), sg.length + ds.length) := by
  obtain ⟨c, ds', rfl⟩ := List.exists_cons_of_ne_nil hne
  have hc := hds c (by simp)
  obtain ⟨f1, f2, f3, _⟩ := digit_facts _ hc
  have hb : byteAt (c :: ds' ++ rest) 0 = c := by
    rw [List.cons_append, byteAt_cons_zero]; exact isDigit_mod c hc
  obtain ⟨_, hneg, hsgn, hdrop⟩ := byteAt_sign_rest sg (c :: ds' ++ rest) hsg
    (fun _ => by rw [hb]; exact ⟨f1, f2, f3⟩)
  have hg : (if byteAt (sg ++ (c :: ds' ++ rest)) 0 = 45 ∨
      byteAt (sg ++ (c :: ds' ++ rest)) 0 = 43 then 1 else 0) = sg.length := by
    rcases hsg with h | h | h <;> subst h
    · rw [if_neg (by rw [hsgn]; simp)]; rfl
    · rw [if_pos (by rw [hsgn]; simp)]; rfl
    · rw [if_pos (by rw [hsgn]; simp)]; rfl
  unfold exponentPart
  simp only [hg, hdrop, expDigits_run (c :: ds') rest 0 hds hr]
  simp only [hneg]

/-! ## Literals with an exponent -/

theorem first_byte_digit (A t : List Nat) (hA : ∀ c ∈ A, isDigit c = true) (hne : A ≠ []) :
    isDigit (byteAt (A ++ t) 0) = true := by
  obtain ⟨a, A', rfl⟩ := List.exists_cons_of_ne_nil hne
  have ha := hA a (by simp)
  rw [List.cons_append, byteAt_cons_zero, isDigit_mod a ha]
  exact ha

theorem second_byte_not_x (A t : List Nat) (hA : ∀ c ∈ A, isDigit c = true) (hne : A ≠ [])
    (ht : byteAt t 0 ≠ 120 ∧ byteAt t 0 ≠ 88) :
    byteAt (A ++ t) 1 ≠ 120 ∧ byteAt (A ++ t) 1 ≠ 88 := by
  obtain ⟨a, A', rfl⟩ := List.exists_cons_of_ne_nil hne
  rw [List.cons_append, byteAt_cons_succ]
  cases A' with
  | nil => exact ht
  | cons b A'' =>
    have hb := hA b (by simp)
    rw [List.cons_append, byteAt_cons_zero, isDigit_mod b hb]
    obtain ⟨_, _, _, _, _, _, _, _, _, _, h1, h2⟩ := digit_facts b hb
    exact ⟨h1, h2⟩

theorem isHexDigit_facts (c : Nat) (h : isHexDigit c = true) :
    c % 256 = c ∧ ((48 ≤ c ∧ c ≤ 57) ∨ (97 ≤ c ∧ c ≤ 102) ∨ (65 ≤ c ∧ c ≤ 70)) := by
  simp only [isHexDigit, Bool.or_eq_true, Bool.and_eq_true, decide_eq_true_eq] at h
  omega

theorem hexMantissa_run (dec : Nat) (H rest : List Nat) (ans : Nat)
    (hH : ∀ c ∈ H, isHexDigit c = true)
    (hr : isHexDigit (byteAt rest 0) = false) (hsep : byteAt rest 0 ≠ dec % 256) :
    hexMantissa dec (H ++ rest) ans (-1) = (hexVal ans H, -1, H.length) := by
  induction H generalizing ans with
  | nil =>
    cases rest with
    | nil => rfl
    | cons c r =>
      rw [byteAt_cons_zero] at hr hsep
      simp only [isHexDigit, Bool.or_eq_false_iff, Bool.and_eq_false_iff,
        decide_eq_false_iff_not] at hr
      have h1 : ¬ (48 ≤ c % 256 ∧ c % 256 ≤ 57) := by omega
      have h2 : ¬ (97 ≤ c % 256 ∧ c % 256 ≤ 102) := by omega
      have h3 : ¬ (65 ≤ c % 256 ∧ c % 256 ≤ 70) := by omega
      simp only [List.nil_append, hexMantissa, h1, h2, h3, hsep, if_false]
      rfl
  | cons c H ih =>
    obtain ⟨hm, hc⟩ := isHexDigit_facts c (hH c (by simp))
    have hrec := fun a => ih a (fun x hx => hH x (by simp [hx]))
    have hb : (if (-1 : Int) ≥ 0 then (-1 : Int) + 4 else -1) = -1 := by decide
    have hv : hexVal ans (c :: H) = hexVal (16 * ans + hexDigitVal c) H := rfl
    rw [hv]
    simp only [List.cons_append, List.append_eq, hexMantissa, hm, hb, List.length_cons]
    rcases hc with h | h | h
    · have e : hexDigitVal c = c - 48 := by simp only [hexDigitVal]; split_ifs <;> omega
      simp only [h, and_self, if_true, e, hrec]
    · have e : hexDigitVal c = c - 97 + 10 := by simp only [hexDigitVal]; split_ifs <;> omega
      have n1 : ¬ (48 ≤ c ∧ c ≤ 57) := by omega
      simp only [n1, h, and_self, if_true, if_false, e, hrec]
    · have e : hexDigitVal c = c - 65 + 10 := by simp only [hexDigitVal]; split_ifs <;> omega
      have n1 : ¬ (48 ≤ c ∧ c ≤ 57) := by omega
      have n2 : ¬ (97 ≤ c ∧ c ≤ 102) := by omega
      simp only [n1, n2, h, and_self, if_true, if_false, e, hrec]

theorem strtodHex_exp (x letter : Nat) (H u : List Nat) (off : Nat) (sign : Int) (dec : Nat)
    (hH : ∀ c ∈ H, isHexDigit c = true) (hl : letter = 112 ∨ letter = 80)
    (hsep : letter ≠ dec % 256) :
    strtodHex (48 :: x :: (H ++ letter :: u)) off sign dec 0 =
      ⟨sign, .hex (hexVal 0 H) (-1) (some (exponentPart u).1),
        off + 2 + H.length + 1 + (exponentPart u).2, false⟩ := by
  have hb : byteAt (letter :: u) 0 = letter := by
    rcases hl with rfl | rfl <;> rfl
  have hr : isHexDigit (byteAt (letter :: u) 0) = false := by
    rw [hb]; rcases hl with rfl | rfl <;> decide
  have hdrop : List.drop (2 + H.length) (48 :: x :: (H ++ letter :: u)) = letter :: u := by
    rw [Nat.add_comm, List.drop_succ_cons, List.drop_succ_cons, List.drop_left]
  have hd2 : List.drop 2 (48 :: x :: (H ++ letter :: u)) = H ++ letter :: u := rfl
  unfold strtodHex
  simp only [hd2, hexMantissa_run dec H (letter :: u) 0 hH hr (by rw [hb]; exact hsep),
    strtod_EXACT_CLAUSE_false, hdrop, hb, hl, if_true, List.drop_one, List.tail_cons]

/-! ## C21 -/

/-- C21, the case that fails: with the NA flag TRUE the input "NAN" starts, in any case, with
"NaN", yet the NA token is matched first and the result is NA with 2 characters consumed, not
NaN with 3. -/
theorem R_strtod5_NAN_with_NA_flag :
    startsWithCI [78, 65, 78] [78, 97, 78] = true ∧
    R_strtod5 [78, 65, 78] 46 true 0 = ⟨1, .na, 2, false⟩ ∧
    R_strtod5 [78, 65, 78] 46 true 0 ≠ ⟨1, .nan, 3, false⟩ := by
  refine ⟨by decide, by decide, by decide⟩

/-- C21, amended: when the NA flag is FALSE, or the text after the whitespace does not start
with the exact characters "NA": after the whitespace `ws` and the optional sign `sg`, if `rest`
starts in any case with "NaN" the result is NaN with consumed length `w + g + 3`; otherwise if
it starts with "infinity" the result is the infinity of the sign read with consumed length
`w + g + 8`; otherwise if it starts with "Inf" it is that infinity with consumed length
`w + g + 3`. -/
theorem R_strtod5_special (ws sg rest : List Nat) (dec : Nat) (NA : Bool) (exact : Int)
    (hws : ∀ c ∈ ws, isspace (c % 256) = true)
    (hsg : sg = [] ∨ sg = [45] ∨ sg = [43])
    (hNA : NA = false ∨ ¬ (byteAt (sg ++ rest) 0 = 78 ∧ byteAt (sg ++ rest) 1 = 65)) :
    (startsWithCI rest [78, 97, 78] = true →
      R_strtod5 (ws ++ sg ++ rest) dec NA exact =
        ⟨if sg = [45] then -1 else 1, .nan, ws.length + sg.length + 3, false⟩) ∧
    (startsWithCI rest [78, 97, 78] = false →
      startsWithCI rest [105, 110, 102, 105, 110, 105, 116, 121] = true →
      R_strtod5 (ws ++ sg ++ rest) dec NA exact =
        ⟨if sg = [45] then -1 else 1, .posInf, ws.length + sg.length + 8, false⟩) ∧
    (startsWithCI rest [78, 97, 78] = false →
      startsWithCI rest [105, 110, 102, 105, 110, 105, 116, 121] = false →
      startsWithCI rest [73, 110, 102] = true →
      R_strtod5 (ws ++ sg ++ rest) dec NA exact =
        ⟨if sg = [45] then -1 else 1, .posInf, ws.length + sg.length + 3, false⟩) := by
  refine ⟨fun h1 => ?_, fun h1 h2 => ?_, fun h1 h2 h3 => ?_⟩
  · have hf := keyword_first rest (Or.inl (startsWithCI_first rest _ _ h1))
    rw [R_strtod5_after_sign ws sg rest dec NA exact hws hsg (fun _ => hf) hNA]
    simp only [h1, if_true]
  · have hf := keyword_first rest (Or.inr (startsWithCI_first rest _ _ h2))
    rw [R_strtod5_after_sign ws sg rest dec NA exact hws hsg (fun _ => hf) hNA]
    simp only [h1, h2, Bool.false_eq_true, if_false, if_true]
  · have hf := keyword_first rest (Or.inr (startsWithCI_first rest _ _ h3))
    rw [R_strtod5_after_sign ws sg rest dec NA exact hws hsg (fun _ => hf) hNA]
    simp only [h1, h2, h3, Bool.false_eq_true, if_false, if_true]

/-- The inputs "  -Inf" (6 characters consumed), "nan", "+INFINITY" and "NAN" with the NA flag
FALSE. -/
theorem R_strtod5_special_witness :
    R_strtod5 [32, 32, 45, 73, 110, 102] 46 true 0 = ⟨-1, .posInf, 6, false⟩ ∧
    R_strtod5 [110, 97, 110] 46 true 0 = ⟨1, .nan, 3, false⟩ ∧
    R_strtod5 [43, 73, 78, 70, 73, 78, 73, 84, 89] 46 true 0 = ⟨1, .posInf, 9, false⟩ ∧
    R_strtod5 [78, 65, 78] 46 false 0 = ⟨1, .nan, 3, false⟩ :=
  ⟨(R_strtod5_special [32, 32] [45] [73, 110, 102] 46 true 0 (by decide) (by decide)
      (by decide)).2.2 (by decide) (by decide) (by decide),
   (R_strtod5_special [] [] [110, 97, 110] 46 true 0 (by decide) (by decide)
      (by decide)).1 (by decide),
   (R_strtod5_special [] [43] [73, 78, 70, 73, 78, 73, 84, 89] 46 true 0 (by decide)
      (by decide) (by decide)).2.1 (by decide) (by decide),
   (R_strtod5_special [] [] [78, 65, 78] 46 false 0 (by decide) (by decide)
      (by decide)).1 (by decide)⟩

/-! ## C26 -/

/-- C26, the failing input: on "0x1.8.8" (separator `.`) the mantissa loop does not stop at the
second separator: it sets `exph` to `0` again and goes on, so all 7 characters are consumed and
the mantissa is `0x188`, with `exph = 4` counted from the second separator; on "0x1.8" the
consumed length is 5 and the mantissa `0x18`. -/
theorem R_strtod5_hex_second_separator :
    R_strtod5 [48, 120, 49, 46, 56, 46, 56] 46 false 0 = ⟨1, .hex 0x188 4 none, 7, false⟩ ∧
    R_strtod5 [48, 120, 49, 46, 56] 46 false 0 = ⟨1, .hex 0x18 4 none, 5, false⟩ ∧
    R_strtod5 [48, 120, 49, 46, 56, 46, 56, 112, 51] 46 false 0
      = ⟨1, .hex 0x188 4 (some 3), 9, false⟩ := by
  refine ⟨by decide, by decide, by decide⟩

/-! ## C27 -/

/-- C27: for every run `ds` of at least one decimal digit after `e`/`E` or `p`/`P` and an
optional sign `sg`: the accumulator `n` after each digit of the run is at most 99989, it keeps
its value once it has reached 9999, and for a run of at most four digits it is the decimal
value of the run; and `R_strtod5` consumes all the digits of the run, for a decimal literal
(digits `A`, then `e` or `E`) and for a hexadecimal one (`0x`, hexadecimal digits `H`, then
`p` or `P`). -/
theorem exponent_digits_bounded (A H sg ds rest : List Nat) (dec e x p : Nat) (NA : Bool)
    (hds : ∀ c ∈ ds, isDigit c = true) (hne : ds ≠ [])
    (hr : isDigit (byteAt rest 0) = false)
    (hsg : sg = [] ∨ sg = [45] ∨ sg = [43])
    (hA : ∀ c ∈ A, isDigit c = true) (hAne : A ≠ [])
    (he : e = 101 ∨ e = 69) (hde : e ≠ dec % 256)
    (hH : ∀ c ∈ H, isHexDigit c = true) (hx : x = 120 ∨ x = 88)
    (hp : p = 112 ∨ p = 80) (hdp : p ≠ dec % 256) :
    (∀ k, (expDigits (ds.take k) 0).1 ≤ 99989) ∧
    (∀ k, 9999 ≤ (expDigits (ds.take k) 0).1 →
      (expDigits ds 0).1 = (expDigits (ds.take k) 0).1) ∧
    (ds.length ≤ 4 → (expDigits ds 0).1 = decVal 0 ds) ∧
    R_strtod5 (A ++ e :: (sg ++ (ds ++ rest))) dec NA 0 =
      ⟨1, .dec (decVal 0 A) ((if sg = [45] then -1 else 1) * ((expDigits ds 0).1 : Int))
        A.length, A.length + 1 + (sg.length + ds.length), false⟩ ∧
    R_strtod5 (48 :: x :: (H ++ p :: (sg ++ (ds ++ rest)))) dec NA 0 =
      ⟨1, .hex (hexVal 0 H) (-1)
        (some ((if sg = [45] then -1 else 1) * ((expDigits ds 0).1 : Int))),
        2 + H.length + 1 + (sg.length + ds.length), false⟩ := by
  have hexp := exponentPart_run sg ds rest hsg hds hne hr
  refine ⟨fun k => expDigits_le _ 0 (by decide), fun k hk => ?_,
    expDigits_exact ds hds, ?_, ?_⟩
  · have hsplit : (expDigits (ds.take k ++ ds.drop k) 0).1
        = (expDigits (ds.drop k) (expDigits (ds.take k) 0).1).1 :=
      expDigits_append _ _ 0 (fun c hc => hds c (List.mem_of_mem_take hc))
    rw [List.take_append_drop] at hsplit
    rw [hsplit, expDigits_saturated _ _ hk]
  · have hb : byteAt (e :: (sg ++ (ds ++ rest))) 0 = e := by
      rcases he with rfl | rfl <;> rfl
    have h1 : isDigit (byteAt (e :: (sg ++ (ds ++ rest))) 0) = false := by
      rw [hb]; rcases he with rfl | rfl <;> decide
    rw [R_strtod5_decimal _ dec NA 0 (first_byte_digit A _ hA hAne)
        (second_byte_not_x A _ hA hAne (by rw [hb]; rcases he with rfl | rfl <;> decide)),
      strtodDec_int A _ 0 1 dec hA hAne h1 (by rw [hb]; exact hde)]
    simp only [hb, he, if_true, List.drop_one, List.tail_cons, hexp, Nat.zero_add]
  · have hnz : byteAt (H ++ p :: (sg ++ (ds ++ rest))) 0 ≠ 0 := by
      cases H with
      | nil =>
        rw [List.nil_append, byteAt_cons_zero]
        rcases hp with rfl | rfl <;> decide
      | cons c H' =>
        obtain ⟨hm, hc⟩ := isHexDigit_facts c (hH c (by simp))
        rw [List.cons_append, byteAt_cons_zero, hm]
        omega
    rw [R_strtod5_hex x _ dec NA 0 hx hnz, strtodHex_exp x p H _ 0 1 dec hH hp hdp]
    simp only [hexp, Nat.zero_add]

/-- The literals "1e-12345678" and "0x1P-12345678": `n` stops at 12345. -/
theorem exponent_digits_bounded_witness :
    (∀ k, (expDigits ([49, 50, 51, 52, 53, 54, 55, 56].take k) 0).1 ≤ 99989) ∧
    (∀ k, 9999 ≤ (expDigits ([49, 50, 51, 52, 53, 54, 55, 56].take k) 0).1 →
      (expDigits [49, 50, 51, 52, 53, 54, 55, 56] 0).1
        = (expDigits ([49, 50, 51, 52, 53, 54, 55, 56].take k) 0).1) ∧
    ([49, 50, 51, 52, 53, 54, 55, 56].length ≤ 4 →
      (expDigits [49, 50, 51, 52, 53, 54, 55, 56] 0).1
        = decVal 0 [49, 50, 51, 52, 53, 54, 55, 56]) ∧
    R_strtod5 ([49] ++ 101 :: ([45] ++ ([49, 50, 51, 52, 53, 54, 55, 56] ++ []))) 46 false 0 =
      ⟨1, .dec (decVal 0 [49])
        ((if [45] = [45] then -1 else 1)
          * ((expDigits [49, 50, 51, 52, 53, 54, 55, 56] 0).1 : Int))
        [49].length,
        [49].length + 1 + ([45].length + [49, 50, 51, 52, 53, 54, 55, 56].length), false⟩ ∧
    R_strtod5 (48 :: 120 :: ([49] ++ 80 :: ([45] ++ ([49, 50, 51, 52, 53, 54, 55, 56] ++ []))))
        46 false 0 =
      ⟨1, .hex (hexVal 0 [49]) (-1)
        (some ((if [45] = [45] then -1 else 1)
          * ((expDigits [49, 50, 51, 52, 53, 54, 55, 56] 0).1 : Int))),
        2 + [49].length + 1 + ([45].length + [49, 50, 51, 52, 53, 54, 55, 56].length), false⟩ :=
  exponent_digits_bounded [49] [49] [45] [49, 50, 51, 52, 53, 54, 55, 56] [] 46 101 120 80
    false (by decide) (by decide) (by decide) (by decide) (by decide) (by decide) (by decide)
    (by decide) (by decide) (by decide) (by decide) (by decide)

/-! ## The exactness flag -/

theorem strtodDec_exact (p : List Nat) (off : Nat) (sign : Int) (dec : Nat) (exact : Int) :
    strtodDec p off sign dec exact =
      match (strtodDec p off sign dec 0).ans.mantissa with
      | none => strtodDec p off sign dec 0
      | some M =>
        match strtod_EXACT_CLAUSE exact M with
        | .reject => ⟨sign, .na, 0, false⟩
        | .pass w => { strtodDec p off sign dec 0 with warned := w } := by
  unfold strtodDec
  simp only [strtod_EXACT_CLAUSE_false]
  split_ifs
  all_goals rfl

theorem strtodHex_exact (p : List Nat) (off : Nat) (sign : Int) (dec : Nat) (exact : Int) :
    strtodHex p off sign dec exact =
      match (strtodHex p off sign dec 0).ans.mantissa with
      | none => strtodHex p off sign dec 0
      | some M =>
        match strtod_EXACT_CLAUSE exact M with
        | .reject => ⟨sign, .na, 0, false⟩
        | .pass w => { strtodHex p off sign dec 0 with warned := w } := by
  unfold strtodHex
  simp only [strtod_EXACT_CLAUSE_false]
  split_ifs
  all_goals rfl

theorem strtodDec_sign (p : List Nat) (off : Nat) (sign : Int) (dec : Nat) :
    (strtodDec p off sign dec 0).sign = sign ∧ (strtodDec p off sign dec 0).warned = false := by
  unfold strtodDec
  simp only [strtod_EXACT_CLAUSE_false]
  split_ifs <;> exact ⟨rfl, rfl⟩

theorem strtodHex_sign (p : List Nat) (off : Nat) (sign : Int) (dec : Nat) :
    (strtodHex p off sign dec 0).sign = sign ∧ (strtodHex p off sign dec 0).warned = false := by
  unfold strtodHex
  simp only [strtod_EXACT_CLAUSE_false]
  split_ifs <;> exact ⟨rfl, rfl⟩

theorem R_strtod5_exact_eq (str : List Nat) (dec : Nat) (NA : Bool) (exact : Int) :
    (R_strtod5 str dec NA 0).warned = false ∧
    R_strtod5 str dec NA exact =
      match (R_strtod5 str dec NA 0).ans.mantissa with
      | none => R_strtod5 str dec NA 0
      | some M =>
        match strtod_EXACT_CLAUSE exact M with
        | .reject => ⟨(R_strtod5 str dec NA 0).sign, .na, 0, false⟩
        | .pass w => { R_strtod5 str dec NA 0 with warned := w } := by
  unfold R_strtod5
  dsimp only []
  generalize skipSpace str = w
  generalize List.drop w str = p
  generalize (if byteAt p 0 = 45 ∨ byteAt p 0 = 43 then 1 else 0) = g
  generalize (if byteAt p 0 = 45 then (-1 : Int) else 1) = sign
  generalize List.drop g p = q
  by_cases h0 : (NA && (byteAt p 0 == 78 && byteAt p 1 == 65)) = true
  · rw [if_pos h0, if_pos h0]; exact ⟨rfl, rfl⟩
  rw [if_neg h0, if_neg h0]
  by_cases h1 : startsWithCI q [78, 97, 78] = true
  · rw [if_pos h1, if_pos h1]; exact ⟨rfl, rfl⟩
  rw [if_neg h1, if_neg h1]
  by_cases h2 : startsWithCI q [105, 110, 102, 105, 110, 105, 116, 121] = true
  · rw [if_pos h2, if_pos h2]; exact ⟨rfl, rfl⟩
  rw [if_neg h2, if_neg h2]
  by_cases h3 : startsWithCI q [73, 110, 102] = true
  · rw [if_pos h3, if_pos h3]; exact ⟨rfl, rfl⟩
  rw [if_neg h3, if_neg h3]
  by_cases h4 : strlen q > 2 ∧ byteAt q 0 = 48 ∧ (byteAt q 1 = 120 ∨ byteAt q 1 = 88)
  · rw [if_pos h4, if_pos h4]
    refine ⟨(strtodHex_sign _ _ _ _).2, ?_⟩
    rw [strtodHex_exact q (w + g) sign dec exact]
    simp only [(strtodHex_sign q (w + g) sign dec).1]
  · rw [if_neg h4, if_neg h4]
    refine ⟨(strtodDec_sign _ _ _ _).2, ?_⟩
    rw [strtodDec_exact q (w + g) sign dec exact]
    simp only [(strtodDec_sign q (w + g) sign dec).1]

/-! ## C28 -/

/-- C28: for every input that `R_strtod5` reads as a number with mantissa digits forming the
integer `M` (hexadecimal, or decimal ignoring the separator): with `exact = FALSE` there is no
warning; when `M > 2^53 - 1`, `exact = NA_LOGICAL` gives the same value and consumed length
with the accuracy-loss warning, and every other non-zero `exact` (TRUE) gives NA with
`*endptr = str`; when `M ≤ 2^53 - 1` the flag changes nothing. -/
theorem R_strtod5_exactness (str : List Nat) (dec : Nat) (NA : Bool) (M : Nat)
    (hM : (R_strtod5 str dec NA 0).ans.mantissa = some M) :
    (R_strtod5 str dec NA 0).warned = false ∧
    (M > 2 ^ 53 - 1 →
      R_strtod5 str dec NA NA_LOGICAL = { R_strtod5 str dec NA 0 with warned := true } ∧
      ∀ exact : Int, exact ≠ 0 → exact ≠ NA_LOGICAL →
        R_strtod5 str dec NA exact = ⟨(R_strtod5 str dec NA 0).sign, .na, 0, false⟩) ∧
    (M ≤ 2 ^ 53 - 1 → ∀ exact : Int, R_strtod5 str dec NA exact = R_strtod5 str dec NA 0) := by
  have hw := (R_strtod5_exact_eq str dec NA 0).1
  have hk : (2 : Nat) ^ 53 - 1 = 9007199254740991 := by norm_num
  rw [hk]
  refine ⟨hw, fun h => ⟨?_, fun exact h0 h1 => ?_⟩, fun h exact => ?_⟩
  · have hc : strtod_EXACT_CLAUSE NA_LOGICAL M = .pass true := by
      have h' : 9007199254740991 < M := h
      simp [strtod_EXACT_CLAUSE, NA_LOGICAL, h']
    rw [(R_strtod5_exact_eq str dec NA NA_LOGICAL).2, hM]
    simp only [hc]
  · have hc : strtod_EXACT_CLAUSE exact M = .reject := by
      have h' : 9007199254740991 < M := h
      simp [strtod_EXACT_CLAUSE, h0, h1, h']
    rw [(R_strtod5_exact_eq str dec NA exact).2, hM]
    simp only [hc]
  · have hc : strtod_EXACT_CLAUSE exact M = .pass false := by
      have h' : ¬ 9007199254740991 < M := by omega
      simp [strtod_EXACT_CLAUSE, h']
    rw [(R_strtod5_exact_eq str dec NA exact).2, hM]
    simp only [hc]
    rw [← hw]

/-- The literals "9007199254740992" (`2^53`) and "0x1FFFFFFFFFFFFF" (`2^53 - 1`). -/
theorem R_strtod5_exactness_witness :
    ((R_strtod5 [57, 48, 48, 55, 49, 57, 57, 50, 53, 52, 55, 52, 48, 57, 57, 50] 46 false
        NA_LOGICAL = ⟨1, .dec 9007199254740992 0 16, 16, true⟩) ∧
      R_strtod5 [57, 48, 48, 55, 49, 57, 57, 50, 53, 52, 55, 52, 48, 57, 57, 50] 46 false 1
        = ⟨1, .na, 0, false⟩) ∧
    R_strtod5 [48, 120, 49, 70, 70, 70, 70, 70, 70, 70, 70, 70, 70, 70, 70, 70] 46 false 1
      = ⟨1, .hex 9007199254740991 (-1) none, 16, false⟩ :=
  ⟨⟨((R_strtod5_exactness [57, 48, 48, 55, 49, 57, 57, 50, 53, 52, 55, 52, 48, 57, 57, 50]
        46 false 9007199254740992 rfl).2.1 (by decide)).1,
    ((R_strtod5_exactness [57, 48, 48, 55, 49, 57, 57, 50, 53, 52, 55, 52, 48, 57, 57, 50]
        46 false 9007199254740992 rfl).2.1 (by decide)).2 1 (by decide) (by decide)⟩,
   (R_strtod5_exactness [48, 120, 49, 70, 70, 70, 70, 70, 70, 70, 70, 70, 70, 70, 70, 70]
        46 false 9007199254740991 rfl).2.2 (by decide) 1⟩

/-! ## C29 -/

/-- C29: the fractional part is introduced only by the separator `dec`.  For digit strings `A`
(not empty) and `B`, with `dec = ','` the input `A,B` is consumed entirely (mantissa `AB`, one
power of ten down for each digit of `B`) and the input `A.B` is consumed up to the end of `A`
(mantissa `A`, `*endptr` at the `.`); symmetrically with `dec = '.'`. -/
theorem separator_is_dec (A B : List Nat) (dec other : Nat) (NA : Bool)
    (hA : ∀ c ∈ A, isDigit c = true) (hne : A ≠ []) (hB : ∀ c ∈ B, isDigit c = true)
    (hd : (dec = 44 ∧ other = 46) ∨ (dec = 46 ∧ other = 44)) :
    R_strtod4 (A ++ dec :: B) dec NA =
      ⟨1, .dec (decVal 0 (A ++ B)) (-(B.length : Int)) (A.length + B.length),
        A.length + 1 + B.length, false⟩ ∧
    R_strtod4 (A ++ other :: B) dec NA = ⟨1, .dec (decVal 0 A) 0 A.length, A.length, false⟩ := by
  have hlen : A.length ≠ 0 := fun h => hne (List.length_eq_zero.mp h)
  have hdec : dec < 256 ∧ isDigit dec = false ∧ dec ≠ 120 ∧ dec ≠ 88 := by
    rcases hd with ⟨rfl, _⟩ | ⟨rfl, _⟩ <;> decide
  have hoth : other % 256 = other ∧ isDigit other = false ∧ other ≠ 120 ∧ other ≠ 88 ∧
      other ≠ dec % 256 ∧ other ≠ 101 ∧ other ≠ 69 := by
    rcases hd with ⟨rfl, rfl⟩ | ⟨rfl, rfl⟩ <;> decide
  obtain ⟨d1, d2, d3, d4⟩ := hdec
  obtain ⟨o1, o2, o3, o4, o5, o6, o7⟩ := hoth
  have hbd : byteAt (dec :: B) 0 = dec := by
    rw [byteAt_cons_zero]; exact Nat.mod_eq_of_lt d1
  have hbo : byteAt (other :: B) 0 = other := by
    rw [byteAt_cons_zero]; exact o1
  unfold R_strtod4
  constructor
  · rw [R_strtod5_decimal _ dec NA 0 (first_byte_digit A _ hA hne)
      (second_byte_not_x A _ hA hne (by rw [hbd]; exact ⟨d3, d4⟩))]
    have := strtodDec_frac A B [] 0 1 dec hA hB (by omega) d1 d2 (by decide)
    rw [List.append_nil] at this
    rw [this, if_neg (by decide)]
    simp only [StrtodOut.mk.injEq, true_and, and_true]
    omega
  · rw [R_strtod5_decimal _ dec NA 0 (first_byte_digit A _ hA hne)
        (second_byte_not_x A _ hA hne (by rw [hbo]; exact ⟨o3, o4⟩)),
      strtodDec_int A _ 0 1 dec hA hne (by rw [hbo]; exact o2) (by rw [hbo]; exact o5),
      hbo, if_neg (by omega), Nat.zero_add]

/-- The inputs "3,14" and "3.14" with `dec = ','`, and with `dec = '.'`. -/
theorem separator_is_dec_witness :
    (R_strtod4 [51, 44, 49, 52] 44 false = ⟨1, .dec 314 (-2) 3, 4, false⟩ ∧
      R_strtod4 [51, 46, 49, 52] 44 false = ⟨1, .dec 3 0 1, 1, false⟩) ∧
    (R_strtod4 [51, 46, 49, 52] 46 false = ⟨1, .dec 314 (-2) 3, 4, false⟩ ∧
      R_strtod4 [51, 44, 49, 52] 46 false = ⟨1, .dec 3 0 1, 1, false⟩) :=
  ⟨separator_is_dec [51] [49, 52] 44 46 false (by decide) (by decide) (by decide)
      (Or.inl ⟨rfl, rfl⟩),
   separator_is_dec [51] [49, 52] 46 44 false (by decide) (by decide) (by decide)
      (Or.inr ⟨rfl, rfl⟩)⟩

/-! ## `strcmp` is the byte-wise comparison -/

theorem cstr_nil : cstr [] = [] := rfl

theorem cstr_cons_zero (x : Nat) (s : List Nat) (h : x % 256 = 0) : cstr (x :: s) = [] := by
  simp [cstr, List.takeWhile_cons, h]

theorem cstr_cons (x : Nat) (s : List Nat) (h : x % 256 ≠ 0) :
    cstr (x :: s) = x % 256 :: cstr s := by
  simp [cstr, List.takeWhile_cons, h]

theorem lex_cons_ne {u v : Nat} (h : u ≠ v) (l₁ l₂ : List Nat) :
    List.Lex (· < ·) (u :: l₁) (v :: l₂) ↔ u < v := by
  constructor
  · intro h'
    cases h' with
    | cons _ => exact absurd rfl h
    | rel hr => exact hr
  · exact List.Lex.rel

theorem strcmp_sign (a b : List Nat) :
    (strcmp a b = 0 ↔ cstr a = cstr b) ∧
    (strcmp a b < 0 ↔ List.Lex (· < ·) (cstr a) (cstr b)) ∧
    (0 < strcmp a b ↔ List.Lex (· < ·) (cstr b) (cstr a)) := by
  induction a generalizing b with
  | nil =>
    cases b with
    | nil => simp [strcmp, byteAt, cstr_nil]
    | cons y t =>
      by_cases hy : y % 256 = 0
      · simp [strcmp, hy, cstr_nil, cstr_cons_zero y t hy]
      · have hpos : 0 < y % 256 := Nat.pos_of_ne_zero hy
        simp only [strcmp, byteAt_cons_zero, cstr_nil, cstr_cons y t hy]
        refine ⟨⟨fun h => by omega, fun h => by simp at h⟩,
          ⟨fun _ => List.Lex.nil, fun _ => by omega⟩,
          ⟨fun h => by omega, fun h => by cases h⟩⟩
  | cons x s ih =>
    cases b with
    | nil =>
      by_cases hx : x % 256 = 0
      · simp [strcmp, hx, cstr_nil, cstr_cons_zero x s hx]
      · have hpos : 0 < x % 256 := Nat.pos_of_ne_zero hx
        simp only [strcmp, cstr_nil, cstr_cons x s hx]
        refine ⟨⟨fun h => by omega, fun h => by simp at h⟩,
          ⟨fun h => by omega, fun h => by cases h⟩,
          ⟨fun _ => List.Lex.nil, fun _ => by omega⟩⟩
    | cons y t =>
      by_cases hxy : x % 256 = y % 256
      · by_cases hx : x % 256 = 0
        · have hy : y % 256 = 0 := by omega
          simp [strcmp, hx, hy, cstr_cons_zero x s hx, cstr_cons_zero y t hy]
        · have hy : y % 256 ≠ 0 := by omega
          have := ih t
          simp only [strcmp, hxy, ne_eq, not_true_eq_false, if_false, hy, cstr_cons x s hx,
            cstr_cons y t hy, List.cons.injEq, true_and, List.Lex.cons_iff]
          exact this
      · simp only [strcmp, ne_eq, hxy, not_false_eq_true, if_true]
        by_cases hx : x % 256 = 0
        · have hy : y % 256 ≠ 0 := by omega
          rw [cstr_cons_zero x s hx, cstr_cons y t hy]
          refine ⟨⟨fun h => by omega, fun h => by simp at h⟩,
            ⟨fun _ => List.Lex.nil, fun _ => by omega⟩,
            ⟨fun h => by omega, fun h => by cases h⟩⟩
        · by_cases hy : y % 256 = 0
          · rw [cstr_cons x s hx, cstr_cons_zero y t hy]
            refine ⟨⟨fun h => by omega, fun h => by simp at h⟩,
              ⟨fun h => by omega, fun h => by cases h⟩,
              ⟨fun _ => List.Lex.nil, fun _ => by omega⟩⟩
          · rw [cstr_cons x s hx, cstr_cons y t hy]
            rw [lex_cons_ne hxy, lex_cons_ne (Ne.symm hxy)]
            refine ⟨⟨fun h => by omega, fun h => by simp at h; omega⟩,
              ⟨fun h => by omega, fun h => by omega⟩, ⟨fun h => by omega, fun h => by omega⟩⟩

/-! ## C30 -/

theorem strcmp_self (s : List Nat) : strcmp s s = 0 :=
  (strcmp_sign s s).1.mpr rfl

theorem ICUsetArg_no_collator {C S : Type} (lib : ICULib C S) (n : Int) (this s : String)
    (h : this ≠ "locale") : ICUsetArg lib ⟨none, n⟩ this s = ⟨⟨none, n⟩, .ok ()⟩ := by
  simp [ICUsetArg, h]

theorem do_ICUset_no_collator {C S : Type} (lib : ICULib C S) (n : Int) (args : List ICUArg)
    (h : ∀ x ∈ args, x.tag ≠ some "locale") :
    (do_ICUset lib ⟨none, n⟩ args).st = ⟨none, n⟩ := by
  induction args with
  | nil => rfl
  | cons arg rest ih =>
    have hrest := ih (fun x hx => h x (List.mem_cons_of_mem _ hx))
    have harg := h arg (List.mem_cons_self _ _)
    unfold do_ICUset
    cases ht : arg.tag with
    | none => rfl
    | some this =>
      cases hv : arg.value with
      | none => rfl
      | some s =>
        have hne : this ≠ "locale" := fun e => harg (by rw [ht, e])
        simp only [ICUsetArg_no_collator lib n this s hne]
        exact hrest

/-- C30: `do_ICUset(locale = "ASCII")` leaves `collator = NULL` and `collationLocaleSet = 2`,
from any state.  In that state `Scollate(a, b)` returns `strcmp` of the translated bytes, with
no initialisation and the state unchanged, and a `do_ICUset` call without a `locale` argument
leaves the state as it is.  That comparison is the byte-wise one: `strcmp(s, s) = 0`, and the
result is zero, negative or positive as the bytes before the terminator are equal, smaller or
greater in the lexicographic order (`List.Lex`) of their `unsigned char` values. -/
theorem ASCII_collation {C S : Type} (lib : ICULib C S) (st0 : ICUState C) :
    do_ICUset lib st0 [⟨some "locale", some "ASCII"⟩] = ⟨⟨none, 2⟩, .ok ()⟩ ∧
    (∀ a b : S, Scollate lib ⟨none, 2⟩ a b =
      ⟨⟨none, 2⟩, .ok (strcmp (lib.translateChar a) (lib.translateChar b))⟩) ∧
    (∀ args : List ICUArg, (∀ x ∈ args, x.tag ≠ some "locale") →
      (do_ICUset lib ⟨none, 2⟩ args).st = ⟨none, 2⟩) ∧
    (∀ s : List Nat, strcmp s s = 0) ∧
    (∀ a b : List Nat, (strcmp a b = 0 ↔ cstr a = cstr b) ∧
      (strcmp a b < 0 ↔ List.Lex (· < ·) (cstr a) (cstr b)) ∧
      (0 < strcmp a b ↔ List.Lex (· < ·) (cstr b) (cstr a))) := by
  refine ⟨?_, fun a b => ?_, do_ICUset_no_collator lib 2, strcmp_self, strcmp_sign⟩
  · simp [do_ICUset, ICUsetArg]
  · simp [Scollate, ScollateCompare]

/-- After `locale = "ASCII"`, from a state with an open collator: "b" against "a", "a" against
"ab", and a later `strength` argument. -/
theorem ASCII_collation_witness :
    do_ICUset (⟨fun _ => false, fun _ => some (), fun c _ => c, fun _ _ _ => none,
        fun _ _ _ => none, fun _ _ => 0, fun _ => none, "en_US.UTF-8", id, id⟩ :
        ICULib Unit (List Nat)) ⟨some (), 1⟩ [⟨some "locale", some "ASCII"⟩]
      = ⟨⟨none, 2⟩, .ok ()⟩ ∧
    Scollate (⟨fun _ => false, fun _ => some (), fun c _ => c, fun _ _ _ => none,
        fun _ _ _ => none, fun _ _ => 0, fun _ => none, "en_US.UTF-8", id, id⟩ :
        ICULib Unit (List Nat)) ⟨none, 2⟩ [0x62, 0] [0x61, 0] = ⟨⟨none, 2⟩, .ok 1⟩ ∧
    Scollate (⟨fun _ => false, fun _ => some (), fun c _ => c, fun _ _ _ => none,
        fun _ _ _ => none, fun _ _ => 0, fun _ => none, "en_US.UTF-8", id, id⟩ :
        ICULib Unit (List Nat)) ⟨none, 2⟩ [0x61, 0] [0x61, 0x62, 0] = ⟨⟨none, 2⟩, .ok (-98)⟩ ∧
    (do_ICUset (⟨fun _ => false, fun _ => some (), fun c _ => c, fun _ _ _ => none,
        fun _ _ _ => none, fun _ _ => 0, fun _ => none, "en_US.UTF-8", id, id⟩ :
        ICULib Unit (List Nat)) ⟨none, 2⟩ [⟨some "strength", some "primary "⟩]).st
      = ⟨none, 2⟩ :=
  ⟨(ASCII_collation _ ⟨some (), 1⟩).1,
   (ASCII_collation _ ⟨some (), 1⟩).2.1 [0x62, 0] [0x61, 0],
   (ASCII_collation _ ⟨some (), 1⟩).2.1 [0x61, 0] [0x61, 0x62, 0],
   (ASCII_collation _ ⟨some (), 1⟩).2.2.1 _ (by decide)⟩

/-! ## C31 -/

theorem ICUsetArgCalls_no_collator {C S : Type} (lib : ICULib C S) (n : Int) (this s : String)
    (h : this ≠ "locale") : ICUsetArgCalls lib ⟨none, n⟩ this s = [] := by
  simp [ICUsetArgCalls, h]

theorem do_ICUsetCalls_no_collator {C S : Type} (lib : ICULib C S) (n : Int)
    (args : List ICUArg) (h : ∀ x ∈ args, x.tag ≠ some "locale") :
    do_ICUsetCalls lib ⟨none, n⟩ args = [] := by
  induction args with
  | nil => rfl
  | cons arg rest ih =>
    have hrest := ih (fun x hx => h x (List.mem_cons_of_mem _ hx))
    have harg := h arg (List.mem_cons_self _ _)
    unfold do_ICUsetCalls
    cases ht : arg.tag with
    | none => rfl
    | some this =>
      cases hv : arg.value with
      | none => rfl
      | some s =>
        have hne : this ≠ "locale" := fun e => harg (by rw [ht, e])
        simp only [ICUsetArg_no_collator lib n this s hne,
          ICUsetArgCalls_no_collator lib n this s hne, List.nil_append]
        exact hrest

/-- C31: in every state with `collator == NULL` (whatever `collationLocaleSet` is), for every
list of arguments none of which is named `locale`, `do_ICUset` leaves `collator` and
`collationLocaleSet` unchanged and makes no call on the ICU library. -/
theorem do_ICUset_frame {C S : Type} (lib : ICULib C S) (n : Int) (args : List ICUArg)
    (h : ∀ x ∈ args, x.tag ≠ some "locale") :
    (do_ICUset lib ⟨none, n⟩ args).st = ⟨none, n⟩ ∧
    do_ICUsetCalls lib ⟨none, n⟩ args = [] :=
  ⟨do_ICUset_no_collator lib n args h, do_ICUsetCalls_no_collator lib n args h⟩

/-- The arguments `strength = "primary "` and `case_first = "upper"` in the state left by
`locale = "none"`. -/
theorem do_ICUset_frame_witness :
    (do_ICUset (⟨fun _ => false, fun _ => some 0, fun _ v => v, fun _ _ v => some v,
        fun _ _ _ => none, fun _ _ => 0, fun _ => none, "en_US.UTF-8", id, id⟩ :
        ICULib Int (List Nat)) ⟨none, 1⟩
      [⟨some "strength", some "primary "⟩, ⟨some "case_first", some "upper"⟩]).st
      = ⟨none, 1⟩ ∧
    do_ICUsetCalls (⟨fun _ => false, fun _ => some 0, fun _ v => v, fun _ _ v => some v,
        fun _ _ _ => none, fun _ _ => 0, fun _ => none, "en_US.UTF-8", id, id⟩ :
        ICULib Int (List Nat)) ⟨none, 1⟩
      [⟨some "strength", some "primary "⟩, ⟨some "case_first", some "upper"⟩] = [] :=
  do_ICUset_frame _ 1 _ (by decide)

/-! ## C32 -/

theorem ICUset_strength_unknown {C S : Type} (lib : ICULib C S) (c : C) (n : Int)
    (name : String) (hv : ATlookup name = -1) :
    do_ICUset lib ⟨some c, n⟩ [⟨some "strength", some name⟩] = ⟨⟨some c, n⟩, .ok ()⟩ ∧
    do_ICUsetCalls lib ⟨some c, n⟩ [⟨some "strength", some name⟩] = [] := by
  have hat : ATlookup "strength" = 999 := by decide
  constructor
  · simp [do_ICUset, ICUsetArg, hat, hv]
  · simp [do_ICUsetCalls, ICUsetArg, ICUsetArgCalls, hat, hv]

/-- C32, the failing input: with a collator bound, `do_ICUset(strength = "primary")` makes no
call on the ICU library and leaves the collator as it is, and so for "secondary", "tertiary",
"quaternary" and "identical": the entries of `ATtable` for the strength levels are spelled
with a trailing blank, so the lookup of the value gives `-1`.  With the blank the call is
made. -/
theorem do_ICUset_strength_names_not_found {C S : Type} (lib : ICULib C S) (c : C) (n : Int) :
    ["primary", "secondary", "tertiary", "quaternary", "identical"].map ATlookup
      = [-1, -1, -1, -1, -1] ∧
    do_ICUset lib ⟨some c, n⟩ [⟨some "strength", some "primary"⟩] = ⟨⟨some c, n⟩, .ok ()⟩ ∧
    ["primary", "secondary", "tertiary", "quaternary", "identical"].map
        (fun name => do_ICUsetCalls lib ⟨some c, n⟩ [⟨some "strength", some name⟩])
      = [[], [], [], [], []] ∧
    do_ICUset lib ⟨some c, n⟩ [⟨some "strength", some "primary "⟩]
      = ⟨⟨some (lib.ucol_setStrength c UCOL_PRIMARY), n⟩, .ok ()⟩ ∧
    do_ICUsetCalls lib ⟨some c, n⟩ [⟨some "strength", some "primary "⟩]
      = [ICUCall.ucol_setStrength UCOL_PRIMARY] := by
  have hat : ATlookup "strength" = 999 := by decide
  have hv : ATlookup "primary " = 0 := by decide
  refine ⟨by decide, (ICUset_strength_unknown lib c n _ (by decide)).1, ?_, ?_, ?_⟩
  · simp only [List.map_cons, List.map_nil,
      (ICUset_strength_unknown lib c n "primary" (by decide)).2,
      (ICUset_strength_unknown lib c n "secondary" (by decide)).2,
      (ICUset_strength_unknown lib c n "tertiary" (by decide)).2,
      (ICUset_strength_unknown lib c n "quaternary" (by decide)).2,
      (ICUset_strength_unknown lib c n "identical" (by decide)).2]
  · simp [do_ICUset, ICUsetArg, hat, hv, UCOL_PRIMARY]
  · simp [do_ICUsetCalls, ICUsetArg, ICUsetArgCalls, hat, hv, UCOL_PRIMARY]

/-! ## C33 -/

theorem ScollateCompare_st {C S : Type} (lib : ICULib C S) (st : ICUState C) (a b : S) :
    (ScollateCompare lib st a b).st = st := by
  unfold ScollateCompare
  cases st.collator with
  | none => simp only []; split_ifs <;> rfl
  | some c =>
    simp only []
    cases lib.ucol_strcollIter c (lib.translateCharUTF8 a) (lib.translateCharUTF8 b) <;> rfl

theorem Scollate_st {C S : Type} (lib : ICULib C S) (col : Option C) (a b : S) :
    (Scollate lib ⟨col, 0⟩ a b).st = (ScollateInit lib ⟨col, 0⟩).st := by
  unfold Scollate
  simp only [if_true]
  cases h : ScollateInit lib ⟨col, 0⟩ with
  | mk st1 res =>
    cases res with
    | ok u => exact ScollateCompare_st lib st1 a b
    | error e => rfl

/-- C33, the case that fails: with `R_ICU_LOCALE` set to "en_US" and `LC_ALL` set to "C", the
first comparison in the unconfigured state leaves `collator == NULL` with
`collationLocaleSet = 1` and compares with `strcoll`: `LC_ALL = "C"` is honoured before the
override, although a collator for "en_US" could be opened. -/
theorem Scollate_LC_ALL_before_override :
    Scollate (⟨fun _ => false, fun _ => some 0, fun _ v => v, fun _ _ v => some v,
        fun _ _ _ => some 7, fun _ _ => 5,
        fun v => if v = "R_ICU_LOCALE" then some "en_US" else
          if v = "LC_ALL" then some "C" else none,
        "en_US.UTF-8", id, id⟩ : ICULib Int (List Nat)) ⟨none, 0⟩ [0x61, 0] [0x62, 0]
      = ⟨⟨none, 1⟩, .ok 5⟩ := by
  simp [Scollate, ScollateInit, ScollateCompare, getLocale]

/-- C33, amended: on the first comparison in the unconfigured state (not Win32): when `LC_ALL`
is "C", or `LC_ALL` is unset or empty and `LC_COLLATE` is "C", no collator is bound, whatever
`R_ICU_LOCALE` is; otherwise the locale is `R_ICU_LOCALE` when that is set and not empty and
the `LC_COLLATE` locale of the C library when it is not, and a collator is opened for that
locale unless it is "C".  In every case `collationLocaleSet` is 1 afterwards. -/
theorem Scollate_lazy_init {C S : Type} (lib : ICULib C S) (a b : S) :
    ((lib.getenv "LC_ALL" = some "C" ∨
        ((lib.getenv "LC_ALL" = none ∨ lib.getenv "LC_ALL" = some "") ∧
          lib.getenv "LC_COLLATE" = some "C")) →
      (Scollate lib ⟨none, 0⟩ a b).st = ⟨none, 1⟩) ∧
    (¬ (lib.getenv "LC_ALL" = some "C" ∨
        ((lib.getenv "LC_ALL" = none ∨ lib.getenv "LC_ALL" = some "") ∧
          lib.getenv "LC_COLLATE" = some "C")) →
      (getLocale lib = "C" → (Scollate lib ⟨none, 0⟩ a b).st = ⟨none, 1⟩) ∧
      (getLocale lib ≠ "C" → lib.uloc_setDefault (getLocale lib) = false →
        (Scollate lib ⟨none, 0⟩ a b).st = ⟨lib.ucol_open (getLocale lib), 1⟩)) ∧
    (∀ p, lib.getenv "R_ICU_LOCALE" = some p → p ≠ "" → getLocale lib = p) ∧
    ((lib.getenv "R_ICU_LOCALE" = none ∨ lib.getenv "R_ICU_LOCALE" = some "") →
      getLocale lib = lib.setlocale_LC_COLLATE) ∧
    (Scollate lib ⟨none, 0⟩ a b).st.collationLocaleSet = 1 := by
  have key : (lib.getenv "LC_ALL" = some "C" ∨
        ((lib.getenv "LC_ALL" = none ∨ lib.getenv "LC_ALL" = some "") ∧
          lib.getenv "LC_COLLATE" = some "C")) ↔
      (match lib.getenv "LC_ALL" with
        | some e => if e ≠ "" then some e else lib.getenv "LC_COLLATE"
        | none => lib.getenv "LC_COLLATE") = some "C" := by
    cases h : lib.getenv "LC_ALL" with
    | none => simp
    | some e =>
      by_cases he : e = ""
      · subst he; simp
      · simp only [ne_eq, he, not_false_eq_true, if_true, Option.some.injEq, reduceCtorEq,
          false_or, false_and, or_false]
  have hinit : ScollateInit lib ⟨none, 0⟩ =
      if ¬ (lib.getenv "LC_ALL" = some "C" ∨
          ((lib.getenv "LC_ALL" = none ∨ lib.getenv "LC_ALL" = some "") ∧
            lib.getenv "LC_COLLATE" = some "C")) ∧ getLocale lib ≠ "C" then
        if lib.uloc_setDefault (getLocale lib) then
          ⟨⟨none, 1⟩, .error "failed to set ICU locale"⟩
        else
          match lib.ucol_open (getLocale lib) with
          | none => ⟨⟨none, 1⟩, .error "failed to open ICU collator"⟩
          | some c => ⟨⟨some c, 1⟩, .ok ()⟩
      else ⟨⟨none, 1⟩, .ok ()⟩ := by
    unfold ScollateInit
    dsimp only []
    have key2 : (¬ (lib.getenv "LC_ALL" = some "C" ∨
          ((lib.getenv "LC_ALL" = none ∨ lib.getenv "LC_ALL" = some "") ∧
            lib.getenv "LC_COLLATE" = some "C")) ∧ getLocale lib ≠ "C") ↔
        (¬ ((match lib.getenv "LC_ALL" with
          | some e => if e ≠ "" then some e else lib.getenv "LC_COLLATE"
          | none => lib.getenv "LC_COLLATE") = some "C") ∧ getLocale lib ≠ "C") := by
      rw [key]
    exact if_congr key2.symm rfl rfl
  rw [Scollate_st, hinit]
  refine ⟨fun h => ?_, fun h => ⟨fun hc => ?_, fun hc hs => ?_⟩, fun p hp hne => ?_,
    fun h => ?_, ?_⟩
  · rw [if_neg (fun hh => hh.1 h)]
  · rw [if_neg (fun hh => hh.2 hc)]
  · rw [if_pos ⟨h, hc⟩, hs]
    simp only [Bool.false_eq_true, if_false]
    cases lib.ucol_open (getLocale lib) <;> rfl
  · simp [getLocale, hp, hne]
  · rcases h with h | h <;> simp [getLocale, h]
  · split_ifs
    · rfl
    · cases lib.ucol_open (getLocale lib) <;> rfl
    · rfl

/-- The environments `R_ICU_LOCALE=da_DK` with `LC_ALL=C`, and `R_ICU_LOCALE=da_DK` alone. -/
theorem Scollate_lazy_init_witness :
    (Scollate (⟨fun _ => false, fun _ => some 0, fun _ v => v, fun _ _ v => some v,
        fun _ _ _ => some 7, fun _ _ => 5,
        fun v => if v = "R_ICU_LOCALE" then some "da_DK" else
          if v = "LC_ALL" then some "C" else none,
        "en_US.UTF-8", id, id⟩ : ICULib Int (List Nat)) ⟨none, 0⟩ [0x61, 0] [0x62, 0]).st
      = ⟨none, 1⟩ ∧
    (Scollate (⟨fun _ => false, fun _ => some 0, fun _ v => v, fun _ _ v => some v,
        fun _ _ _ => some 7, fun _ _ => 5,
        fun v => if v = "R_ICU_LOCALE" then some "da_DK" else none,
        "en_US.UTF-8", id, id⟩ : ICULib Int (List Nat)) ⟨none, 0⟩ [0x61, 0] [0x62, 0]).st
      = ⟨some 0, 1⟩ :=
  ⟨(Scollate_lazy_init _ [0x61, 0] [0x62, 0]).1 (Or.inl (by decide)),
   ((Scollate_lazy_init _ [0x61, 0] [0x62, 0]).2.1 (by decide)).2 (by decide) rfl⟩

/-! ## C34 -/

/-- C34, the failing input: for `0x200000` `Rwcrtomb32` writes the 5-byte form
`F8 88 80 80 80`, and `utf8toucs` (32-bit `wchar_t`) returns 5 for it with the value
`0x8008000`: the 5-byte branch keeps four bits of the lead byte and shifts the second byte by
12.  So for the largest 5-byte value `0x3FFFFFF`.  The 6-byte values `0x4000000` and
`0x7FFFFFFF` come back. -/
theorem utf8toucs_five_byte_form_wrong :
    Rwcrtomb32 (some [0, 0, 0, 0, 0, 0, 0, 0]) 0 0x200000 8
      = (some [0xF8, 0x88, 0x80, 0x80, 0x80, 0, 0, 0], 5) ∧
    utf8toucs 32 [0xF8, 0x88, 0x80, 0x80, 0x80, 0, 0, 0] = ⟨5, some 0x8008000⟩ ∧
    Rwcrtomb32 (some [0, 0, 0, 0, 0, 0, 0, 0]) 0 0x3FFFFFF 8
      = (some [0xFB, 0xBF, 0xBF, 0xBF, 0xBF, 0, 0, 0], 5) ∧
    utf8toucs 32 [0xFB, 0xBF, 0xBF, 0xBF, 0xBF, 0, 0, 0] = ⟨5, some 0xB03FFFF⟩ ∧
    Rwcrtomb32 (some [0, 0, 0, 0, 0, 0, 0, 0]) 0 0x4000000 8
      = (some [0xFC, 0x84, 0x80, 0x80, 0x80, 0x80, 0, 0], 6) ∧
    utf8toucs 32 [0xFC, 0x84, 0x80, 0x80, 0x80, 0x80, 0, 0] = ⟨6, some 0x4000000⟩ ∧
    Rwcrtomb32 (some [0, 0, 0, 0, 0, 0, 0, 0]) 0 0x7FFFFFFF 8
      = (some [0xFD, 0xBF, 0xBF, 0xBF, 0xBF, 0xBF, 0, 0], 6) ∧
    utf8toucs 32 [0xFD, 0xBF, 0xBF, 0xBF, 0xBF, 0xBF, 0, 0] = ⟨6, some 0x7FFFFFFF⟩ := by
  decide

/-! ## C35 -/

set_option maxRecDepth 100000 in
/-- C35, the failing input: for the 4-byte sequence `F0 90 80 80` (U+10000, decoded with
`used = 4`), the round of `Rf_utf8Toutf8NoPUA` stores into `inChar[0..3]` and then into
`inChar[4]`, one past the end of `char inChar[4]`; the call then ends with the error
'Conversion failed'.  For the 3-byte sequence of U+F8E5 the last index is 3. -/
theorem Rf_utf8Toutf8NoPUA_writes_inChar_4 :
    utf8toucs 32 [0xF0, 0x90, 0x80, 0x80, 0] = ⟨4, some 0x10000⟩ ∧
    inCharWrites (utf8toucs 32) [0xF0, 0x90, 0x80, 0x80, 0] 0 = [0, 1, 2, 3, 4] ∧
    ¬ ((4 : Int) < inCharSize) ∧
    Rf_utf8Toutf8NoPUA (utf8toucs 32) (List.replicate 13 0) [0xF0, 0x90, 0x80, 0x80, 0]
      = .error "Conversion failed" ∧
    inCharWrites (utf8toucs 32) [0xEF, 0xA3, 0xA5, 0] 0 = [0, 1, 2, 3] := by
  refine ⟨by decide, by decide, by decide, by decide, by decide⟩

/-! ## C36 -/

/-- C36, the failing input: for `cvalue = 0x80000000` and `n = 8` the scan of `utf8_table1`
ends with `i = 6`, the test `i >= n - 1` does not hold, and `Rwcrtomb32` goes on to read
`utf8_table2[6]`, past the 6 entries of the table (the embedding reads `0` there), and to
write 7 bytes (indices 0 to 6); it returns 7. -/
theorem Rwcrtomb32_table_index_6 :
    tableIndex 0x80000000 = 6 ∧
    utf8_table2.length = 6 ∧
    Rwcrtomb32 (some [9, 9, 9, 9, 9, 9, 9, 9]) 0 0x80000000 8
      = (some [0x00, 0x82, 0x80, 0x80, 0x80, 0x80, 0x80, 9], 7) ∧
    Rwcrtomb32 (some [9, 9, 9, 9, 9, 9, 9, 9]) 0 0xFFFFFFFF 8
      = (some [0x00, 0x83, 0xBF, 0xBF, 0xBF, 0xBF, 0xBF, 9], 7) := by
  decide

/-! ## Hexadecimal mantissa with a separator -/

theorem hexVal_append (ans : Nat) (a b : List Nat) :
    hexVal ans (a ++ b) = hexVal (hexVal ans a) b := by
  simp [hexVal, List.foldl_append]

theorem hexMantissa_stop (dec : Nat) (rest : List Nat) (ans : Nat) (e : Int)
    (hr : isHexDigit (byteAt rest 0) = false) (hsep : byteAt rest 0 ≠ dec % 256) :
    hexMantissa dec rest ans e = (ans, e, 0) := by
  cases rest with
  | nil => rfl
  | cons c r =>
    rw [byteAt_cons_zero] at hr hsep
    simp only [isHexDigit, Bool.or_eq_false_iff, Bool.and_eq_false_iff,
      decide_eq_false_iff_not] at hr
    have h1 : ¬ (48 ≤ c % 256 ∧ c % 256 ≤ 57) := by omega
    have h2 : ¬ (97 ≤ c % 256 ∧ c % 256 ≤ 102) := by omega
    have h3 : ¬ (65 ≤ c % 256 ∧ c % 256 ≤ 70) := by omega
    simp only [hexMantissa, h1, h2, h3, hsep, if_false]

theorem hexMantissa_sep (dec : Nat) (t : List Nat) (ans : Nat) (e : Int) (hd : dec < 256)
    (hdh : isHexDigit dec = false) :
    hexMantissa dec (dec :: t) ans e =
      ((hexMantissa dec t ans 0).1, (hexMantissa dec t ans 0).2.1,
        (hexMantissa dec t ans 0).2.2 + 1) := by
  have hm : dec % 256 = dec := Nat.mod_eq_of_lt hd
  simp only [isHexDigit, Bool.or_eq_false_iff, Bool.and_eq_false_iff,
    decide_eq_false_iff_not] at hdh
  have h1 : ¬ (48 ≤ dec ∧ dec ≤ 57) := by omega
  have h2 : ¬ (97 ≤ dec ∧ dec ≤ 102) := by omega
  have h3 : ¬ (65 ≤ dec ∧ dec ≤ 70) := by omega
  simp only [hexMantissa, hm, h1, h2, h3, if_false, if_true]

theorem hexMantissa_digits (dec : Nat) (H t : List Nat) (ans : Nat) (e : Int)
    (hH : ∀ c ∈ H, isHexDigit c = true) :
    hexMantissa dec (H ++ t) ans e =
      ((hexMantissa dec t (hexVal ans H) (if e ≥ 0 then e + 4 * (H.length : Int) else e)).1,
       (hexMantissa dec t (hexVal ans H) (if e ≥ 0 then e + 4 * (H.length : Int) else e)).2.1,
       (hexMantissa dec t (hexVal ans H) (if e ≥ 0 then e + 4 * (H.length : Int) else e)).2.2
         + H.length) := by
  induction H generalizing ans e with
  | nil => simp [hexVal]
  | cons c H ih =>
    obtain ⟨hm, hc⟩ := isHexDigit_facts c (hH c (by simp))
    have hrec := fun a e' => ih a e' (fun x hx => hH x (by simp [hx]))
    have hv : hexVal ans (c :: H) = hexVal (16 * ans + hexDigitVal c) H := rfl
    have hb : (if (if e ≥ 0 then e + 4 else e) ≥ 0
          then (if e ≥ 0 then e + 4 else e) + 4 * (H.length : Int)
          else (if e ≥ 0 then e + 4 else e))
        = (if e ≥ 0 then e + 4 * ((c :: H).length : Int) else e) := by
      simp only [List.length_cons, Nat.cast_add, Nat.cast_one]
      split_ifs <;> omega
    rw [hv, ← hb]
    simp only [List.cons_append, List.append_eq, hexMantissa, hm, List.length_cons]
    rcases hc with h | h | h
    · have e1 : hexDigitVal c = c - 48 := by simp only [hexDigitVal]; split_ifs <;> omega
      simp only [h, and_self, if_true, e1, hrec, Nat.add_assoc]
    · have e1 : hexDigitVal c = c - 97 + 10 := by simp only [hexDigitVal]; split_ifs <;> omega
      have n1 : ¬ (48 ≤ c ∧ c ≤ 57) := by omega
      simp only [n1, h, and_self, if_true, if_false, e1, hrec, Nat.add_assoc]
    · have e1 : hexDigitVal c = c - 65 + 10 := by simp only [hexDigitVal]; split_ifs <;> omega
      have n1 : ¬ (48 ≤ c ∧ c ≤ 57) := by omega
      have n2 : ¬ (97 ≤ c ∧ c ≤ 102) := by omega
      simp only [n1, n2, h, and_self, if_true, if_false, e1, hrec, Nat.add_assoc]

theorem hexMantissa_fraction (dec : Nat) (H1 H2 rest : List Nat)
    (hH1 : ∀ c ∈ H1, isHexDigit c = true) (hH2 : ∀ c ∈ H2, isHexDigit c = true)
    (hd : dec < 256) (hdh : isHexDigit dec = false)
    (hr : isHexDigit (byteAt rest 0) = false) (hrd : byteAt rest 0 ≠ dec) :
    hexMantissa dec (H1 ++ dec :: (H2 ++ rest)) 0 (-1) =
      (hexVal 0 (H1 ++ H2), 4 * (H2.length : Int), H1.length + 1 + H2.length) := by
  have hm : dec % 256 = dec := Nat.mod_eq_of_lt hd
  rw [hexMantissa_digits dec H1 _ 0 (-1) hH1, hexMantissa_sep dec _ _ _ hd hdh,
    hexMantissa_digits dec H2 rest _ 0 hH2,
    hexMantissa_stop dec rest _ _ hr (by rw [hm]; exact hrd), hexVal_append]
  simp only [ge_iff_le, le_refl, if_true, zero_add, Nat.zero_add]
  refine Prod.ext rfl (Prod.ext rfl ?_)
  simp only
  omega

/-! ## C37 -/

/-- C37: for a hexadecimal literal `0x H1 dec H2` with no `p`/`P` after it (and `exact = FALSE`,
or a mantissa of at most `2^53 - 1`), `R_strtod5` consumes the whole literal and leaves with
the integer formed by all the hexadecimal digits of `H1` and `H2`: `exph = 4 * length H2` has
been counted, but no exponent was read, so the block that scales by `exph` is not entered. -/
theorem hex_fraction_without_exponent (H1 H2 rest : List Nat) (x dec : Nat) (NA : Bool)
    (exact : Int)
    (hH1 : ∀ c ∈ H1, isHexDigit c = true) (hH2 : ∀ c ∈ H2, isHexDigit c = true)
    (hx : x = 120 ∨ x = 88) (hd : dec < 256) (hd0 : dec ≠ 0) (hdh : isHexDigit dec = false)
    (hr : isHexDigit (byteAt rest 0) = false) (hrd : byteAt rest 0 ≠ dec)
    (hrp : byteAt rest 0 ≠ 112 ∧ byteAt rest 0 ≠ 80)
    (hex : exact = 0 ∨ hexVal 0 (H1 ++ H2) ≤ 2 ^ 53 - 1) :
    R_strtod5 (48 :: x :: (H1 ++ dec :: (H2 ++ rest))) dec NA exact =
      ⟨1, .hex (hexVal 0 (H1 ++ H2)) (4 * (H2.length : Int)) none,
        2 + (H1.length + 1 + H2.length), false⟩ := by
  have hnz : byteAt (H1 ++ dec :: (H2 ++ rest)) 0 ≠ 0 := by
    cases H1 with
    | nil =>
      rw [List.nil_append, byteAt_cons_zero, Nat.mod_eq_of_lt hd]
      exact hd0
    | cons c H' =>
      obtain ⟨hm, hc⟩ := isHexDigit_facts c (hH1 c (by simp))
      rw [List.cons_append, byteAt_cons_zero, hm]
      omega
  have hclause : strtod_EXACT_CLAUSE exact (hexVal 0 (H1 ++ H2)) = .pass false := by
    rcases hex with h | h
    · rw [h]; exact strtod_EXACT_CLAUSE_false _
    · have hk : (2 : Nat) ^ 53 - 1 = 9007199254740991 := by norm_num
      rw [hk] at h
      have h' : ¬ 9007199254740991 < hexVal 0 (H1 ++ H2) := by omega
      simp [strtod_EXACT_CLAUSE, h']
  have hdrop : List.drop (2 + (H1.length + 1 + H2.length))
      (48 :: x :: (H1 ++ dec :: (H2 ++ rest))) = rest := by
    rw [Nat.add_comm 2, List.drop_succ_cons, List.drop_succ_cons,
      show H1.length + 1 + H2.length = H1.length + (1 + H2.length) by omega,
      ← List.drop_drop, List.drop_left, Nat.add_comm 1, List.drop_succ_cons, List.drop_left]
  have hd2 : List.drop 2 (48 :: x :: (H1 ++ dec :: (H2 ++ rest)))
      = H1 ++ dec :: (H2 ++ rest) := rfl
  have hp : ¬ (byteAt rest 0 = 112 ∨ byteAt rest 0 = 80) := fun h => h.elim hrp.1 hrp.2
  rw [R_strtod5_hex x _ dec NA exact hx hnz]
  unfold strtodHex
  simp only [hd2, hexMantissa_fraction dec H1 H2 rest hH1 hH2 hd hdh hr hrd, hclause, hdrop,
    hp, if_false, Nat.zero_add]

/-- The literal "0x1.8": mantissa `0x18 = 24`, 5 characters consumed. -/
theorem hex_fraction_without_exponent_witness :
    R_strtod5 (48 :: 120 :: ([49] ++ 46 :: ([56] ++ []))) 46 false 1 =
      ⟨1, .hex (hexVal 0 ([49] ++ [56])) (4 * (([56] : List Nat).length : Int)) none,
        2 + (([49] : List Nat).length + 1 + ([56] : List Nat).length), false⟩ ∧
    hexVal 0 ([49] ++ [56]) = 24 :=
  ⟨hex_fraction_without_exponent [49] [56] [] 120 46 false 1 (by decide) (by decide)
    (by decide) (by decide) (by decide) (by decide) (by decide) (by decide) (by decide)
    (by decide), by decide⟩

/-! ## `compareNumericVersion` against the padded lexicographic order -/

theorem lexSign_self (a : List Int) : lexSign a a = 0 := by
  induction a with
  | nil => rfl
  | cons x xs ih => simp [lexSign, ih]

theorem lexSign_antisymm (a b : List Int) : lexSign a b = -lexSign b a := by
  induction a generalizing b with
  | nil => cases b <;> simp [lexSign]
  | cons x xs ih =>
    cases b with
    | nil => simp [lexSign]
    | cons y ys =>
      simp only [lexSign]
      rcases lt_trichotomy x y with h | h | h
      · have : ¬ y < x := by omega
        simp [h, this]
      · subst h
        simp [ih ys]
      · have : ¬ x < y := by omega
        simp [h, this]

theorem lexSign_zeros_right (x : List Int) (hx : ∀ v ∈ x, 0 ≤ v) :
    lexSign x (List.replicate x.length 0) = if x.any (fun v => decide (v > 0)) then 1 else 0 := by
  induction x with
  | nil => rfl
  | cons a xs ih =>
    have ha := hx a (by simp)
    have := ih (fun v hv => hx v (by simp [hv]))
    simp only [List.length_cons, List.replicate_succ, lexSign, List.any_cons, Bool.or_eq_true,
      decide_eq_true_eq]
    by_cases h0 : a > 0
    · have : ¬ a < 0 := by omega
      simp [h0, this]
    · have h1 : ¬ a < 0 := by omega
      simp only [h1, h0, if_false, false_or]
      exact this

theorem lexSign_zeros_left (y : List Int) (hy : ∀ v ∈ y, 0 ≤ v) :
    lexSign (List.replicate y.length 0) y
      = if y.any (fun v => decide (v > 0)) then -1 else 0 := by
  rw [lexSign_antisymm, lexSign_zeros_right y hy]
  split_ifs <;> rfl

theorem compareRest_cons (m : Nat) (a b : Int) (xs ys : List Int) :
    compareRest (m + 1) (a :: xs) (b :: ys) = compareRest m xs ys := by
  simp [compareRest]

theorem compare_body (x y : List Int) (hx : ∀ v ∈ x, 0 ≤ v) (hy : ∀ v ∈ y, 0 ≤ v) :
    (match compareCommon x y with
      | some r => r
      | none => compareRest (if x.length > y.length then y.length else x.length) x y)
      = lexSign (padZeros (max x.length y.length) x) (padZeros (max x.length y.length) y) := by
  induction x generalizing y with
  | nil =>
    have h1 : compareCommon [] y = none := by cases y <;> rfl
    have h2 : padZeros (max ([] : List Int).length y.length) y = y := by
      simp [padZeros]
    have h3 : padZeros (max ([] : List Int).length y.length) [] = List.replicate y.length 0 := by
      simp [padZeros]
    rw [h1, h2, h3, lexSign_zeros_left y hy]
    cases y with
    | nil => rfl
    | cons b ys => simp [compareRest]
  | cons a xs ih =>
    cases y with
    | nil =>
      have h2 : padZeros (max (a :: xs).length ([] : List Int).length) (a :: xs) = a :: xs := by
        simp [padZeros]
      have h3 : padZeros (max (a :: xs).length ([] : List Int).length) []
          = List.replicate (a :: xs).length 0 := by
        simp [padZeros]
      rw [h2, h3, lexSign_zeros_right _ hx]
      simp [compareCommon, compareRest]
    | cons b ys =>
      have hpx : padZeros (max (a :: xs).length (b :: ys).length) (a :: xs)
          = a :: padZeros (max xs.length ys.length) xs := by
        have e : max (xs.length + 1) (ys.length + 1) - (xs.length + 1)
            = max xs.length ys.length - xs.length := by omega
        simp only [padZeros, List.length_cons, List.cons_append, e]
      have hpy : padZeros (max (a :: xs).length (b :: ys).length) (b :: ys)
          = b :: padZeros (max xs.length ys.length) ys := by
        have e : max (xs.length + 1) (ys.length + 1) - (ys.length + 1)
            = max xs.length ys.length - ys.length := by omega
        simp only [padZeros, List.length_cons, List.cons_append, e]
      have hnc : (if (a :: xs).length > (b :: ys).length then (b :: ys).length
          else (a :: xs).length)
          = (if xs.length > ys.length then ys.length else xs.length) + 1 := by
        simp only [List.length_cons]
        split_ifs <;> omega
      rw [hpx, hpy, hnc]
      simp only [compareCommon, lexSign]
      rcases lt_trichotomy a b with h | h | h
      · have : ¬ a > b := by omega
        simp [h, this]
      · subst h
        simp only [gt_iff_lt, lt_self_iff_false, if_false, compareRest_cons]
        exact ih ys (fun v hv => hx v (by simp [hv])) (fun v hv => hy v (by simp [hv]))
      · have : ¬ a < b := by omega
        simp [h, this]

theorem compareCommon_range (x y : List Int) (r : Int) (h : compareCommon x y = some r) :
    r = 1 ∨ r = -1 := by
  induction x generalizing y with
  | nil => cases y <;> simp [compareCommon] at h
  | cons a xs ih =>
    cases y with
    | nil => simp [compareCommon] at h
    | cons b ys =>
      simp only [compareCommon] at h
      split_ifs at h with h1 h2
      · left; exact (Option.some.inj h).symm
      · right; exact (Option.some.inj h).symm
      · exact ih ys h

theorem compareRest_range (nc : Nat) (x y : List Int) :
    compareRest nc x y = 1 ∨ compareRest nc x y = 0 ∨ compareRest nc x y = -1 := by
  unfold compareRest
  split_ifs <;> simp

theorem compareNumericVersion_nonempty (x y : List Int) (hx : x ≠ []) (hy : y ≠ []) :
    compareNumericVersion x y =
      match compareCommon x y with
      | some r => r
      | none => compareRest (if x.length > y.length then y.length else x.length) x y := by
  have h1 : 0 < x.length := List.length_pos.mpr hx
  have h2 : 0 < y.length := List.length_pos.mpr hy
  have : ¬ (if x.length > y.length then y.length else x.length) = 0 := by
    split_ifs <;> omega
  simp only [compareNumericVersion, this, if_false]

/-! ## C39 -/

theorem lexSign_append_zeros (a b : List Int) (h : a.length = b.length) (j : Nat) :
    lexSign (a ++ List.replicate j 0) (b ++ List.replicate j 0) = lexSign a b := by
  induction a generalizing b with
  | nil =>
    cases b with
    | nil => simp [lexSign_self, lexSign]
    | cons y ys => simp at h
  | cons x xs ih =>
    cases b with
    | nil => simp at h
    | cons y ys =>
      simp only [List.cons_append, List.append_eq, lexSign]
      rw [ih ys (by simpa using h)]

theorem padZeros_length (n : Nat) (l : List Int) (h : l.length ≤ n) :
    (padZeros n l).length = n := by
  simp only [padZeros, List.length_append, List.length_replicate]
  omega

theorem padZeros_more (n m : Nat) (l : List Int) (h : l.length ≤ n) (hm : n ≤ m) :
    padZeros m l = padZeros n l ++ List.replicate (m - n) 0 := by
  have e : m - l.length = (n - l.length) + (m - n) := by omega
  simp only [padZeros, e, List.replicate_add, List.append_assoc]

theorem padZeros_append_zeros (m k : Nat) (l : List Int) (h : l.length + k ≤ m) :
    padZeros m (l ++ List.replicate k 0) = padZeros m l := by
  have e : m - l.length = k + (m - (l.length + k)) := by omega
  simp only [padZeros, List.length_append, List.length_replicate, e, List.replicate_add,
    List.append_assoc]

theorem padLex_append_zeros (x y : List Int) (k : Nat) :
    lexSign (padZeros (max (x ++ List.replicate k 0).length y.length) (x ++ List.replicate k 0))
        (padZeros (max (x ++ List.replicate k 0).length y.length) y)
      = lexSign (padZeros (max x.length y.length) x) (padZeros (max x.length y.length) y) := by
  have hl : (x ++ List.replicate k (0 : Int)).length = x.length + k := by simp
  rw [hl, padZeros_append_zeros _ k x (by omega),
    padZeros_more (max x.length y.length) (max (x.length + k) y.length) x (by omega) (by omega),
    padZeros_more (max x.length y.length) (max (x.length + k) y.length) y (by omega) (by omega)]
  exact lexSign_append_zeros _ _
    (by rw [padZeros_length _ _ (by omega), padZeros_length _ _ (by omega)]) _

theorem compareNumericVersion_padLex (x y : List Int) (hx : x ≠ []) (hy : y ≠ [])
    (hx0 : ∀ v ∈ x, 0 ≤ v) (hy0 : ∀ v ∈ y, 0 ≤ v) :
    compareNumericVersion x y
      = lexSign (padZeros (max x.length y.length) x) (padZeros (max x.length y.length) y) := by
  rw [compareNumericVersion_nonempty x y hx hy]
  exact compare_body x y hx0 hy0

/-- C39: `compareNumericVersion` returns `NA_INTEGER` iff `x` or `y` is empty.  For non-empty
`x` and `y` with all components non-negative it returns the sign of the lexicographic
comparison of `x` and `y` padded with trailing zeros to the same length; so
`compare(x, y) = -compare(y, x)`, `compare(x, x) = 0`, and appending zeros to either argument
does not change the result. -/
theorem compareNumericVersion_spec (x y : List Int) :
    (compareNumericVersion x y = NA_INTEGER ↔ x = [] ∨ y = []) ∧
    (x ≠ [] → y ≠ [] → (∀ v ∈ x, 0 ≤ v) → (∀ v ∈ y, 0 ≤ v) →
      compareNumericVersion x y
        = lexSign (padZeros (max x.length y.length) x) (padZeros (max x.length y.length) y) ∧
      compareNumericVersion x y = -compareNumericVersion y x ∧
      compareNumericVersion x x = 0 ∧
      ∀ k, compareNumericVersion (x ++ List.replicate k 0) y = compareNumericVersion x y ∧
        compareNumericVersion x (y ++ List.replicate k 0) = compareNumericVersion x y) := by
  constructor
  · constructor
    · intro h
      by_contra hne
      simp only [not_or] at hne
      rw [compareNumericVersion_nonempty x y hne.1 hne.2] at h
      cases hc : compareCommon x y with
      | some r =>
        rw [hc] at h
        simp only at h
        rcases compareCommon_range x y r hc with e | e <;> rw [e] at h <;>
          exact absurd h (by decide)
      | none =>
        rw [hc] at h
        simp only at h
        rcases compareRest_range (if x.length > y.length then y.length else x.length) x y
          with e | e | e <;> rw [e] at h <;> exact absurd h (by decide)
    · intro h
      have : (if x.length > y.length then y.length else x.length) = 0 := by
        rcases h with rfl | rfl
        · simp
        · simp only [List.length_nil]
          split_ifs <;> omega
      simp only [compareNumericVersion, this, if_true]
  · intro hx hy hx0 hy0
    have hz : ∀ k, ∀ v ∈ List.replicate k (0 : Int), 0 ≤ v := by
      intro k v hv
      rw [List.eq_of_mem_replicate hv]
    have hxk : ∀ k, x ++ List.replicate k 0 ≠ [] := fun k h => hx (List.append_eq_nil.mp h).1
    have hyk : ∀ k, y ++ List.replicate k 0 ≠ [] := fun k h => hy (List.append_eq_nil.mp h).1
    have hxk0 : ∀ k, ∀ v ∈ x ++ List.replicate k 0, 0 ≤ v := by
      intro k v hv
      rcases List.mem_append.mp hv with h | h
      · exact hx0 v h
      · exact hz k v h
    have hyk0 : ∀ k, ∀ v ∈ y ++ List.replicate k 0, 0 ≤ v := by
      intro k v hv
      rcases List.mem_append.mp hv with h | h
      · exact hy0 v h
      · exact hz k v h
    refine ⟨compareNumericVersion_padLex x y hx hy hx0 hy0, ?_, ?_, fun k => ⟨?_, ?_⟩⟩
    · rw [compareNumericVersion_padLex x y hx hy hx0 hy0,
        compareNumericVersion_padLex y x hy hx hy0 hx0, max_comm y.length x.length]
      exact lexSign_antisymm _ _
    · rw [compareNumericVersion_padLex x x hx hx hx0 hx0]
      exact lexSign_self _
    · rw [compareNumericVersion_padLex _ y (hxk k) hy (hxk0 k) hy0,
        compareNumericVersion_padLex x y hx hy hx0 hy0]
      exact padLex_append_zeros x y k
    · rw [compareNumericVersion_padLex x _ hx (hyk k) hx0 (hyk0 k),
        compareNumericVersion_padLex x y hx hy hx0 hy0, lexSign_antisymm,
        lexSign_antisymm (padZeros (max x.length y.length) x),
        max_comm x.length (y ++ List.replicate k (0 : Int)).length, max_comm x.length y.length,
        padLex_append_zeros y x k]

/-- The versions 1.2.0 and 1.2, and 1.10 against 1.9.3. -/
theorem compareNumericVersion_spec_witness :
    compareNumericVersion [1, 2, 0] [1, 2] = 0 ∧
    compareNumericVersion [1, 10] [1, 9, 3] = 1 ∧
    compareNumericVersion [1, 9, 3] [1, 10] = -1 ∧
    compareNumericVersion [] [1] = NA_INTEGER :=
  ⟨(((compareNumericVersion_spec [1, 2] [1, 2]).2 (by decide) (by decide) (by decide)
      (by decide)).2.2.2 1).1.trans
      ((compareNumericVersion_spec [1, 2] [1, 2]).2 (by decide) (by decide) (by decide)
        (by decide)).2.2.1,
   ((compareNumericVersion_spec [1, 10] [1, 9, 3]).2 (by decide) (by decide) (by decide)
      (by decide)).1,
   ((compareNumericVersion_spec [1, 9, 3] [1, 10]).2 (by decide) (by decide) (by decide)
      (by decide)).1,
   (compareNumericVersion_spec [] [1]).1.mpr (Or.inl rfl)⟩

/-! ## `bincode` within the range of `int` -/

theorem wrapInt32_small (v : Int) (h0 : 0 ≤ v) (h1 : v < 2147483648) : wrapInt32 v = v := by
  unfold wrapInt32
  omega

theorem midpoint_bounds (lo hi : Int) (h0 : 0 ≤ lo) (h : hi - lo ≥ 2) (hhi : hi ≤ 1073741824) :
    lo < Int.tdiv (wrapInt32 (hi + lo)) 2 ∧ Int.tdiv (wrapInt32 (hi + lo)) 2 < hi := by
  rw [wrapInt32_small _ (by omega) (by omega), Int.tdiv_eq_ediv (by omega) (by omega)]
  constructor <;> omega

/-- The search returns `k` when every probe above `k - 1` sends it left and every probe below
`k` sends it right. -/
theorem bincodeSearch_spec {α : Type} [LinearOrder α] (breaks : Nat → Option α) (nb : Nat)
    (x : α) (lft : Bool) (k : Int) :
    ∀ (fuel : Nat) (lo hi : Int), 0 ≤ lo → lo < k → k ≤ hi → hi < nb → hi ≤ 1073741824 →
      hi - lo ≤ fuel →
      (∀ m : Int, lo < m → m < hi →
        ((dlt (breaks m.toNat) (some x) || (lft && deq (some x) (breaks m.toNat))) = true
            → m < k) ∧
        ((dlt (breaks m.toNat) (some x) || (lft && deq (some x) (breaks m.toNat))) = false
            → k ≤ m)) →
      bincodeSearch breaks nb x lft fuel lo hi = .ok k := by
  intro fuel
  induction fuel with
  | zero =>
    intro lo hi h0 h1 h2 _ _ hf _
    exfalso
    simp only [Nat.cast_zero] at hf
    omega
  | succ n ih =>
    intro lo hi h0 h1 h2 h3 h4 hf hprobe
    unfold bincodeSearch
    by_cases hgap : hi - lo ≥ 2
    · obtain ⟨hm1, hm2⟩ := midpoint_bounds lo hi h0 hgap h4
      have hin : ¬ (Int.tdiv (wrapInt32 (hi + lo)) 2 < 0 ∨
          (nb : Int) ≤ Int.tdiv (wrapInt32 (hi + lo)) 2) := by omega
      simp only [hgap, if_true, hin, if_false]
      have hp := hprobe _ hm1 hm2
      cases hc : (dlt (breaks (Int.tdiv (wrapInt32 (hi + lo)) 2).toNat) (some x) ||
          (lft && deq (some x) (breaks (Int.tdiv (wrapInt32 (hi + lo)) 2).toNat)))
      · simp only [Bool.false_eq_true, if_false]
        have hk := hp.2 hc
        exact ih lo _ h0 h1 hk (by omega) (by omega)
          (by simp only [Nat.cast_add, Nat.cast_one] at hf; omega)
          (fun m hm1' hm2' => hprobe m hm1' (by omega))
      · simp only [if_true]
        have hk := hp.1 hc
        exact ih _ hi (by omega) hk h2 h3 h4
          (by simp only [Nat.cast_add, Nat.cast_one] at hf; omega)
          (fun m hm1' hm2' => hprobe m (by omega) hm2')
    · simp only [hgap, if_false]
      congr 1
      omega

theorem strictMono_le {α : Type} [LinearOrder α] (b : Nat → α) (nb : Nat)
    (hinc : ∀ i j, i < j → j < nb → b i < b j) (i j : Nat) (hij : i ≤ j) (hj : j < nb) :
    b i ≤ b j := by
  rcases Nat.lt_or_eq_of_le hij with h | h
  · exact le_of_lt (hinc i j h hj)
  · rw [h]

theorem strictMono_lt_index {α : Type} [LinearOrder α] (b : Nat → α) (nb : Nat)
    (hinc : ∀ i j, i < j → j < nb → b i < b j) (i j : Nat) (hi : i < nb)
    (h : b i < b j) : i < j := by
  by_contra hc
  exact absurd h (not_lt.mpr (strictMono_le b nb hinc j i (by omega) hi))

/-- Within the range of `int` (at most `2^30 + 1` breaks), `bincode` stores for a non-NaN `x`
the code of the interval that holds it, and `NA_INTEGER` for a NaN or a value outside the
breaks or on the open border. -/
theorem bincodeElt_small {α : Type} [LinearOrder α] (b : Nat → α) (nb : Nat) (v : α)
    (ib : Bool) (hnb : 2 ≤ nb) (hsmall : nb ≤ 1073741825)
    (hinc : ∀ i j, i < j → j < nb → b i < b j) :
    (∀ k : Nat, 1 ≤ k → k < nb → b (k - 1) < v → v ≤ b k →
      bincodeElt (fun i => some (b i)) nb true ib (some v) = .ok (k : Int)) ∧
    (v = b 0 → ib = true →
      bincodeElt (fun i => some (b i)) nb true ib (some v) = .ok 1) ∧
    (v < b 0 ∨ b (nb - 1) < v ∨ (v = b 0 ∧ ib = false) →
      bincodeElt (fun i => some (b i)) nb true ib (some v) = .ok NA_INTEGER) ∧
    (∀ k : Nat, 1 ≤ k → k < nb → b (k - 1) ≤ v → v < b k →
      bincodeElt (fun i => some (b i)) nb false ib (some v) = .ok (k : Int)) ∧
    (v = b (nb - 1) → ib = true →
      bincodeElt (fun i => some (b i)) nb false ib (some v) = .ok ((nb : Int) - 1)) ∧
    (v < b 0 ∨ b (nb - 1) < v ∨ (v = b (nb - 1) ∧ ib = false) →
      bincodeElt (fun i => some (b i)) nb false ib (some v) = .ok NA_INTEGER) ∧
    (∀ right : Bool,
      bincodeElt (fun i => some (b i)) nb right ib (none : Option α) = .ok NA_INTEGER) := by
  have hnb0 : nb ≠ 0 := by omega
  have hmono := strictMono_le b nb hinc
  have hidx := strictMono_lt_index b nb hinc
  have h0last : b 0 < b (nb - 1) := hinc 0 (nb - 1) (by omega) (by omega)
  refine ⟨?_, ?_, ?_, ?_, ?_, ?_, ?_⟩
  · intro k hk1 hk2 hlo hhi
    have h1 : ¬ v < b 0 := not_lt.mpr (le_trans (hmono 0 (k - 1) (by omega) (by omega))
      (le_of_lt hlo))
    have h2 : ¬ b (nb - 1) < v := not_lt.mpr (le_trans hhi (hmono k (nb - 1) (by omega)
      (by omega)))
    have h3 : ¬ v = b 0 := fun e => h1 (by
      have := lt_of_le_of_lt (hmono 0 (k - 1) (by omega) (by omega)) hlo
      rw [e] at this
      exact absurd this (lt_irrefl _))
    simp only [bincodeElt, hnb0, if_false, dlt, deq, h1, h2, h3, decide_False, Bool.or_false,
      Bool.false_and, Bool.not_true, Bool.false_eq_true, Bool.not_false, if_true]
    apply bincodeSearch_spec _ nb v false (k : Int) nb 0 ((nb : Int) - 1) (le_refl _)
      (by omega) (by omega) (by omega) (by omega) (by omega)
    intro m hm1 hm2
    have hmn : ((m.toNat : Nat) : Int) = m := Int.toNat_of_nonneg (by omega)
    simp only [dlt, deq, Bool.false_and, Bool.or_false, decide_eq_true_eq,
      decide_eq_false_iff_not, not_lt]
    constructor
    · intro h
      have := hidx m.toNat k (by omega) (lt_of_lt_of_le h hhi)
      omega
    · intro h
      have := hidx (k - 1) m.toNat (by omega) (lt_of_lt_of_le hlo h)
      omega
  · intro hv hib
    subst hv
    have h2 : ¬ b (nb - 1) < b 0 := not_lt.mpr (le_of_lt h0last)
    simp only [bincodeElt, hnb0, if_false, dlt, deq, lt_irrefl, h2, hib, decide_False,
      Bool.or_false, Bool.not_true, Bool.and_false, Bool.false_eq_true, Bool.not_false,
      if_true]
    apply bincodeSearch_spec _ nb (b 0) false 1 nb 0 ((nb : Int) - 1) (le_refl _)
      (by omega) (by omega) (by omega) (by omega) (by omega)
    intro m hm1 hm2
    simp only [dlt, deq, Bool.false_and, Bool.or_false, decide_eq_true_eq,
      decide_eq_false_iff_not, not_lt]
    constructor
    · intro h
      exact absurd h (not_lt.mpr (hmono 0 m.toNat (by omega) (by omega)))
    · intro _
      omega
  · intro h
    rcases h with h | h | ⟨h, hib⟩
    · simp only [bincodeElt, hnb0, if_false, dlt, h, decide_True, Bool.true_or, if_true]
    · simp only [bincodeElt, hnb0, if_false, dlt, h, decide_True, Bool.true_or, Bool.or_true,
        if_true]
    · simp only [bincodeElt, hnb0, if_false, deq, h, hib, Bool.not_true, Bool.false_eq_true,
        decide_True, Bool.not_false, Bool.and_self, Bool.or_true, if_true]
  · intro k hk1 hk2 hlo hhi
    have h1 : ¬ v < b 0 := not_lt.mpr (le_trans (hmono 0 (k - 1) (by omega) (by omega)) hlo)
    have h2 : ¬ b (nb - 1) < v := not_lt.mpr (le_of_lt (lt_of_lt_of_le hhi
      (hmono k (nb - 1) (by omega) (by omega))))
    have h3 : ¬ v = b (nb - 1) := fun e => by
      have := lt_of_lt_of_le hhi (hmono k (nb - 1) (by omega) (by omega))
      rw [e] at this
      exact absurd this (lt_irrefl _)
    simp only [bincodeElt, hnb0, if_false, dlt, deq, h1, h2, h3, decide_False, Bool.or_false,
      Bool.false_and, Bool.not_true, Bool.false_eq_true, Bool.not_false, if_true]
    apply bincodeSearch_spec _ nb v true (k : Int) nb 0 ((nb : Int) - 1) (le_refl _)
      (by omega) (by omega) (by omega) (by omega) (by omega)
    intro m hm1 hm2
    simp only [dlt, deq, Bool.true_and, Bool.or_eq_true, decide_eq_true_eq,
      Bool.or_eq_false_iff, decide_eq_false_iff_not, not_lt]
    constructor
    · intro h
      have hle : b m.toNat ≤ v := by
        rcases h with h | h
        · exact le_of_lt h
        · exact le_of_eq h.symm
      have := hidx m.toNat k (by omega) (lt_of_le_of_lt hle hhi)
      omega
    · intro h
      have hlt : v < b m.toNat := lt_of_le_of_ne h.1 h.2
      have := hidx (k - 1) m.toNat (by omega) (lt_of_le_of_lt hlo hlt)
      omega
  · intro hv hib
    subst hv
    have h1 : ¬ b (nb - 1) < b 0 := not_lt.mpr (le_of_lt h0last)
    simp only [bincodeElt, hnb0, if_false, dlt, deq, lt_irrefl, h1, hib, decide_False,
      Bool.or_false, Bool.not_true, Bool.and_false, Bool.false_eq_true, Bool.not_false,
      if_true]
    apply bincodeSearch_spec _ nb (b (nb - 1)) true ((nb : Int) - 1) nb 0 ((nb : Int) - 1)
      (le_refl _) (by omega) (by omega) (by omega) (by omega) (by omega)
    intro m hm1 hm2
    simp only [dlt, deq, Bool.true_and, Bool.or_eq_true, decide_eq_true_eq,
      Bool.or_eq_false_iff, decide_eq_false_iff_not, not_lt]
    constructor
    · intro _
      exact hm2
    · intro h
      have := hinc m.toNat (nb - 1) (by omega) (by omega)
      exact absurd this (not_lt.mpr h.1)
  · intro h
    rcases h with h | h | ⟨h, hib⟩
    · simp only [bincodeElt, hnb0, if_false, dlt, h, decide_True, Bool.true_or, if_true]
    · simp only [bincodeElt, hnb0, if_false, dlt, h, decide_True, Bool.true_or, Bool.or_true,
        if_true]
    · simp only [bincodeElt, hnb0, if_false, deq, h, hib, Bool.not_false, Bool.not_true,
        if_true, decide_True, Bool.and_self, Bool.or_true]
  · intro right
    rfl

/-! ## C40 -/

/-- C40, the failing input: for "a/b//" the non-Windows `do_dirname` gives "a/b", while for
"a/b/" and "a/b" it gives "a": the first loop takes the address `buf + ll - 1` with the length
`ll` of the path as it came in, so it clears the last separator only and stops at the
terminator it has just written.  The same in a UTF-8 locale and in another multi-byte locale
(with a decoder of one byte per character). -/
theorem do_dirname_strips_one_separator :
    do_dirname true true (fun _ _ => 1) 6 4096 47
        [some [97, 47, 98, 47, 47], some [97, 47, 98, 47], some [97, 47, 98]]
      = .ok [some [97, 47, 98], some [97], some [97]] ∧
    do_dirname true false (fun _ _ => 1) 6 4096 47
        [some [97, 47, 98, 47, 47], some [97, 47, 98, 47], some [97, 47, 98]]
      = .ok [some [97, 47, 98], some [97], some [97]] := by
  refine ⟨by decide, by decide⟩

/-! ## C38 -/

theorem breaks_identity_sorted (nb : Nat) :
    (List.range nb).any (fun i => decide (1 ≤ i) &&
      dlt ((fun j : Nat => (some (j : Int) : Option Int)) i)
        ((fun j : Nat => (some (j : Int) : Option Int)) (i - 1))) = false := by
  rw [List.any_eq_false]
  intro i _
  simp only [dlt, Bool.and_eq_true, decide_eq_true_eq, not_and, not_lt]
  intro h
  omega

/-- C38, the failing input: for the `2^30 + 2` breaks `0, 1, ..., 2^30 + 1` and `x = 2^30`
(`right = TRUE`), the search reaches `lo = 2^30 - 1`, `hi = 2^30 + 1`, where `hi + lo = 2^31`
is not an `int`: wrapped, `new = (hi + lo)/2` is `-2^30`, and `breaks[new]` is read outside the
array; the code `2^30` of the claim is not produced.  With one break less (`2^30 + 1` breaks)
the same `x` gets the code `2^30`. -/
theorem bincode_midpoint_overflow :
    bincode [some (1073741824 : Int)] (fun j : Nat => (some (j : Int) : Option Int)) 1073741826
        true false = .error "index outside breaks" ∧
    Int.tdiv (wrapInt32 ((1073741825 : Int) + 1073741823)) 2 = -1073741824 ∧
    bincode [some (1073741824 : Int)] (fun j : Nat => (some (j : Int) : Option Int)) 1073741825
        true false = .ok [1073741824] := by
  refine ⟨?_, by decide, ?_⟩
  · unfold bincode
    rw [breaks_identity_sorted]
    decide
  · unfold bincode
    rw [breaks_identity_sorted]
    decide

end RUtil
